import Mathlib

/-! # gmxfio.c : the GROMACS generic file I/O layer

A shallow embedding of `src/gmxlib/gmxfio.c`: the token scanner `next_item`, the
three item codecs (`do_ascwrite`/`do_ascread`, `do_binwrite`/`do_binread`, `do_xdr`)
and the handle registry (`fio_open`, `fio_close`, `fio_select`, ...).

Conventions of the embedding

* a C `char` / byte is a `Nat` (its code), a C string is the list of its bytes
  without the terminating NUL, a stream is a list of bytes with a position;
* `void *item` is `Option (List Nat)`: `none` is the NULL pointer, `some m` points
  to storage whose bytes are `m`;
* C `int` is `Int`, reduced to 32 bits wherever the program stores it;
* a call either returns (`Res.ok`), ends the process through `fatal_error`
  (`Res.fatal`), has no defined behaviour in C (`Res.undefined`: NULL dereference,
  access outside an object), or exhausts the fuel of a loop (`Res.nofuel`).
-/

namespace Gmxfio

/-! ## Outcomes -/

/-- Outcome of running a piece of the program. -/
inductive Res (α : Type) where
  | ok (a : α)
  | fatal (msg : String)
  | undefined
  | nofuel
  deriving DecidableEq, Repr

/-- Sequencing of outcomes: the first outcome that is not `ok` ends the run. -/
def Res.bind {α β : Type} (r : Res α) (f : α → Res β) : Res β :=
  match r with
  | .ok a => f a
  | .fatal m => .fatal m
  | .undefined => .undefined
  | .nofuel => .nofuel

instance : Monad Res where
  pure := Res.ok
  bind := Res.bind

/-- The outcome is a normal return. -/
def Res.isOk {α : Type} : Res α → Bool
  | .ok _ => true
  | _ => false

/-! ## Characters and streams -/

/-- C `isspace` in the "C" locale: space, and the controls HT, LF, VT, FF, CR. -/
def isspace (c : Nat) : Bool := c == 32 || (9 ≤ c && c ≤ 13)

/-- The bytes of a string literal. -/
def str (s : String) : List Nat := s.toList.map Char.toNat

/-- A stdio stream over an in-memory file: the bytes of the file and the position. -/
structure FILE where
  data : List Nat
  pos : Nat
  deriving DecidableEq, Repr

/-- The bytes from the position to the end of the file. -/
def FILE.rest (fp : FILE) : List Nat := fp.data.drop fp.pos

/-- The characters C `fgets` takes when it may store at most `k` of them:
up to and including the first line feed. -/
def fgets_chars : Nat → List Nat → List Nat
  | 0, _ => []
  | _, [] => []
  | k + 1, c :: cs => if c = 10 then [c] else c :: fgets_chars k cs

/-- C `fgets(s, n, fp)`: `none` (NULL) at end of file, else the characters stored
(at most `n - 1`) and the advanced stream. -/
def fgets (n : Nat) (fp : FILE) : Option (List Nat × FILE) :=
  match fp.rest with
  | [] => none
  | c :: cs =>
    let s := fgets_chars (n - 1) (c :: cs)
    some (s, { fp with pos := fp.pos + s.length })

/-- The effect of `if ((c=strchr(line,'\n'))!=NULL) *c=0;` on the characters of
`line`: the first line feed of the C string becomes NUL. -/
def chop_newline : List Nat → List Nat
  | [] => []
  | c :: cs => if c = 0 then c :: cs else if c = 10 then 0 :: cs else c :: chop_newline cs

/-- Modelled from the spec: `fgets2` is the buffered-line file reader of `futil.c`,
which is not in src/. It reads one physical line into the caller's buffer the way
C `fgets` does, storing at most `n - 1` characters, and removes the line feed;
`none` is the NULL it returns at end of file. -/
def fgets2 (n : Nat) (fp : FILE) : Option (List Nat × FILE) :=
  match fgets n fp with
  | none => none
  | some (s, fp1) => some (chop_newline s, fp1)

/-! ## The token scanner `next_item` -/

/-- `#define MAXBUF 20` -/
def MAXBUF : Nat := 20

/-- The static state of `next_item`: the line buffer `buf` (characters past the end
of the list read as the NUL that terminates the line) and the token offsets
`bufindex[0 .. nbuf-1]`. -/
structure Scanner where
  buf : List Nat
  bufindex : List Nat
  deriving DecidableEq, Repr

/-- The counter `nbuf` of queued tokens. -/
def Scanner.nbuf (sc : Scanner) : Nat := sc.bufindex.length

/-- The scanner state at program start: `nbuf = 0`. -/
def Scanner.init : Scanner := { buf := [], bufindex := [] }

/-- The C string that starts at `buf + j0`. -/
def cstr (buf : List Nat) (j0 : Nat) : List Nat := (buf.drop j0).takeWhile (fun c => c ≠ 0)

/-- `while ((buf[i] != '\0') && (buf[i] != ';') && isspace(buf[i])) i++;`
run on the characters from `buf[i]` on; returns the final `i`. -/
def skip_spaces : List Nat → Nat → Nat
  | [], i => i
  | c :: cs, i => if c ≠ 0 ∧ c ≠ 59 ∧ isspace c = true then skip_spaces cs (i + 1) else i

/-- `while ((buf[i] != '\0') && (buf[i] != ';') && !isspace(buf[i])) i++;`
run on the characters from `buf[i]` on; returns the final `i`. -/
def skip_token : List Nat → Nat → Nat
  | [], i => i
  | c :: cs, i => if c ≠ 0 ∧ c ≠ 59 ∧ isspace c = false then skip_token cs (i + 1) else i

/-- The `do { ... } while ((ccc != '\0') && (ccc != ';'));` loop of `next_item`,
entered with index `i`. A store `bufindex[nbuf++]` with `nbuf = MAXBUF` is outside
the array. -/
def scan_loop : Nat → List Nat → List Nat → Nat → Res (List Nat × List Nat)
  | 0, _, _, _ => .nofuel
  | fuel + 1, buf, bufindex, i =>
    let j0 := skip_spaces (buf.drop i) i
    let i2 := skip_token (buf.drop j0) j0
    let ccc := buf.getD i2 0
    if i2 > j0 then
      if bufindex.length < MAXBUF then
        if ccc ≠ 0 ∧ ccc ≠ 59 then scan_loop fuel (buf.set i2 0) (bufindex ++ [j0]) (i2 + 1)
        else .ok (buf.set i2 0, bufindex ++ [j0])
      else .undefined
    else
      if ccc ≠ 0 ∧ ccc ≠ 59 then scan_loop fuel buf bufindex i2
      else .ok (buf, bufindex)

/-- The body of `next_item(fp)`, with a bound on the depth of `return next_item(fp)`.
It returns the token (the C string at the returned pointer), the scanner state and
the stream. -/
def next_item_rec (STRLEN : Nat) : Nat → Scanner → FILE → Res (List Nat × Scanner × FILE)
  | 0, _, _ => .nofuel
  | fuel + 1, sc, fp =>
    match sc.bufindex with
    | j0 :: rest => .ok (cstr sc.buf j0, { sc with bufindex := rest }, fp)
    | [] =>
      match fgets2 (STRLEN - 1) fp with
      | none => .fatal "End of file"
      | some (line, fp1) =>
        match scan_loop (line.length + 1) line [] 0 with
        | .ok (buf1, idx1) => next_item_rec STRLEN fuel { buf := buf1, bufindex := idx1 } fp1
        | .fatal m => .fatal m
        | .undefined => .undefined
        | .nofuel => .nofuel

/-- `next_item(fp)`: every level of the recursion either returns or has consumed
at least one character of the stream, which bounds the depth. -/
def next_item (STRLEN : Nat) (sc : Scanner) (fp : FILE) : Res (List Nat × Scanner × FILE) :=
  next_item_rec STRLEN (fp.rest.length + 2) sc fp

/-- The tokens returned by `n` successive calls of `next_item`, with the final state. -/
def next_items (STRLEN : Nat) : Nat → Scanner → FILE → Res (List (List Nat) × Scanner × FILE)
  | 0, sc, fp => .ok ([], sc, fp)
  | n + 1, sc, fp =>
    match next_item STRLEN sc fp with
    | .ok (tok, sc1, fp1) =>
      match next_items STRLEN n sc1 fp1 with
      | .ok (toks, sc2, fp2) => .ok (tok :: toks, sc2, fp2)
      | .fatal m => .fatal m
      | .undefined => .undefined
      | .nofuel => .nofuel
    | .fatal m => .fatal m
    | .undefined => .undefined
    | .nofuel => .nofuel

/-! ### What the scanner is specified to return -/

/-- The maximal runs of non-whitespace characters of `l`, left to right; `cur` is
the run being collected. -/
def runs_from : List Nat → List Nat → List (List Nat)
  | cur, [] => if cur = [] then [] else [cur]
  | cur, c :: cs =>
    if isspace c = true then (if cur = [] then runs_from [] cs else cur :: runs_from [] cs)
    else runs_from (cur ++ [c]) cs

/-- The maximal runs of non-whitespace characters of `l`. -/
def runs (l : List Nat) : List (List Nat) := runs_from [] l

/-- The physical lines of a text: the pieces between line feeds; `cur` is the line
being collected. A text that does not end in a line feed has a last, unterminated
line. -/
def lines_from : List Nat → List Nat → List (List Nat)
  | cur, [] => if cur = [] then [] else [cur]
  | cur, c :: cs => if c = 10 then cur :: lines_from [] cs else lines_from (cur ++ [c]) cs

/-- The physical lines of a text. -/
def lines (t : List Nat) : List (List Nat) := lines_from [] t

/-- The tokens of one physical line: the maximal runs of non-whitespace characters
before the first `;`. -/
def line_tokens (l : List Nat) : List (List Nat) := runs (l.takeWhile (fun c => c ≠ 59))

/-- The tokens of a text, line by line and left to right. -/
def text_tokens (t : List Nat) : List (List Nat) := (lines t).flatMap line_tokens

/-- Every physical line of the text fits the line buffer of `next_item` (at most
`STRLEN - 2` characters, what `fgets2(buf,STRLEN-1,fp)` can take) and its token
queue (at most `MAXBUF` tokens). -/
def fits (STRLEN : Nat) (t : List Nat) : Prop :=
  ∀ l ∈ lines t, l.length ≤ STRLEN - 2 ∧ (line_tokens l).length ≤ MAXBUF

instance (STRLEN : Nat) (t : List Nat) : Decidable (fits STRLEN t) := by
  unfold fits; infer_instance

/-- A text of one physical line of 4095 letters `a`: one token. -/
def long_line : List Nat := List.replicate 4095 97 ++ [10]

/-! ## The platform -/

/-- What the source leaves to the platform and to headers that are not in src/:
`STRLEN` (the size of the line buffers), `sizeof(real)` (4 when `real` is `float`,
8 when it is `double`), whether `USE_XDR` is defined, and the conversions of
floating-point numbers, whose values are kept as bit patterns and never
interpreted: `scan_lf` is the `%lf` conversion of `sscanf` (`none`: no number
matched), `fmt_e` the `%18.10e` conversion of `fprintf`, `f2d` and `d2f` the C
conversions between `float` and `double`. -/
structure Env where
  STRLEN : Nat
  sizeof_real : Nat
  USE_XDR : Bool
  scan_lf : List Nat → Option Nat
  fmt_e : Nat → List Nat
  f2d : Nat → Nat
  d2f : Nat → Nat

/-- The indeterminate values that the uninitialised automatic variables of a call
hold. -/
structure Junk where
  res : Int
  i : Int
  ix : Int
  d : Nat
  x : Nat
  ssize : Int
  us : Nat
  idum : Int
  vec : List Nat
  deriving DecidableEq, Repr

/-- `DIM` of the absent header: vectors have three components `XX`, `YY`, `ZZ`. -/
def DIM : Nat := 3

/-! ## Storage behind `void *item` -/

/-- The `n` bytes of the unsigned value `v mod 256^n`, least significant first (the
host's native order is taken to be little-endian). -/
def le_bytes : Nat → Nat → List Nat
  | 0, _ => []
  | n + 1, v => v % 256 :: le_bytes n (v / 256)

/-- The unsigned value of bytes, least significant first. -/
def le_val : List Nat → Nat
  | [] => 0
  | b :: bs => b + 256 * le_val bs

/-- The 32-bit two's complement `int` whose unsigned reading is `u`. -/
def to_int32 (u : Nat) : Int := if u % 2 ^ 32 < 2 ^ 31 then (u % 2 ^ 32 : Nat) else (u % 2 ^ 32 : Nat) - 2 ^ 32

/-- The unsigned reading of an `int`, modulo `2^32`. -/
def of_int32 (v : Int) : Nat := (v % 2 ^ 32).toNat

/-- The four bytes of an `int` in storage. -/
def int_bytes (v : Int) : List Nat := le_bytes 4 (of_int32 v)

/-- The two bytes of an `unsigned short` in storage. -/
def ushort_bytes (u : Nat) : List Nat := le_bytes 2 u

/-- Read `n` bytes at byte offset `off` of the storage; `none` when they are not
all inside it. -/
def peek (m : List Nat) (off n : Nat) : Option (List Nat) :=
  if off + n ≤ m.length then some ((m.drop off).take n) else none

/-- Store bytes at byte offset `off` of the storage; `none` when they do not all
fit inside it. -/
def poke (m : List Nat) (off : Nat) (bs : List Nat) : Option (List Nat) :=
  if off + bs.length ≤ m.length then some (m.take off ++ bs ++ m.drop (off + bs.length)) else none

/-- An access through a pointer: NULL or out of the object has no defined behaviour. -/
def deref {α : Type} (o : Option α) : Res α :=
  match o with
  | some a => .ok a
  | none => .undefined

/-- `((int *)item)[k]` -/
def load_int (item : Option (List Nat)) (k : Nat) : Res Int :=
  match item with
  | none => .undefined
  | some m => deref ((peek m (4 * k) 4).map (fun bs => to_int32 (le_val bs)))

/-- `*((unsigned short *)item)` -/
def load_ushort (item : Option (List Nat)) : Res Nat :=
  match item with
  | none => .undefined
  | some m => deref ((peek m 0 2).map le_val)

/-- `((unsigned char *)item)[k]` -/
def load_uchar (item : Option (List Nat)) (k : Nat) : Res Nat :=
  match item with
  | none => .undefined
  | some m => deref (peek m k 1 |>.map le_val)

/-- `((real *)item)[k]`, as a bit pattern. -/
def load_real (E : Env) (item : Option (List Nat)) (k : Nat) : Res Nat :=
  match item with
  | none => .undefined
  | some m => deref ((peek m (E.sizeof_real * k) E.sizeof_real).map le_val)

/-- The C string at `(char *)item`: the bytes before the first NUL, which must be
inside the storage. -/
def load_string (item : Option (List Nat)) : Res (List Nat) :=
  match item with
  | none => .undefined
  | some m => if 0 ∈ m then .ok (cstr m 0) else .undefined

/-- A store of bytes at byte offset `off` behind `item`. -/
def store (item : Option (List Nat)) (off : Nat) (bs : List Nat) : Res (Option (List Nat)) :=
  match item with
  | none => .undefined
  | some m => (deref (poke m off bs)).bind (fun m1 => .ok (some m1))

/-- A store guarded by the source's `if (item)`. -/
def store_if (item : Option (List Nat)) (off : Nat) (bs : List Nat) : Res (Option (List Nat)) :=
  match item with
  | none => .ok none
  | some _ => store item off bs

/-- The conversion of a `real` to `double`. -/
def real_to_double (E : Env) (r : Nat) : Nat := if E.sizeof_real = 8 then r else E.f2d r

/-- The conversion of a `double` to `real`. -/
def double_to_real (E : Env) (d : Nat) : Nat := if E.sizeof_real = 8 then d else E.d2f d

/-- The conversion of a `real` to `float`. -/
def real_to_float (E : Env) (r : Nat) : Nat := if E.sizeof_real = 8 then E.d2f r else r

/-- The conversion of a `float` to `real`. -/
def float_to_real (E : Env) (f : Nat) : Nat := if E.sizeof_real = 8 then E.f2d f else f

/-- The bytes of a `real` in storage. -/
def real_bytes (E : Env) (r : Nat) : List Nat := le_bytes E.sizeof_real r

/-! ## `printf` and `scanf` conversions -/

/-- The decimal digits of `n`, most significant first, in front of `acc`. -/
def dec_digits_aux : Nat → Nat → List Nat → List Nat
  | 0, _, acc => acc
  | fuel + 1, n, acc =>
    if n < 10 then (48 + n) :: acc else dec_digits_aux fuel (n / 10) ((48 + n % 10) :: acc)

/-- The decimal digits of `n` as characters. -/
def dec_digits (n : Nat) : List Nat := dec_digits_aux (n + 1) n []

/-- The `%d` conversion without padding. -/
def fmt_int (v : Int) : List Nat :=
  if v < 0 then 45 :: dec_digits (-v).toNat else dec_digits v.toNat

/-- Right-justify in a field of width `w`: `%18d` is `pad_left 18`. -/
def pad_left (w : Nat) (s : List Nat) : List Nat := List.replicate (w - s.length) 32 ++ s

/-- Left-justify in a field of width `w`: `%-18s` is `pad_right 18`. -/
def pad_right (w : Nat) (s : List Nat) : List Nat := s ++ List.replicate (w - s.length) 32

/-- C `isdigit`. -/
def isdigit (c : Nat) : Bool := 48 ≤ c && c ≤ 57

/-- The value of a run of decimal digits. -/
def digits_val (ds : List Nat) : Nat := ds.foldl (fun a c => 10 * a + (c - 48)) 0

/-- The `%d` conversion of `sscanf` on the string `s`: blanks, an optional sign and
at least one digit; `none` when nothing matches. A value outside `int` is reduced
modulo `2^32`. -/
def scan_d (s : List Nat) : Option Int :=
  let s1 := s.dropWhile isspace
  let neg := s1.head? = some 45
  let s2 := if s1.head? = some 45 ∨ s1.head? = some 43 then s1.tail else s1
  let ds := s2.takeWhile isdigit
  if ds = [] then none
  else some (to_int32 (of_int32 (if neg then -(digits_val ds : Int) else (digits_val ds : Int))))

/-- `res = sscanf(s,"%d",&v)`: the result and the value `v` holds afterwards (`old`
when nothing was converted); the result is `EOF` when the string ends before
anything but blanks was seen. -/
def sscanf_d (s : List Nat) (old : Int) : Int × Int :=
  match scan_d s with
  | some v => (1, v)
  | none => (if s.dropWhile isspace = [] then -1 else 0, old)

/-- `res = sscanf(s,"%lf",&v)`, likewise. -/
def sscanf_lf (E : Env) (s : List Nat) (old : Nat) : Int × Nat :=
  match E.scan_lf s with
  | some v => (1, v)
  | none => (if s.dropWhile isspace = [] then -1 else 0, old)

/-- The `%s` conversion of `sscanf`: the first run of non-blank characters. -/
def scan_s (s : List Nat) : Option (List Nat) :=
  let w := (s.dropWhile isspace).takeWhile (fun c => !isspace c)
  if w = [] then none else some w

/-! ## File handles -/

/-- The file types of the absent `filenm.h` that the source names, and `efOther`
for every other enumerator; distinct enumerators are distinct values. -/
inductive Ftp where
  | efTPR | efTRR | efEDR | efXTC
  | efTPA | efGRO | efPDB
  | efTPB | efTRJ | efMTX | efENE
  | efOther (n : Nat)
  deriving DecidableEq, Repr

/-- An XDR channel over an in-memory file: the direction (`XDR_ENCODE` or
`XDR_DECODE`), the bytes and the position. -/
structure XDR where
  encode : Bool
  data : List Nat
  pos : Nat
  deriving DecidableEq, Repr

/-- `t_fileio` -/
structure t_fileio where
  iFTP : Ftp
  bOpen : Bool
  bRead : Bool
  bDouble : Bool
  bDebug : Bool
  bStdio : Bool
  fn : List Nat
  fp : Option FILE
  xdr : Option XDR
  deriving DecidableEq, Repr

/-- `static int ftpXDR[] = { efTPR, efTRR, efEDR, efXTC };` -/
def ftpXDR : List Ftp := [.efTPR, .efTRR, .efEDR, .efXTC]

/-- `static int ftpASC[] = { efTPA, efGRO, efPDB };` -/
def ftpASC : List Ftp := [.efTPA, .efGRO, .efPDB]

/-- `static int ftpBIN[] = { efTPB, efTRJ, efMTX, efENE };` -/
def ftpBIN : List Ftp := [.efTPB, .efTRJ, .efMTX, .efENE]

/-- `in_ftpset(ftp,nset,set)`: the loop over the set, `bResult` starting FALSE. -/
def in_ftpset (ftp : Ftp) (set : List Ftp) : Bool :=
  set.foldl (fun bResult s => if ftp = s then true else bResult) false

/-! ## Item kinds -/

/-- `eioREAL` -/
def eioREAL : Int := 0
/-- `eioINT` -/
def eioINT : Int := 1
/-- `eioNUCHAR` -/
def eioNUCHAR : Int := 2
/-- `eioUSHORT` -/
def eioUSHORT : Int := 3
/-- `eioRVEC` -/
def eioRVEC : Int := 4
/-- `eioNRVEC` -/
def eioNRVEC : Int := 5
/-- `eioIVEC` -/
def eioIVEC : Int := 6
/-- `eioSTRING` -/
def eioSTRING : Int := 7

/-- The message of `_check_nitem`. -/
def nitem_msg : String := "nitem (%d) may differ from 1 only for %s or %s, not for %s(%s, %d)"

/-- `eioNR`: the number of item kinds, the size of `eioNames`, whose initialiser
lists the eight names from "REAL" to "STRING". -/
def eioNR : Int := 8

/-- `_check_nitem(eio,nitem,file,line)`. The arguments of its `fatal_error` call
include `eioNames[eio]`, read without a test of the range: for an `eio` that is
not one of the `eioNR` kinds the read is outside the array. -/
def check_nitem (eio nitem : Int) : Res Unit :=
  if nitem ≠ 1 ∧ ¬ (eio = eioNRVEC ∨ eio = eioNUCHAR) then
    (if 0 ≤ eio ∧ eio < eioNR then .fatal nitem_msg else .undefined)
  else .ok ()

/-- `fe(eio,desc,srcfile,line)`, reached from the `default:` of a switch. -/
def FE {α : Type} : Res α := .fatal "Trying to %s %s type %d (%s), src %s, line %d"

/-! ## The text backend -/

/-- `dbgstr(desc)`: the comment that ends a line when the handle is in debug mode;
`sprintf` writes it to a buffer of `STRLEN` characters. -/
def dbgstr (E : Env) (curfio : t_fileio) (add_comment : Option (List Nat)) (desc : List Nat) :
    Res (List Nat) :=
  if !curfio.bDebug then .ok []
  else
    let s := [32, 32, 59, 32] ++ add_comment.getD [] ++ [32] ++ desc
    if s.length < E.STRLEN then .ok s else .undefined

/-- The stream after `bs` was written at its position. -/
def FILE.write (fp : FILE) (bs : List Nat) : FILE :=
  { data := fp.data.take fp.pos ++ List.replicate (fp.pos - fp.data.length) 0 ++ bs ++
      fp.data.drop (fp.pos + bs.length),
    pos := fp.pos + bs.length }

/-- `res = fprintf(curfio->fp, ...)` with the formatted characters `bs`: the handle
after the call and the number of characters written. -/
def fprintf (curfio : t_fileio) (bs : List Nat) : Res (Int × t_fileio) :=
  match curfio.fp with
  | none => .undefined
  | some fp => .ok ((bs.length : Int), { curfio with fp := some (fp.write bs) })

/-- The loop `for(i=0; (i<nitem); i++) res = fprintf(curfio->fp,"%4d",(int)ucptr[i]);`
from index `k`, with `n` rounds to go. -/
def ascwrite_uchars (item : Option (List Nat)) : Nat → Nat → Int → t_fileio → Res (Int × t_fileio)
  | 0, _, res, cur => .ok (res, cur)
  | n + 1, k, _, cur =>
    (load_uchar item k).bind fun u =>
    (fprintf cur (pad_left 4 (fmt_int u))).bind fun (res1, cur1) =>
    ascwrite_uchars item n (k + 1) res1 cur1

/-- The three `%18.10e` fields of the vector `((rvec *)item)[k]`. -/
def fmt_rvec (E : Env) (item : Option (List Nat)) (k : Nat) : Res (List Nat) :=
  (load_real E item (DIM * k)).bind fun x =>
  (load_real E item (DIM * k + 1)).bind fun y =>
  (load_real E item (DIM * k + 2)).bind fun z =>
  .ok (E.fmt_e (real_to_double E x) ++ E.fmt_e (real_to_double E y) ++ E.fmt_e (real_to_double E z))

/-- The loop of the `eioNRVEC` case of `do_ascwrite`. -/
def ascwrite_rvecs (E : Env) (add_comment : Option (List Nat)) (desc : List Nat)
    (item : Option (List Nat)) : Nat → Nat → Int → t_fileio → Res (Int × t_fileio)
  | 0, _, res, cur => .ok (res, cur)
  | n + 1, k, _, cur =>
    (fmt_rvec E item k).bind fun f =>
    (dbgstr E cur add_comment desc).bind fun d =>
    (fprintf cur (f ++ d ++ [10])).bind fun (res1, cur1) =>
    ascwrite_rvecs E add_comment desc item n (k + 1) res1 cur1

/-- `do_ascwrite(item,nitem,eio,desc,srcfile,line)` on the handle `*curfio`: the
value returned and the handle afterwards. -/
def do_ascwrite (E : Env) (J : Junk) (add_comment : Option (List Nat)) (curfio : t_fileio)
    (item : Option (List Nat)) (nitem : Int) (eio : Int) (desc : List Nat) :
    Res (Bool × t_fileio) :=
  (check_nitem eio nitem).bind fun _ =>
  (if eio = eioREAL then
    (load_real E item 0).bind fun r =>
    (dbgstr E curfio add_comment desc).bind fun d =>
    fprintf curfio (E.fmt_e (real_to_double E r) ++ d ++ [10])
  else if eio = eioINT then
    (load_int item 0).bind fun v =>
    (dbgstr E curfio add_comment desc).bind fun d =>
    fprintf curfio (pad_left 18 (fmt_int v) ++ d ++ [10])
  else if eio = eioNUCHAR then
    (ascwrite_uchars item nitem.toNat 0 J.res curfio).bind fun (res, cur1) =>
    (dbgstr E cur1 add_comment desc).bind fun d =>
    (fprintf cur1 (d ++ [10])).bind fun (_, cur2) => .ok (res, cur2)
  else if eio = eioUSHORT then
    (load_ushort item).bind fun u =>
    (dbgstr E curfio add_comment desc).bind fun d =>
    fprintf curfio (pad_left 18 (fmt_int u) ++ d ++ [10])
  else if eio = eioRVEC then
    (fmt_rvec E item 0).bind fun f =>
    (dbgstr E curfio add_comment desc).bind fun d =>
    fprintf curfio (f ++ d ++ [10])
  else if eio = eioNRVEC then
    ascwrite_rvecs E add_comment desc item nitem.toNat 0 J.res curfio
  else if eio = eioIVEC then
    (load_int item 0).bind fun x =>
    (load_int item 1).bind fun y =>
    (load_int item 2).bind fun z =>
    (dbgstr E curfio add_comment desc).bind fun d =>
    fprintf curfio (pad_left 18 (fmt_int x) ++ pad_left 18 (fmt_int y) ++ pad_left 18 (fmt_int z)
      ++ d ++ [10])
  else if eio = eioSTRING then
    (load_string item).bind fun s =>
    (dbgstr E curfio add_comment desc).bind fun d =>
    fprintf curfio (pad_right 18 s ++ d ++ [10])
  else FE).bind fun (res, cur1) => .ok (decide (res > 0), cur1)

/-- `next_item(fp)` on the stream of the handle. -/
def asc_next (E : Env) (cur : t_fileio) (sc : Scanner) : Res (List Nat × t_fileio × Scanner) :=
  match cur.fp with
  | none => .undefined
  | some fp =>
    (next_item E.STRLEN sc fp).bind fun (tok, sc1, fp1) => .ok (tok, { cur with fp := some fp1 }, sc1)

/-- The state that the loops of `do_ascread` carry: `res`, the scanned variable,
the storage behind `item`, the handle and the scanner. -/
structure AscLoop (α : Type) where
  res : Int
  v : α
  item : Option (List Nat)
  cur : t_fileio
  sc : Scanner

/-- The loops `res = sscanf(next_item(fp),"%d",&ix); if (item) p[k] = ix;` of the
`eioNUCHAR` case (`width = 1`) and of the `eioIVEC` case (`width = 4`), from
index `k` with `n` rounds to go. -/
def ascread_ints (E : Env) (width : Nat) : Nat → Nat → AscLoop Int → Res (AscLoop Int)
  | 0, _, st => .ok st
  | n + 1, k, st =>
    (asc_next E st.cur st.sc).bind fun (tok, cur1, sc1) =>
    let r := sscanf_d tok st.v
    (store_if st.item (width * k) (le_bytes width (of_int32 r.2))).bind fun item1 =>
    ascread_ints E width n (k + 1) { res := r.1, v := r.2, item := item1, cur := cur1, sc := sc1 }

/-- The loops `res = sscanf(next_item(fp),"%lf\n",&x); ptr[m] = x;` over the
components of vector `k`; the store is behind `if (item)` exactly when `guarded`. -/
def ascread_reals (E : Env) (guarded : Bool) (k : Nat) : Nat → Nat → AscLoop Nat → Res (AscLoop Nat)
  | 0, _, st => .ok st
  | n + 1, m, st =>
    (asc_next E st.cur st.sc).bind fun (tok, cur1, sc1) =>
    let r := sscanf_lf E tok st.v
    ((if guarded then store_if else store) st.item (E.sizeof_real * (DIM * k + m))
        (real_bytes E (double_to_real E r.2))).bind fun item1 =>
    ascread_reals E guarded k n (m + 1) { res := r.1, v := r.2, item := item1, cur := cur1, sc := sc1 }

/-- The outer loop of the `eioNRVEC` case of `do_ascread`. -/
def ascread_rvecs (E : Env) : Nat → Nat → AscLoop Nat → Res (AscLoop Nat)
  | 0, _, st => .ok st
  | n + 1, k, st =>
    (ascread_reals E true k DIM 0 st).bind fun st1 => ascread_rvecs E n (k + 1) st1

/-- `do_ascread(item,nitem,eio,desc,srcfile,line)` on the handle `*curfio` and the
scanner state: the value returned, the storage behind `item`, the handle and the
scanner afterwards. -/
def do_ascread (E : Env) (J : Junk) (curfio : t_fileio) (sc : Scanner)
    (item : Option (List Nat)) (nitem : Int) (eio : Int) :
    Res (Bool × Option (List Nat) × t_fileio × Scanner) :=
  (check_nitem eio nitem).bind fun _ =>
  (if eio = eioREAL then
    (asc_next E curfio sc).bind fun (tok, cur1, sc1) =>
    let r := sscanf_lf E tok J.d
    (store_if item 0 (real_bytes E (double_to_real E r.2))).bind fun item1 =>
    .ok (r.1, item1, cur1, sc1)
  else if eio = eioINT then
    (asc_next E curfio sc).bind fun (tok, cur1, sc1) =>
    let r := sscanf_d tok J.i
    (store_if item 0 (int_bytes r.2)).bind fun item1 => .ok (r.1, item1, cur1, sc1)
  else if eio = eioNUCHAR then
    (ascread_ints E 1 nitem.toNat 0
      { res := J.res, v := J.ix, item := item, cur := curfio, sc := sc }).bind fun st =>
    .ok (st.res, st.item, st.cur, st.sc)
  else if eio = eioUSHORT then
    (asc_next E curfio sc).bind fun (tok, cur1, sc1) =>
    let r := sscanf_d tok J.i
    (store_if item 0 (ushort_bytes (of_int32 r.2))).bind fun item1 => .ok (r.1, item1, cur1, sc1)
  else if eio = eioRVEC then
    (ascread_reals E false 0 DIM 0
      { res := J.res, v := J.x, item := item, cur := curfio, sc := sc }).bind fun st =>
    .ok (st.res, st.item, st.cur, st.sc)
  else if eio = eioNRVEC then
    (ascread_rvecs E nitem.toNat 0
      { res := J.res, v := J.x, item := item, cur := curfio, sc := sc }).bind fun st =>
    .ok (st.res, st.item, st.cur, st.sc)
  else if eio = eioIVEC then
    (ascread_ints E 4 DIM 0
      { res := J.res, v := J.ix, item := item, cur := curfio, sc := sc }).bind fun st =>
    .ok (st.res, st.item, st.cur, st.sc)
  else if eio = eioSTRING then
    (asc_next E curfio sc).bind fun (cptr, cur1, sc1) =>
    match item with
    | none => .ok (J.res, none, cur1, sc1)
    | some _ =>
      match scan_s cptr with
      | some w => (store item 0 (w ++ [0])).bind fun item1 => .ok (1, item1, cur1, sc1)
      | none => .ok (-1, item, cur1, sc1)
  else FE).bind fun (res, item1, cur1, sc1) => .ok (decide (res > 0), item1, cur1, sc1)

/-! ## The native-binary backend -/

/-- The conversion of an `int` to `size_t` (64 bits). -/
def size_t_of (v : Int) : Nat := (v % 2 ^ 64).toNat

/-- `wsize = fwrite(item,size,nitem,curfio->fp)`: `size*nitem` bytes are taken from
the storage behind `item`; the count returned is `nitem`, and 0 when `size` or
`nitem` is 0. -/
def fwrite (curfio : t_fileio) (item : Option (List Nat)) (size : Nat) (nitem : Int) :
    Res (Int × t_fileio) :=
  match curfio.fp, item with
  | some fp, some m =>
    if nitem < 0 then .undefined
    else
      match peek m 0 (size * nitem.toNat) with
      | none => .undefined
      | some bs => .ok (if size = 0 then 0 else nitem, { curfio with fp := some (fp.write bs) })
  | _, _ => .undefined

/-- `rsize = fread(item,size,nitem,curfio->fp)`: the bytes that are there, up to
`size*nitem`, go to the storage behind `item`; the count returned is the number of
whole elements read. -/
def fread (curfio : t_fileio) (item : Option (List Nat)) (size : Nat) (nitem : Int) :
    Res (Int × Option (List Nat) × t_fileio) :=
  match curfio.fp, item with
  | some fp, some m =>
    if nitem < 0 then .undefined
    else
      let got := fp.rest.take (size * nitem.toNat)
      match poke m 0 got with
      | none => .undefined
      | some m1 =>
        .ok (if size = 0 then 0 else ((got.length / size : Nat) : Int), some m1,
          { curfio with fp := some { fp with pos := fp.pos + got.length } })
  | _, _ => .undefined

/-- `fseek(curfio->fp,offset,SEEK_CUR)`; a seek to before the start fails and
leaves the position. -/
def fseek_cur (curfio : t_fileio) (offset : Int) : Res t_fileio :=
  match curfio.fp with
  | none => .undefined
  | some fp =>
    if (fp.pos : Int) + offset < 0 then .ok curfio
    else .ok { curfio with fp := some { fp with pos := ((fp.pos : Int) + offset).toNat } }

/-- `do_binwrite(item,nitem,eio,desc,srcfile,line)`; `depth` bounds the nesting of
the call that the `eioSTRING` case makes for the length. -/
def do_binwrite_rec (E : Env) : Nat → t_fileio → Option (List Nat) → Int → Int →
    Res (Bool × t_fileio)
  | 0, _, _, _, _ => .nofuel
  | depth + 1, curfio, item, nitem, eio =>
    (check_nitem eio nitem).bind fun _ =>
    (if eio = eioREAL then .ok (E.sizeof_real, curfio)
    else if eio = eioINT then .ok (4, curfio)
    else if eio = eioNUCHAR then .ok (1, curfio)
    else if eio = eioUSHORT then .ok (2, curfio)
    else if eio = eioRVEC then .ok (DIM * E.sizeof_real, curfio)
    else if eio = eioNRVEC then .ok (DIM * E.sizeof_real, curfio)
    else if eio = eioIVEC then .ok (DIM * 4, curfio)
    else if eio = eioSTRING then
      (load_string item).bind fun s =>
      let ssize : Int := to_int32 (s.length + 1)
      (do_binwrite_rec E depth curfio (some (int_bytes ssize)) 1 eioINT).bind fun (_, cur1) =>
      .ok (size_t_of ssize, cur1)
    else FE).bind fun (size, cur1) =>
    (fwrite cur1 item size nitem).bind fun (wsize, cur2) => .ok (decide (wsize = nitem), cur2)

/-- `do_binwrite` -/
def do_binwrite (E : Env) (curfio : t_fileio) (item : Option (List Nat)) (nitem eio : Int) :
    Res (Bool × t_fileio) :=
  do_binwrite_rec E 2 curfio item nitem eio

/-- `do_binread(item,nitem,eio,desc,srcfile,line)`; `depth` bounds the nesting of
the call that the `eioSTRING` case makes for the length. -/
def do_binread_rec (E : Env) (J : Junk) : Nat → t_fileio → Option (List Nat) → Int → Int →
    Res (Bool × Option (List Nat) × t_fileio)
  | 0, _, _, _, _ => .nofuel
  | depth + 1, curfio, item, nitem, eio =>
    (check_nitem eio nitem).bind fun _ =>
    (if eio = eioREAL then .ok (if curfio.bDouble then 8 else 4, curfio)
    else if eio = eioINT then .ok (4, curfio)
    else if eio = eioNUCHAR then .ok (1, curfio)
    else if eio = eioUSHORT then .ok (2, curfio)
    else if eio = eioRVEC ∨ eio = eioNRVEC then
      .ok (if curfio.bDouble then 8 * DIM else 4 * DIM, curfio)
    else if eio = eioIVEC then .ok (DIM * 4, curfio)
    else if eio = eioSTRING then
      (do_binread_rec E J depth curfio (some (int_bytes J.ssize)) 1 eioINT).bind
        fun (_, ssize, cur1) =>
      (load_int ssize 0).bind fun v => .ok (size_t_of v, cur1)
    else FE).bind fun (size, cur1) =>
    match item with
    | some _ =>
      (fread cur1 item size nitem).bind fun (rsize, item1, cur2) =>
      .ok (decide (rsize = nitem), item1, cur2)
    | none =>
      (fseek_cur cur1 ((size * size_t_of nitem : Nat) : Int)).bind fun cur2 => .ok (true, none, cur2)

/-- `do_binread` -/
def do_binread (E : Env) (J : Junk) (curfio : t_fileio) (item : Option (List Nat))
    (nitem eio : Int) : Res (Bool × Option (List Nat) × t_fileio) :=
  do_binread_rec E J 2 curfio item nitem eio

/-! ## The portable-binary backend -/

/-- The channel after `bs` was written at its position. -/
def XDR.write (x : XDR) (bs : List Nat) : XDR :=
  { x with
    data := x.data.take x.pos ++ List.replicate (x.pos - x.data.length) 0 ++ bs ++
      x.data.drop (x.pos + bs.length),
    pos := x.pos + bs.length }

/-- One XDR primitive on a quantity of `n` bytes, most significant byte first
(`xdr_int`, `xdr_u_short`, `xdr_u_char` and `xdr_float` with `n = 4`, `xdr_double`
with `n = 8`): when encoding, the value `v` of the variable is written; when
decoding, the variable receives the bytes read, and the primitive fails, leaving
the variable, when fewer than `n` bytes are left. -/
def xdr_prim (x : XDR) (n : Nat) (v : Nat) : Bool × Nat × XDR :=
  if x.encode then (true, v, x.write (le_bytes n v).reverse)
  else
    let bs := (x.data.drop x.pos).take n
    if bs.length = n then (true, le_val bs.reverse, { x with pos := x.pos + n }) else (false, v, x)

/-- `xdr_int(curfio->xdr,&idum)` -/
def xdr_int (x : XDR) (idum : Int) : Bool × Int × XDR :=
  let r := xdr_prim x 4 (of_int32 idum)
  (r.1, to_int32 r.2.1, r.2.2)

/-- `xdr_vector(xdr,vec,DIM,elsize,proc)` from component `m` on, with `n` to go:
the primitive of `width` bytes on each element, stopping at the first failure. -/
def xdr_vector (width : Nat) : Nat → XDR → List Nat → Bool × List Nat × XDR
  | 0, x, _ => (true, [], x)
  | n + 1, x, vec =>
    let r := xdr_prim x width (vec.headD 0)
    if r.1 then
      let r2 := xdr_vector width n r.2.2 vec.tail
      (r2.1, r.2.1 :: r2.2.1, r2.2.2)
    else (false, vec, x)

/-- The padding that brings `n` bytes to a multiple of four. -/
def xdr_pad (n : Nat) : Nat := (4 - n % 4) % 4

/-- `xdr_string(curfio->xdr,&cptr,slen)` with `cptr` not NULL: the length as an
unsigned int, then the characters padded to a multiple of four bytes; it fails when
the length exceeds `slen`. When decoding the characters and a NUL go to `cptr`. -/
def xdr_string (x : XDR) (cptr : List Nat) (slen : Int) : Res (Bool × List Nat × XDR) :=
  if x.encode then
    if 0 ∈ cptr then
      let s := cstr cptr 0
      let x1 := x.write (le_bytes 4 s.length).reverse
      if (s.length : Int) > size_t_of slen % 2 ^ 32 then .ok (false, cptr, x1)
      else .ok (true, cptr, x1.write (s ++ List.replicate (xdr_pad s.length) 0))
    else .undefined
  else
    let r := xdr_prim x 4 0
    if r.1 then
      if (r.2.1 : Int) > size_t_of slen % 2 ^ 32 then .ok (false, cptr, r.2.2)
      else
        let bs := (r.2.2.data.drop r.2.2.pos).take (r.2.1 + xdr_pad r.2.1)
        match poke cptr 0 (bs.take r.2.1 ++ [0]) with
        | none => .undefined
        | some c1 =>
          if bs.length = r.2.1 + xdr_pad r.2.1 then
            .ok (true, c1, { r.2.2 with pos := r.2.2.pos + bs.length })
          else .ok (false, c1, r.2.2)
    else .ok (false, cptr, x)

/-- The state of the loops of `do_xdr`: `res`, the storage behind `item` and the
channel. -/
structure XdrLoop where
  res : Bool
  item : Option (List Nat)
  x : XDR

/-- The loop `for(j=0; (j<nitem) && res; j++) res = xdr_u_char(curfio->xdr,&(ucptr[j]));`
from index `j` with `n` rounds to go; the primitive reads and writes `ucptr[j]`. -/
def xdr_uchars : Nat → Nat → XdrLoop → Res XdrLoop
  | 0, _, st => .ok st
  | n + 1, j, st =>
    if st.res then
      (load_uchar st.item j).bind fun u =>
      let r := xdr_prim st.x 4 u
      (store st.item j [r.2.1 % 256]).bind fun item1 =>
      xdr_uchars n (j + 1) { res := r.1, item := item1, x := r.2.2 }
    else .ok st

/-- The loop of the `eioIVEC` case of `do_xdr`, from component `m` with `n` to go;
`idum` keeps its value between the rounds. -/
def xdr_ivec : Nat → Nat → Int → XdrLoop → Res XdrLoop
  | 0, _, _, st => .ok st
  | n + 1, m, idum, st =>
    if st.res then
      (match st.item with
        | none => Res.ok idum
        | some _ => load_int st.item m).bind fun idum1 =>
      let r := xdr_int st.x idum1
      (store_if st.item (4 * m) (int_bytes r.2.1)).bind fun item1 =>
      xdr_ivec n (m + 1) r.2.1 { res := r.1, item := item1, x := r.2.2 }
    else .ok st

/-- The `eioRVEC` case of `do_xdr` on the vector `((rvec *)item)[k]`: the three
components go through `dvec` and `xdr_double`, or `fvec` and `xdr_float`. -/
def xdr_rvec (E : Env) (J : Junk) (bDouble : Bool) (k : Nat) (st : XdrLoop) : Res XdrLoop :=
  let toW := fun r => if bDouble then real_to_double E r else real_to_float E r
  let ofW := fun w => if bDouble then double_to_real E w else float_to_real E w
  (match st.item with
    | none => Res.ok J.vec
    | some _ =>
      (load_real E st.item (DIM * k)).bind fun a =>
      (load_real E st.item (DIM * k + 1)).bind fun b =>
      (load_real E st.item (DIM * k + 2)).bind fun c => .ok [toW a, toW b, toW c]).bind fun vec =>
  let r := xdr_vector (if bDouble then 8 else 4) DIM st.x vec
  (store_if st.item (E.sizeof_real * (DIM * k))
    (real_bytes E (ofW (r.2.1.getD 0 0)) ++ real_bytes E (ofW (r.2.1.getD 1 0)) ++
      real_bytes E (ofW (r.2.1.getD 2 0)))).bind fun item1 =>
  .ok { res := r.1, item := item1, x := r.2.2 }

/-- The loop of the `eioNRVEC` case of `do_xdr`: `do_xdr(ptr,1,eioRVEC,...)` on
each vector while `res` holds. -/
def xdr_rvecs (E : Env) (J : Junk) (bDouble : Bool) : Nat → Nat → XdrLoop → Res XdrLoop
  | 0, _, st => .ok st
  | n + 1, j, st =>
    if st.res then
      (xdr_rvec E J bDouble j st).bind fun st1 => xdr_rvecs E J bDouble n (j + 1) st1
    else .ok st

/-- `do_xdr(item,nitem,eio,desc,srcfile,line)` on the handle `*curfio`: the value
returned, the storage behind `item` and the handle afterwards. -/
def do_xdr (E : Env) (J : Junk) (curfio : t_fileio) (item : Option (List Nat)) (nitem eio : Int) :
    Res (Bool × Option (List Nat) × t_fileio) :=
  (check_nitem eio nitem).bind fun _ =>
  (deref curfio.xdr).bind fun x =>
  (if eio = eioREAL then
    (match item with
      | none => Res.ok 0
      | some _ => (load_real E item 0).bind fun r =>
        .ok (if curfio.bDouble then real_to_double E r else real_to_float E r)).bind fun w =>
    let r := xdr_prim x (if curfio.bDouble then 8 else 4) w
    (store_if item 0 (real_bytes E
      (if curfio.bDouble then double_to_real E r.2.1 else float_to_real E r.2.1))).bind fun item1 =>
    .ok { res := r.1, item := item1, x := r.2.2 }
  else if eio = eioINT then
    (match item with
      | none => Res.ok J.idum
      | some _ => load_int item 0).bind fun idum =>
    let r := xdr_int x idum
    (store_if item 0 (int_bytes r.2.1)).bind fun item1 =>
    .ok { res := r.1, item := item1, x := r.2.2 }
  else if eio = eioNUCHAR then
    xdr_uchars nitem.toNat 0 { res := true, item := item, x := x }
  else if eio = eioUSHORT then
    (match item with
      | none => Res.ok J.us
      | some _ => load_ushort item).bind fun us =>
    let r := xdr_prim x 4 us
    (store_if item 0 (ushort_bytes r.2.1)).bind fun item1 =>
    .ok { res := r.1, item := item1, x := r.2.2 }
  else if eio = eioRVEC then
    xdr_rvec E J curfio.bDouble 0 { res := true, item := item, x := x }
  else if eio = eioNRVEC then
    xdr_rvecs E J curfio.bDouble nitem.toNat 0 { res := true, item := item, x := x }
  else if eio = eioIVEC then
    xdr_ivec DIM 0 J.idum { res := true, item := item, x := x }
  else if eio = eioSTRING then
    (match item with
      | none => Res.ok 0
      | some _ =>
        if !curfio.bRead then (load_string item).bind fun s => .ok (to_int32 (s.length + 1))
        else .ok 0).bind fun (slen0 : Int) =>
    let r := xdr_int x slen0
    if r.1 = false then .fatal "Error in string length for string %s (source %s, line %d)"
    else
      let slen := r.2.1
      let cptr : Option (List Nat) :=
        if item.isNone ∧ curfio.bRead = true then
          (if slen ≤ 0 then none else some (List.replicate slen.toNat 0))
        else item
      match cptr with
      | none => Res.ok { res := true, item := item, x := r.2.2 }
      | some c =>
        (xdr_string r.2.2 c slen).bind fun (res, c1, x1) =>
        .ok { res := res, item := item.map (fun _ => c1), x := x1 }
  else FE).bind fun st => .ok (st.res, st.item, { curfio with xdr := some st.x })

/-! ## The registry and the dispatch -/

/-- The functions that the pointers `do_read` and `do_write` can hold. -/
inductive DoFunc where
  | do_dummy | do_ascread | do_ascwrite | do_binread | do_binwrite | do_xdr
  deriving DecidableEq, Repr

/-- The global and static variables of `gmxfio.c`: the table `FIO` (`nFIO` is its
length), `curfio` (the index of the slot it points to; `none` when it points to no
slot of the table: NULL, or a pointer into a table that `srenew` has since
released), the dispatch pointers, `add_comment`, and the statics of `next_item`. -/
structure Gmx where
  FIO : List t_fileio
  curfio : Option Nat
  do_read : DoFunc
  do_write : DoFunc
  add_comment : Option (List Nat)
  scanner : Scanner
  deriving DecidableEq, Repr

/-- `nFIO` -/
def Gmx.nFIO (g : Gmx) : Nat := g.FIO.length

/-- The variables at program start. -/
def Gmx.init : Gmx :=
  { FIO := [], curfio := none, do_read := .do_dummy, do_write := .do_dummy,
    add_comment := none, scanner := Scanner.init }

/-- `do_dummy(item,nitem,eio,desc,srcfile,line)` -/
def do_dummy {α : Type} : Res α := .fatal "fio_select not called!"

/-- A call `f(item,nitem,eio,desc,srcfile,line)` through a dispatch pointer `f`:
the value returned, the storage behind `item` and the variables afterwards. The
codecs work on `*curfio`. -/
def do_call (E : Env) (J : Junk) (f : DoFunc) (g : Gmx) (item : Option (List Nat))
    (nitem eio : Int) (desc : List Nat) : Res (Bool × Option (List Nat) × Gmx) :=
  match f with
  | .do_dummy => do_dummy
  | f =>
    (deref g.curfio).bind fun k =>
    (deref ( g.FIO.get? k)).bind fun cur =>
    match f with
    | .do_dummy => do_dummy
    | .do_ascread =>
      (do_ascread E J cur g.scanner item nitem eio).bind fun (b, item1, cur1, sc1) =>
      .ok (b, item1, { g with FIO := g.FIO.set k cur1, scanner := sc1 })
    | .do_ascwrite =>
      (do_ascwrite E J g.add_comment cur item nitem eio desc).bind fun (b, cur1) =>
      .ok (b, item, { g with FIO := g.FIO.set k cur1 })
    | .do_binread =>
      (do_binread E J cur item nitem eio).bind fun (b, item1, cur1) =>
      .ok (b, item1, { g with FIO := g.FIO.set k cur1 })
    | .do_binwrite =>
      (do_binwrite E cur item nitem eio).bind fun (b, cur1) =>
      .ok (b, item, { g with FIO := g.FIO.set k cur1 })
    | .do_xdr =>
      (do_xdr E J cur item nitem eio).bind fun (b, item1, cur1) =>
      .ok (b, item1, { g with FIO := g.FIO.set k cur1 })

/-- `_fio_check(fio,file,line)` -/
def fio_check (g : Gmx) (fio : Int) : Res Unit :=
  if fio < 0 ∨ fio ≥ g.nFIO then .fatal "Trying to access non-open file %d, in %s, line %d"
  else .ok ()

/-- What the collaborators that are not in src/ answer during one `fio_open`:
`fn2ftp(fn)`, `fexist(fn)`, the stream `ffopen(fn,m)` returns (`none`: `ffopen`
ends the process because the file cannot be opened), the channel `xdropen` sets up,
and the standard streams. -/
structure World where
  fn2ftp : Ftp
  fexist : Bool
  ffopen : Option FILE
  xdropen : XDR
  stdin : FILE
  stdout : FILE

/-- The loop `for(i=0; (i<nFIO); i++) if (!FIO[i].bOpen) { ...; break; }` from
index `i`: the value of `i` when the loop is left. -/
def find_slot : List t_fileio → Nat → Nat
  | [], i => i
  | f :: fs, i => if !f.bOpen then i else find_slot fs (i + 1)

/-- `fio_open(fn,mode)`: the index returned and the variables afterwards; `fn` is
`none` for a NULL file name. When no slot is free, `srenew(FIO,++nFIO)` gives the
table new storage and releases the old one, into which `curfio` pointed. -/
def fio_open (E : Env) (w : World) (fn : Option (List Nat)) (mode : List Nat) (g : Gmx) :
    Res (Nat × Gmx) :=
  let m : List Nat :=
    if w.fn2ftp = .efTPA then mode
    else if mode.headD 0 = 114 then [114, 98]
    else if mode.headD 0 = 119 then [119, 98]
    else [97, 98]
  let i := find_slot g.FIO 0
  let bRead : Bool := m.headD 0 = 114
  let slot : Ftp → Bool → List Nat → Option FILE → Option XDR → t_fileio :=
    fun ftp bStdio name fp xdr =>
      { iFTP := ftp, bOpen := true, bRead := bRead, bDouble := decide (E.sizeof_real = 8),
        bDebug := false, bStdio := bStdio, fn := name, fp := fp, xdr := xdr }
  let filled : Res t_fileio :=
    match fn with
    | some name =>
      if in_ftpset w.fn2ftp ftpXDR then
        if m.headD 0 ≠ 119 ∧ w.fexist = false then .fatal "File %s not found"
        else .ok (slot w.fn2ftp false name none (some w.xdropen))
      else
        match w.ffopen with
        | none => .fatal "ffopen"
        | some fp => .ok (slot w.fn2ftp false name (some fp) none)
    | none =>
      .ok (slot .efTPA true (str "STDIO") (some (if bRead then w.stdin else w.stdout)) none)
  filled.bind fun f =>
    if i = g.nFIO then .ok (i, { g with FIO := g.FIO ++ [f], curfio := none })
    else .ok (i, { g with FIO := g.FIO.set i f })

/-- `fio_close(fio)`. A slot whose tag is in `ftpXDR` has its channel closed by
`xdrclose` and released; any other slot that is not on standard I/O has its stream
closed by `fclose`; both calls need the channel or the stream to be there. Then the
name is released and the slot marked as not open. The members `fp`, `xdr` and `fn`
are not assigned: they keep their values, which now refer to released objects, so
that closing a slot that is not open releases its name a second time. -/
def fio_close (g : Gmx) (fio : Int) : Res Gmx :=
  (fio_check g fio).bind fun _ =>
  (deref ( g.FIO.get? fio.toNat)).bind fun f =>
  (if in_ftpset f.iFTP ftpXDR then (deref f.xdr).bind fun _ => Res.ok ()
    else if f.bStdio = false then (deref f.fp).bind fun _ => Res.ok ()
    else Res.ok ()).bind fun _ =>
  if f.bOpen = false then .undefined
  else
    .ok { g with
      FIO := g.FIO.set fio.toNat { f with bOpen := false },
      do_read := .do_dummy, do_write := .do_dummy }

/-- `fio_select(fio)` -/
def fio_select (E : Env) (g : Gmx) (fio : Int) : Res Gmx :=
  (fio_check g fio).bind fun _ =>
  (deref ( g.FIO.get? fio.toNat)).bind fun f =>
  if in_ftpset f.iFTP ftpXDR then
    if E.USE_XDR then
      .ok { g with do_read := .do_xdr, do_write := .do_xdr, curfio := some fio.toNat }
    else .fatal "Sorry, no XDR"
  else if in_ftpset f.iFTP ftpASC then
    .ok { g with do_read := .do_ascread, do_write := .do_ascwrite, curfio := some fio.toNat }
  else if in_ftpset f.iFTP ftpBIN then
    .ok { g with do_read := .do_binread, do_write := .do_binwrite, curfio := some fio.toNat }
  else
    (deref g.curfio).bind fun _ => .fatal "Can not read/write topologies to file type %s"

/-- `fio_setprecision(fio,bDouble)` -/
def fio_setprecision (g : Gmx) (fio : Int) (bDouble : Bool) : Res Gmx :=
  (fio_check g fio).bind fun _ =>
  (deref ( g.FIO.get? fio.toNat)).bind fun f =>
  .ok { g with FIO := g.FIO.set fio.toNat { f with bDouble := bDouble } }

/-! ## A concrete platform for worked examples -/

/-- A platform with `STRLEN = 4096`, `real = float` and XDR. The floating-point
conversions play no part in the examples; the stand-in for `%lf` accepts what `%d`
accepts. -/
def host : Env :=
  { STRLEN := 4096, sizeof_real := 4, USE_XDR := true, scan_lf := fun s => (scan_d s).map of_int32,
    fmt_e := fun _ => [], f2d := fun v => v, d2f := fun v => v }

/-- The same platform built with `real = double`. -/
def host_double : Env :=
  { STRLEN := 4096, sizeof_real := 8, USE_XDR := true, scan_lf := fun s => (scan_d s).map of_int32,
    fmt_e := fun _ => [], f2d := fun v => v, d2f := fun v => v }

/-- Some values for the uninitialised variables. -/
def junk0 : Junk :=
  { res := 0, i := 0, ix := 0, d := 0, x := 0, ssize := 0, us := 0, idum := 0, vec := [] }

/-- An open handle on a stream with the given bytes and position. -/
def stream_handle (ftp : Ftp) (data : List Nat) (pos : Nat) : t_fileio :=
  { iFTP := ftp, bOpen := true, bRead := false, bDouble := false, bDebug := false,
    bStdio := false, fn := str "f", fp := some ⟨data, pos⟩, xdr := none }

/-- Collaborators for a file of type `ftp` that exists and holds `data`. -/
def world (ftp : Ftp) (data : List Nat) : World :=
  { fn2ftp := ftp, fexist := true, ffopen := some ⟨data, 0⟩, xdropen := ⟨false, data, 0⟩,
    stdin := ⟨[], 0⟩, stdout := ⟨[], 0⟩ }

/-! ## Sequences of items of the integer kinds -/

/-- An item of kind INT, USHORT or IVEC, as its caller holds it. -/
inductive IntItem where
  | int (v : Int)
  | ushort (u : Nat)
  | ivec (x y z : Int)
  deriving DecidableEq, Repr

/-- The kind passed as `eio`. -/
def IntItem.eio : IntItem → Int
  | .int _ => eioINT
  | .ushort _ => eioUSHORT
  | .ivec _ _ _ => eioIVEC

/-- The bytes of the object that `item` points to. -/
def IntItem.mem : IntItem → List Nat
  | .int v => int_bytes v
  | .ushort u => ushort_bytes u
  | .ivec x y z => int_bytes x ++ int_bytes y ++ int_bytes z

/-- The values are values of the C types: `int` is 32 bits, `unsigned short` 16. -/
def IntItem.valid : IntItem → Prop
  | .int v => -2 ^ 31 ≤ v ∧ v < 2 ^ 31
  | .ushort u => u < 2 ^ 16
  | .ivec x y z => (-2 ^ 31 ≤ x ∧ x < 2 ^ 31) ∧ (-2 ^ 31 ≤ y ∧ y < 2 ^ 31) ∧ (-2 ^ 31 ≤ z ∧ z < 2 ^ 31)

instance (it : IntItem) : Decidable it.valid := by
  cases it <;> unfold IntItem.valid <;> infer_instance

/-- The numbers that the item is written as. -/
def IntItem.vals : IntItem → List Int
  | .int v => [v]
  | .ushort u => [(u : Int)]
  | .ivec x y z => [x, y, z]

/-- The `%18d` fields of the item. -/
def IntItem.fields (it : IntItem) : List Nat := (it.vals.map fun v => pad_left 18 (fmt_int v)).flatten

/-- The debug comment of a line whose fields take `w` characters is benign: `dbgstr`
can hold it, it has no line feed, and the line fits the buffer of `next_item`. -/
def comment_fits (E : Env) (curfio : t_fileio) (add_comment : Option (List Nat)) (w : Nat)
    (desc : List Nat) : Prop :=
  ∃ d, dbgstr E curfio add_comment desc = .ok d ∧ 10 ∉ d ∧ w + d.length + 1 ≤ E.STRLEN - 2

/-- The items written in order with `do_ascwrite`, each with its description: the
values returned and the handle afterwards. -/
def ascwrite_all (E : Env) (J : Junk) (add_comment : Option (List Nat)) :
    List (IntItem × List Nat) → t_fileio → Res (List Bool × t_fileio)
  | [], cur => .ok ([], cur)
  | (it, desc) :: rest, cur =>
    (do_ascwrite E J add_comment cur (some it.mem) 1 it.eio desc).bind fun (b, cur1) =>
    (ascwrite_all E J add_comment rest cur1).bind fun (bs, cur2) => .ok (b :: bs, cur2)

/-- Items of the kinds of `its` read in order with `do_ascread`, each into a fresh
object of its kind: the values returned with the bytes stored, and the handle and
the scanner afterwards. -/
def ascread_all (E : Env) (J : Junk) :
    List IntItem → t_fileio → Scanner → Res (List (Bool × Option (List Nat)) × t_fileio × Scanner)
  | [], cur, sc => .ok ([], cur, sc)
  | it :: rest, cur, sc =>
    (do_ascread E J cur sc (some (List.replicate it.mem.length 0)) 1 it.eio).bind
      fun (b, item1, cur1, sc1) =>
    (ascread_all E J rest cur1 sc1).bind fun (rs, cur2, sc2) => .ok ((b, item1) :: rs, cur2, sc2)

/-- The kinds whose object has a fixed size in storage, with that size and the
counts they admit: INT, USHORT and IVEC with count 1, NUCHAR with any count that
is not negative. -/
def fixed_kind (eio nitem : Int) (size : Nat) : Prop :=
  (eio = eioINT ∧ size = 4 ∧ nitem = 1) ∨ (eio = eioUSHORT ∧ size = 2 ∧ nitem = 1) ∨
  (eio = eioIVEC ∧ size = 12 ∧ nitem = 1) ∨ (eio = eioNUCHAR ∧ size = 1 ∧ 0 ≤ nitem)

instance (eio nitem : Int) (size : Nat) : Decidable (fixed_kind eio nitem size) := by
  unfold fixed_kind; infer_instance

/-- The kinds made of `real`s, with the number `k` of reals in one element and the
counts they admit: REAL and RVEC with count 1, NRVEC with any count of an `int`
that is not negative. -/
def real_kind (eio nitem : Int) (k : Nat) : Prop :=
  (eio = eioREAL ∧ k = 1 ∧ nitem = 1) ∨ (eio = eioRVEC ∧ k = DIM ∧ nitem = 1) ∨
  (eio = eioNRVEC ∧ k = DIM ∧ 0 ≤ nitem ∧ nitem < 2 ^ 31)

instance (eio nitem : Int) (k : Nat) : Decidable (real_kind eio nitem k) := by
  unfold real_kind; infer_instance

/-- The size of one element of `k` reals that `do_binread` takes from the flag
`bDouble`: `sizeof(double)` or `sizeof(float)` times `k`. -/
def binread_size (bDouble : Bool) (k : Nat) : Nat := (if bDouble then 8 else 4) * k

/-! ## Histories of registry calls -/

/-- One call of the registry: `fio_open(fn,mode)` together with what the
collaborators answer during it, `fio_select(fio)` or `fio_close(fio)`. -/
inductive Op where
  | fio_open (w : World) (fn : Option (List Nat)) (mode : List Nat)
  | fio_select (fio : Int)
  | fio_close (fio : Int)

/-- A history of calls run in order from the variables `g`: the values that the
`fio_open` calls returned, in order, and the variables at the end. -/
def run (E : Env) : List Op → Gmx → Res (List Nat × Gmx)
  | [], g => .ok ([], g)
  | .fio_open w fn mode :: ops, g =>
    (fio_open E w fn mode g).bind fun (i, g1) =>
    (run E ops g1).bind fun (is, g2) => .ok (i :: is, g2)
  | .fio_select fio :: ops, g => (fio_select E g fio).bind fun g1 => run E ops g1
  | .fio_close fio :: ops, g => (fio_close g fio).bind fun g1 => run E ops g1

/-- No `fio_select` was called since the last `fio_close`, or since the start when
there was no `fio_close`; `b` tells it for the calls before the history. -/
def unselected : List Op → Bool → Bool
  | [], b => b
  | .fio_open _ _ _ :: ops, b => unselected ops b
  | .fio_select _ :: ops, _ => unselected ops false
  | .fio_close _ :: ops, _ => unselected ops true

/-- The collaborators let `fio_open(fn,mode)` run to its end: there is no file
name (standard I/O); or the file is of a type in `ftpXDR` and is opened for writing
or exists (otherwise the fatal error "File %s not found"); or it is of another
type and `ffopen` opens it. -/
def fio_open_passes (w : World) (fn : Option (List Nat)) (mode : List Nat) : Prop :=
  fn = none ∨ (in_ftpset w.fn2ftp ftpXDR = true ∧ (mode.headD 0 = 119 ∨ w.fexist = true)) ∨
    (in_ftpset w.fn2ftp ftpXDR = false ∧ w.ffopen.isSome = true)

/-- The slot holds what `fio_close` passes to `xdrclose` or `fclose`: a channel
when its tag is in `ftpXDR`, otherwise a stream unless it is on standard I/O. -/
def closable (f : t_fileio) : Prop :=
  if in_ftpset f.iFTP ftpXDR then f.xdr.isSome = true
  else (f.bStdio = false → f.fp.isSome = true)

/-! ## The accessors of the registry -/

/-- `fio_getdebug(fio)` -/
def fio_getdebug (g : Gmx) (fio : Int) : Res Bool :=
  (fio_check g fio).bind fun _ =>
  (deref ( g.FIO.get? fio.toNat)).bind fun f => .ok f.bDebug

/-- `fio_setdebug(fio,bDebug)` -/
def fio_setdebug (g : Gmx) (fio : Int) (bDebug : Bool) : Res Gmx :=
  (fio_check g fio).bind fun _ =>
  (deref ( g.FIO.get? fio.toNat)).bind fun f =>
  .ok { g with FIO := g.FIO.set fio.toNat { f with bDebug := bDebug } }

/-- `fio_getname(fio)`: after the check of `fio` it returns `curfio->fn`. -/
def fio_getname (g : Gmx) (fio : Int) : Res (List Nat) :=
  (fio_check g fio).bind fun _ =>
  (deref g.curfio).bind fun k =>
  (deref ( g.FIO.get? k)).bind fun cur => .ok cur.fn

/-- `fio_setftp(fio,ftp)` -/
def fio_setftp (g : Gmx) (fio : Int) (ftp : Ftp) : Res Gmx :=
  (fio_check g fio).bind fun _ =>
  (deref ( g.FIO.get? fio.toNat)).bind fun f =>
  .ok { g with FIO := g.FIO.set fio.toNat { f with iFTP := ftp } }

/-- `fio_getftp(fio)` -/
def fio_getftp (g : Gmx) (fio : Int) : Res Ftp :=
  (fio_check g fio).bind fun _ =>
  (deref ( g.FIO.get? fio.toNat)).bind fun f => .ok f.iFTP

/-- Modelled from the spec: `frewind` is the stream rewind of `futil.c`, which is
not in src/ ("stream: seek-to-start"). On a NULL stream it has no defined
behaviour. -/
def frewind (fp : Option FILE) : Res (Option FILE) :=
  match fp with
  | none => .undefined
  | some f => .ok (some { f with pos := 0 })

/-- `fio_rewind(fio)`; `w.xdropen` is the channel that `xdropen` sets up again. -/
def fio_rewind (w : World) (g : Gmx) (fio : Int) : Res Gmx :=
  (fio_check g fio).bind fun _ =>
  (deref ( g.FIO.get? fio.toNat)).bind fun f =>
  match f.xdr with
  | some _ => .ok { g with FIO := g.FIO.set fio.toNat { f with xdr := some w.xdropen } }
  | none =>
    (frewind f.fp).bind fun fp1 => .ok { g with FIO := g.FIO.set fio.toNat { f with fp := fp1 } }

/-- `fio_flush(fio)`; `fflush` leaves the bytes and the position of the stream. -/
def fio_flush (g : Gmx) (fio : Int) : Res Gmx :=
  (fio_check g fio).bind fun _ =>
  (deref ( g.FIO.get? fio.toNat)).bind fun _ => .ok g

/-- `fio_ftell(fio)` -/
def fio_ftell (g : Gmx) (fio : Int) : Res Int :=
  (fio_check g fio).bind fun _ =>
  (deref ( g.FIO.get? fio.toNat)).bind fun f =>
  match f.fp with
  | some fp => .ok (fp.pos : Int)
  | none => .ok 0

/-- `fio_seek(fio,fpos)`; `fseek(fp,fpos,SEEK_SET)` to a negative offset fails and
leaves the position. -/
def fio_seek (g : Gmx) (fio : Int) (fpos : Int) : Res Gmx :=
  (fio_check g fio).bind fun _ =>
  (deref ( g.FIO.get? fio.toNat)).bind fun f =>
  match f.fp with
  | some fp =>
    if fpos < 0 then .ok g
    else .ok { g with FIO := g.FIO.set fio.toNat { f with fp := some { fp with pos := fpos.toNat } } }
  | none => .fatal "Can not seek on file %s"

/-- `fio_getfp(fio)` -/
def fio_getfp (g : Gmx) (fio : Int) : Res (Option FILE) :=
  (fio_check g fio).bind fun _ =>
  (deref ( g.FIO.get? fio.toNat)).bind fun f => .ok f.fp

/-- `fio_getxdr(fio)` -/
def fio_getxdr (g : Gmx) (fio : Int) : Res (Option XDR) :=
  (fio_check g fio).bind fun _ =>
  (deref ( g.FIO.get? fio.toNat)).bind fun f => .ok f.xdr

/-- `fio_getread(fio)` -/
def fio_getread (g : Gmx) (fio : Int) : Res Bool :=
  (fio_check g fio).bind fun _ =>
  (deref ( g.FIO.get? fio.toNat)).bind fun f => .ok f.bRead

/-- The line that `do_ascwrite` writes for the INT 1 with debug on, no annotation
and a description of 4080 letters `a`: 4103 characters and the line feed. -/
def long_comment_line : List Nat := str "                 1  ;  " ++ List.replicate 4080 97 ++ [10]

/-! # Theorems -/

/-! ## The token scanner -/

theorem skip_spaces_eq (l : List Nat) (i : Nat) :
    skip_spaces l i = i + (l.takeWhile (fun c => decide (c ≠ 0 ∧ c ≠ 59 ∧ isspace c = true))).length := by
  induction l generalizing i with
  | nil => simp [skip_spaces]
  | cons c cs ih =>
    by_cases h : c ≠ 0 ∧ c ≠ 59 ∧ isspace c = true
    · simp only [skip_spaces, if_pos h, ih, List.takeWhile_cons, decide_eq_true h, List.length_cons]
      simp; omega
    · simp only [skip_spaces, if_neg h, List.takeWhile_cons, decide_eq_false h]
      simp

theorem skip_token_eq (l : List Nat) (i : Nat) :
    skip_token l i = i + (l.takeWhile (fun c => decide (c ≠ 0 ∧ c ≠ 59 ∧ isspace c = false))).length := by
  induction l generalizing i with
  | nil => simp [skip_token]
  | cons c cs ih =>
    by_cases h : c ≠ 0 ∧ c ≠ 59 ∧ isspace c = false
    · simp only [skip_token, if_pos h, ih, List.takeWhile_cons, decide_eq_true h, List.length_cons]
      simp; omega
    · simp only [skip_token, if_neg h, List.takeWhile_cons, decide_eq_false h]
      simp

theorem cstr_set (buf : List Nat) (j e k v : Nat) (hje : j ≤ e) (hek : e < k)
    (he : buf[e]? = some 0) : cstr (buf.set k v) j = cstr buf j := by
  induction buf generalizing j e k with
  | nil => simp
  | cons c cs ih =>
    cases k with
    | zero => omega
    | succ k =>
      cases j with
      | zero =>
        cases e with
        | zero =>
          simp at he
          subst he
          simp [cstr]
        | succ e =>
          simp at he
          have := ih 0 e k (Nat.zero_le _) (by omega) he
          simp only [cstr, List.drop_zero] at this
          simp only [cstr, List.drop_zero, List.set_cons_succ, List.takeWhile_cons, this]
      | succ j =>
        cases e with
        | zero => omega
        | succ e =>
          simp at he
          have := ih j e k (by omega) (by omega) he
          simpa [cstr] using this

theorem span_decomp (p : Nat → Bool) (l : List Nat) :
    ∃ A R, l = A ++ R ∧ (∀ c ∈ A, p c = true) ∧
      (R = [] ∨ ∃ r R1, R = r :: R1 ∧ p r = false) ∧ (l.takeWhile p).length = A.length := by
  induction l with
  | nil => exact ⟨[], [], rfl, by simp, Or.inl rfl, rfl⟩
  | cons c cs ih =>
    by_cases h : p c = true
    · obtain ⟨A, R, h1, h2, h3, h4⟩ := ih
      refine ⟨c :: A, R, by simp [h1], ?_, h3, by simp [List.takeWhile_cons, h, h4]⟩
      intro x hx
      rcases List.mem_cons.1 hx with rfl | hx
      · exact h
      · exact h2 x hx
    · have h0 : p c = false := by simpa using h
      exact ⟨[], c :: cs, rfl, by simp, Or.inr ⟨c, cs, rfl, h0⟩, by simp [List.takeWhile_cons, h0]⟩

theorem drop_append_length (pre X : List Nat) (k : Nat) :
    (pre ++ X).drop (pre.length + k) = X.drop k := by
  induction pre with
  | nil => simp
  | cons c cs ih =>
    have e : (c :: cs).length + k = (cs.length + k) + 1 := by simp; omega
    rw [List.cons_append, e, List.drop_succ_cons]
    exact ih

theorem set_append_length (pre X : List Nat) (k v : Nat) :
    (pre ++ X).set (pre.length + k) v = pre ++ X.set k v := by
  induction pre with
  | nil => simp
  | cons c cs ih => simp [Nat.succ_add]

theorem getD_append_length (pre X : List Nat) (k d : Nat) :
    (pre ++ X).getD (pre.length + k) d = X.getD k d := by
  induction pre with
  | nil => simp
  | cons c cs ih =>
    have e : (c :: cs).length + k = (cs.length + k) + 1 := by simp; omega
    rw [List.cons_append, e, List.getD_cons_succ]
    exact ih

theorem takeWhile_ne_append (p : Nat → Bool) (A Y : List Nat) (hA : ∀ c ∈ A, p c = true) :
    (A ++ Y).takeWhile p = A ++ Y.takeWhile p := by
  induction A with
  | nil => simp
  | cons c cs ih =>
    have hc : p c = true := hA c (List.mem_cons_self _ _)
    simp [List.takeWhile_cons, hc, ih (fun x hx => hA x (List.mem_cons_of_mem _ hx))]

theorem runs_from_token (cur b Y : List Nat) (hb : ∀ c ∈ b, isspace c = false) :
    runs_from cur (b ++ Y) = runs_from (cur ++ b) Y := by
  induction b generalizing cur with
  | nil => simp
  | cons c cs ih =>
    have hc : isspace c = false := hb c (List.mem_cons_self _ _)
    have := ih (cur ++ [c]) (fun x hx => hb x (List.mem_cons_of_mem _ hx))
    simp [runs_from, hc, this]

theorem runs_from_spaces (a Y : List Nat) (ha : ∀ c ∈ a, isspace c = true) :
    runs_from [] (a ++ Y) = runs_from [] Y := by
  induction a with
  | nil => simp
  | cons c cs ih =>
    have hc : isspace c = true := ha c (List.mem_cons_self _ _)
    simp [runs_from, hc, ih (fun x hx => ha x (List.mem_cons_of_mem _ hx))]

theorem isspace_ne_semicolon (c : Nat) (h : isspace c = true) : c ≠ 59 := by
  intro hc; subst hc; simp [isspace] at h

theorem line_tokens_spaces (a Y : List Nat) (ha : ∀ c ∈ a, isspace c = true) :
    line_tokens (a ++ Y) = line_tokens Y := by
  unfold line_tokens runs
  rw [takeWhile_ne_append _ a Y (fun c hc => by simpa using isspace_ne_semicolon c (ha c hc))]
  exact runs_from_spaces a _ ha

theorem line_tokens_semicolon (Y : List Nat) : line_tokens (59 :: Y) = [] := by
  simp [line_tokens, runs, runs_from]

theorem line_tokens_nil : line_tokens [] = [] := by
  simp [line_tokens, runs, runs_from]

theorem line_tokens_token_end (b : List Nat) (hne : b ≠ [])
    (hb : ∀ c ∈ b, c ≠ 59 ∧ isspace c = false) : line_tokens b = [b] := by
  unfold line_tokens runs
  have h1 := takeWhile_ne_append (fun c => decide (c ≠ 59)) b [] (fun c hc => by simpa using (hb c hc).1)
  simp only [List.append_nil, List.takeWhile_nil] at h1
  rw [h1]
  have h2 := runs_from_token [] b [] (fun c hc => (hb c hc).2)
  simp only [List.append_nil, List.nil_append] at h2
  rw [h2]
  simp [runs_from, hne]

theorem line_tokens_token_semicolon (b Y : List Nat) (hne : b ≠ [])
    (hb : ∀ c ∈ b, c ≠ 59 ∧ isspace c = false) : line_tokens (b ++ 59 :: Y) = [b] := by
  have h1 := takeWhile_ne_append (fun c => decide (c ≠ 59)) b (59 :: Y) (fun c hc => by simpa using (hb c hc).1)
  have h3 := line_tokens_token_end b hne hb
  unfold line_tokens at h3 ⊢
  rw [h1]
  have h4 := takeWhile_ne_append (fun c => decide (c ≠ 59)) b [] (fun c hc => by simpa using (hb c hc).1)
  simp only [List.append_nil, List.takeWhile_nil] at h4
  rw [h4] at h3
  simpa [List.takeWhile_cons] using h3

theorem line_tokens_token_space (b Y : List Nat) (r : Nat) (hne : b ≠ [])
    (hb : ∀ c ∈ b, c ≠ 59 ∧ isspace c = false) (hr : isspace r = true) :
    line_tokens (b ++ r :: Y) = b :: line_tokens Y := by
  unfold line_tokens runs
  rw [takeWhile_ne_append _ b (r :: Y) (fun c hc => by simpa using (hb c hc).1)]
  have hr2 : r ≠ 59 := isspace_ne_semicolon r hr
  rw [runs_from_token [] b _ (fun c hc => (hb c hc).2)]
  simp [List.takeWhile_cons, hr2, runs_from, hr, hne]

theorem cstr_append_length (pre X : List Nat) (k : Nat) :
    cstr (pre ++ X) (pre.length + k) = cstr X k := by
  simp [cstr, drop_append_length]

/-- One pass of the scan at index `i`: the characters from `buf[i]` on split into
blanks `A`, a token `B` and a remainder that is empty or starts with a separator. -/
theorem scan_decomp (buf : List Nat) (i : Nat) (hi : i ≤ buf.length) :
    ∃ pre A B R, buf = pre ++ (A ++ (B ++ R)) ∧ pre.length = i ∧
      (∀ c ∈ A, c ≠ 0 ∧ isspace c = true) ∧
      (∀ c ∈ B, c ≠ 0 ∧ c ≠ 59 ∧ isspace c = false) ∧
      (R = [] ∨ ∃ r R1, R = r :: R1 ∧ (r = 0 ∨ r = 59 ∨ (isspace r = true ∧ B ≠ []))) ∧
      skip_spaces (buf.drop i) i = i + A.length ∧
      skip_token (buf.drop (i + A.length)) (i + A.length) = i + A.length + B.length := by
  obtain ⟨A, R0, h1, h2, h3, h4⟩ :=
    span_decomp (fun c => decide (c ≠ 0 ∧ c ≠ 59 ∧ isspace c = true)) (buf.drop i)
  obtain ⟨B, R, g1, g2, g3, g4⟩ :=
    span_decomp (fun c => decide (c ≠ 0 ∧ c ≠ 59 ∧ isspace c = false)) R0
  have hbuf : buf = buf.take i ++ (A ++ (B ++ R)) := by
    rw [← g1, ← h1, List.take_append_drop]
  have hlen : (buf.take i).length = i := by simp [hi]
  refine ⟨buf.take i, A, B, R, hbuf, hlen, ?_, ?_, ?_, ?_, ?_⟩
  · intro c hc
    have := h2 c hc
    simp at this
    exact ⟨this.1, this.2.2⟩
  · intro c hc
    have := g2 c hc
    simpa using this
  · rcases g3 with g3 | ⟨r, R1, g3, g5⟩
    · exact Or.inl g3
    · refine Or.inr ⟨r, R1, g3, ?_⟩
      by_cases hr0 : r = 0
      · exact Or.inl hr0
      by_cases hr1 : r = 59
      · exact Or.inr (Or.inl hr1)
      have hsp : isspace r = true := by
        simp at g5
        exact g5 hr0 hr1
      refine Or.inr (Or.inr ⟨hsp, ?_⟩)
      intro hB
      subst hB
      simp at g1
      rcases h3 with h3 | ⟨r2, R2, h3, h5⟩
      · rw [h3] at g1; rw [g3] at g1; simp at g1
      · rw [h3, g3] at g1
        simp at g1
        simp at h5
        rw [g1.1] at h5
        have := h5 hr0 hr1
        rw [hsp] at this
        exact absurd this (by simp)
  · rw [skip_spaces_eq, h4]
  · have hd : buf.drop (i + A.length) = R0 := by
      have e : buf.drop (i + A.length) = (buf.drop i).drop A.length := by
        rw [List.drop_drop]
      rw [e, h1]; simp
    rw [hd, skip_token_eq, g4]

theorem cstr_append_token (pre B R : List Nat) (hB : ∀ c ∈ B, c ≠ 0) :
    cstr (pre ++ (B ++ R)) pre.length = B ++ cstr R 0 := by
  have := cstr_append_length pre (B ++ R) 0
  simp only [Nat.add_zero] at this
  rw [this]
  simp only [cstr, List.drop_zero]
  exact takeWhile_ne_append _ B R (fun c hc => by simpa using hB c hc)

theorem scan_loop_spec (fuel : Nat) : ∀ (buf idx : List Nat) (i : Nat), i ≤ buf.length →
    buf.length + 1 ≤ fuel + i →
    idx.length + (line_tokens (cstr buf i)).length ≤ MAXBUF →
    ∃ buf1 new, scan_loop fuel buf idx i = .ok (buf1, idx ++ new) ∧
      new.map (cstr buf1) = line_tokens (cstr buf i) ∧
      ∀ j e, j ≤ e → e < i → buf[e]? = some 0 → cstr buf1 j = cstr buf j := by
  induction fuel with
  | zero => intro buf idx i h1 h2; omega
  | succ fuel ih =>
    intro buf idx i hi hfuel hmax
    obtain ⟨pre, A, B, R, hbuf, hpre, hA, hB, hR, hs1, hs2⟩ := scan_decomp buf i hi
    have hcs : cstr buf i = A ++ (B ++ cstr R 0) := by
      have e1 : cstr buf i = cstr (pre ++ (A ++ (B ++ R))) pre.length := by rw [← hbuf, hpre]
      rw [e1, cstr_append_token pre A (B ++ R) (fun c hc => (hA c hc).1)]
      have e2 := cstr_append_token [] B R (fun c hc => (hB c hc).1)
      simp only [List.nil_append, List.length_nil] at e2
      rw [e2]
    have hlt : line_tokens (cstr buf i) = line_tokens (B ++ cstr R 0) := by
      rw [hcs]; exact line_tokens_spaces A _ (fun c hc => (hA c hc).2)
    have hB2 : ∀ c ∈ B, c ≠ 59 ∧ isspace c = false := fun c hc => (hB c hc).2
    -- the character at the index where the token scan stops
    have hccc : buf.getD (i + A.length + B.length) 0 = R.getD 0 0 := by
      have e : buf = (pre ++ A ++ B) ++ R := by rw [hbuf]; simp
      have e3 : i + A.length + B.length = (pre ++ A ++ B).length + 0 := by simp [hpre]; omega
      rw [e3]
      conv_lhs => rw [e]
      exact getD_append_length _ _ _ _
    have hset : buf.set (i + A.length + B.length) 0 = (pre ++ A ++ B) ++ R.set 0 0 := by
      have e : buf = (pre ++ A ++ B) ++ R := by rw [hbuf]; simp
      have e3 : i + A.length + B.length = (pre ++ A ++ B).length + 0 := by simp [hpre]; omega
      rw [e3]
      conv_lhs => rw [e]
      exact set_append_length _ _ _ _
    unfold scan_loop
    simp only [hs1, hs2]
    by_cases hBe : B = []
    · -- no token: the scan stopped on NUL or on the comment sign
      subst hBe
      simp only [List.length_nil, Nat.add_zero, gt_iff_lt, lt_irrefl, if_false]
      have hz : R.getD 0 0 = 0 ∨ R.getD 0 0 = 59 := by
        rcases hR with rfl | ⟨r, R1, rfl, hr⟩
        · simp
        · rcases hr with hr | hr | hr
          · simp [hr]
          · simp [hr]
          · exact absurd rfl hr.2
      have hzz : ¬ (buf.getD (i + A.length) 0 ≠ 0 ∧ buf.getD (i + A.length) 0 ≠ 59) := by
        have := hccc
        simp only [List.length_nil, Nat.add_zero] at this
        rw [this]
        rcases hz with hz | hz <;> rw [hz] <;> simp
      rw [if_neg hzz]
      refine ⟨buf, [], by simp, ?_, fun _ _ _ _ _ => rfl⟩
      rw [hlt]
      simp only [List.nil_append, List.map_nil]
      rcases hR with rfl | ⟨r, R1, rfl, hr⟩
      · simp [cstr, line_tokens_nil]
      · rcases hr with hr | hr | hr
        · subst hr; simp [cstr, line_tokens_nil]
        · subst hr; simp [cstr, List.takeWhile_cons, line_tokens_semicolon]
        · exact absurd rfl hr.2
    · have hBl : 0 < B.length := List.length_pos.2 hBe
      have hgt : i + A.length + B.length > i + A.length := by omega
      rw [if_pos hgt]
      have hcount : 1 ≤ (line_tokens (cstr buf i)).length := by
        rw [hlt]
        rcases hR with rfl | ⟨r, R1, rfl, hr⟩
        · simp [cstr, line_tokens_token_end B hBe hB2]
        · rcases hr with hr | hr | hr
          · subst hr; simp [cstr, line_tokens_token_end B hBe hB2]
          · subst hr
            simp [cstr, List.takeWhile_cons, line_tokens_token_semicolon B _ hBe hB2]
          · have hr0 : r ≠ 0 := by
              intro h0; subst h0; simp [isspace] at hr
            simp [cstr, List.takeWhile_cons, hr0, line_tokens_token_space B _ r hBe hB2 hr.1]
      have hidx : idx.length < MAXBUF := by omega
      rw [if_pos hidx]
      -- the token just queued reads back as B from the updated buffer
      have htok : cstr (buf.set (i + A.length + B.length) 0) (i + A.length) = B := by
        rw [hset]
        have e : pre ++ A ++ B ++ R.set 0 0 = (pre ++ A) ++ (B ++ R.set 0 0) := by simp
        have e3 : i + A.length = (pre ++ A).length := by simp [hpre]
        rw [e, e3, cstr_append_token _ B _ (fun c hc => (hB c hc).1)]
        cases R with
        | nil => simp [cstr]
        | cons r R1 => simp [cstr]
      have hlen : i + A.length + B.length ≤ buf.length := by
        have : buf.length = pre.length + (A.length + (B.length + R.length)) := by
          conv_lhs => rw [hbuf]
          simp
        omega
      have hpres : ∀ j e, j ≤ e → e < i → buf[e]? = some 0 →
          cstr (buf.set (i + A.length + B.length) 0) j = cstr buf j := by
        intro j e hje hei he
        exact cstr_set buf j e _ 0 hje (by omega) he
      by_cases hcc : buf.getD (i + A.length + B.length) 0 ≠ 0 ∧
          buf.getD (i + A.length + B.length) 0 ≠ 59
      · rw [if_pos hcc]
        rw [hccc] at hcc
        -- the remainder starts with a blank: the loop goes on after it
        obtain ⟨r, R1, hRe, hrsp⟩ : ∃ r R1, R = r :: R1 ∧ isspace r = true := by
          rcases hR with rfl | ⟨r, R1, rfl, hr⟩
          · simp at hcc
          · rcases hr with hr | hr | hr
            · subst hr; simp at hcc
            · subst hr; simp at hcc
            · exact ⟨r, R1, rfl, hr.1⟩
        subst hRe
        have hr0 : r ≠ 0 := by simpa using hcc.1
        have hlen2 : i + A.length + B.length + 1 ≤ buf.length := by
          have : buf.length = pre.length + (A.length + (B.length + (R1.length + 1))) := by
            conv_lhs => rw [hbuf]
            simp
          omega
        have hnext : cstr (buf.set (i + A.length + B.length) 0) (i + A.length + B.length + 1)
            = cstr R1 0 := by
          rw [hset]
          have e3 : i + A.length + B.length + 1 = (pre ++ A ++ B).length + 1 := by simp [hpre]; omega
          rw [e3, cstr_append_length]
          simp [cstr]
        have hfull : line_tokens (cstr buf i) = B :: line_tokens (cstr R1 0) := by
          rw [hlt]
          have : cstr (r :: R1) 0 = r :: cstr R1 0 := by simp [cstr, List.takeWhile_cons, hr0]
          rw [this, line_tokens_token_space B _ r hBe hB2 hrsp]
        obtain ⟨buf1, new, hrun, hmap, hkeep⟩ := ih (buf.set (i + A.length + B.length) 0)
          (idx ++ [i + A.length]) (i + A.length + B.length + 1)
          (by simpa using hlen2) (by simp; omega)
          (by rw [hnext]; rw [hfull] at hmax; simp at hmax ⊢; omega)
        refine ⟨buf1, (i + A.length) :: new, ?_, ?_, ?_⟩
        · rw [hrun]; simp
        · rw [hfull, List.map_cons, hmap, hnext]
          congr 1
          rw [hkeep (i + A.length) (i + A.length + B.length) (by omega) (by omega)
            (by rw [List.getElem?_set_self (by omega)]), htok]
        · intro j e hje hei he
          rw [hkeep j e hje (by omega)
            (by rw [List.getElem?_set_ne (by omega)]; exact he)]
          exact hpres j e hje hei he
      · rw [if_neg hcc]
        rw [hccc] at hcc
        refine ⟨_, [i + A.length], rfl, ?_, hpres⟩
        simp only [List.map_cons, List.map_nil, htok]
        rw [hlt]
        rcases hR with rfl | ⟨r, R1, rfl, hr⟩
        · simp [cstr, line_tokens_token_end B hBe hB2]
        · rcases hr with hr | hr | hr
          · subst hr; simp [cstr, line_tokens_token_end B hBe hB2]
          · subst hr
            simp [cstr, List.takeWhile_cons, line_tokens_token_semicolon B _ hBe hB2]
          · exfalso
            apply hcc
            have hr0 : r ≠ 0 := by
              intro h0; subst h0; simp [isspace] at hr
            have hr1 : r ≠ 59 := isspace_ne_semicolon r hr.1
            simp [hr0, hr1]

theorem chop_newline_cstr (s : List Nat) :
    cstr (chop_newline s) 0 = s.takeWhile (fun c => decide (c ≠ 0 ∧ c ≠ 10)) := by
  induction s with
  | nil => simp [chop_newline, cstr]
  | cons c cs ih =>
    simp only [cstr, List.drop_zero] at ih
    by_cases h0 : c = 0
    · subst h0; simp [chop_newline, cstr]
    · by_cases h1 : c = 10
      · subst h1; simp [chop_newline, cstr]
      · simp [chop_newline, cstr, h0, h1, List.takeWhile_cons]
        simpa using ih

theorem chop_newline_length (s : List Nat) : (chop_newline s).length = s.length := by
  induction s with
  | nil => rfl
  | cons c cs ih =>
    by_cases h0 : c = 0
    · simp [chop_newline, h0]
    · by_cases h1 : c = 10
      · simp [chop_newline, h1]
      · simp [chop_newline, h0, h1, ih]

theorem fgets_chars_nil (k : Nat) : fgets_chars k [] = [] := by
  cases k <;> rfl

theorem fgets_chars_spec (rem : List Nat) : ∀ (k : Nat), 0 ∉ rem →
    (rem.takeWhile (fun c => decide (c ≠ 10))).length ≤ k → 1 ≤ k → rem ≠ [] →
    (fgets_chars k rem).takeWhile (fun c => decide (c ≠ 0 ∧ c ≠ 10))
        = rem.takeWhile (fun c => decide (c ≠ 10)) ∧
      1 ≤ (fgets_chars k rem).length ∧ (fgets_chars k rem).length ≤ rem.length ∧
      (rem.drop (fgets_chars k rem).length
          = rem.drop ((rem.takeWhile (fun c => decide (c ≠ 10))).length + 1) ∨
       rem.drop (fgets_chars k rem).length
          = 10 :: rem.drop ((rem.takeWhile (fun c => decide (c ≠ 10))).length + 1)) := by
  induction rem with
  | nil => intro k _ _ _ h; exact absurd rfl h
  | cons c cs ih =>
    intro k hnul hlen hk _
    obtain ⟨k, rfl⟩ : ∃ k1, k = k1 + 1 := ⟨k - 1, by omega⟩
    have hc0 : c ≠ 0 := fun h => hnul (by simp [h])
    have hcs0 : 0 ∉ cs := fun h => hnul (List.mem_cons_of_mem _ h)
    by_cases hc : c = 10
    · subst hc
      simp [fgets_chars]
    · simp only [fgets_chars, if_neg hc, List.takeWhile_cons, decide_eq_true hc,
        List.length_cons, ite_true] at hlen ⊢
      have hcc : decide (c ≠ 0 ∧ c ≠ 10) = true := by simp [hc0, hc]
      simp only [hcc, ite_true, List.drop_succ_cons]
      cases cs with
      | nil => simp [fgets_chars_nil]
      | cons d ds =>
        cases k with
        | zero =>
          have hd : d = 10 := by
            by_contra hd
            simp [List.takeWhile_cons, hd] at hlen
          subst hd
          simp [fgets_chars]
        | succ k =>
          obtain ⟨h1, h2, h3, h4⟩ := ih (k + 1) hcs0 (by omega) (by omega) (by simp)
          refine ⟨by rw [h1], by omega, by simpa using h3, ?_⟩
          simpa using h4

theorem lines_from_cons (rem : List Nat) : ∀ cur : List Nat, rem ≠ [] →
    lines_from cur rem = (cur ++ rem.takeWhile (fun c => decide (c ≠ 10))) ::
      lines_from [] (rem.drop ((rem.takeWhile (fun c => decide (c ≠ 10))).length + 1)) := by
  induction rem with
  | nil => intro _ h; exact absurd rfl h
  | cons c cs ih =>
    intro cur _
    by_cases hc : c = 10
    · subst hc; simp [lines_from]
    · cases cs with
      | nil => simp [lines_from, hc]
      | cons d ds =>
        have := ih (cur ++ [c]) (by simp)
        simp only [lines_from, if_neg hc, List.takeWhile_cons, decide_eq_true hc, ite_true,
          List.length_cons, List.drop_succ_cons]
        rw [lines_from] at this
        simpa [List.takeWhile_cons] using this

theorem lines_cons (rem : List Nat) (h : rem ≠ []) :
    lines rem = rem.takeWhile (fun c => decide (c ≠ 10)) ::
      lines (rem.drop ((rem.takeWhile (fun c => decide (c ≠ 10))).length + 1)) := by
  have := lines_from_cons rem [] h
  simpa [lines] using this

theorem lines_newline (X : List Nat) : lines (10 :: X) = [] :: lines X := by
  simp [lines, lines_from]

theorem text_tokens_cons (rem : List Nat) (h : rem ≠ []) :
    text_tokens rem = line_tokens (rem.takeWhile (fun c => decide (c ≠ 10))) ++
      text_tokens (rem.drop ((rem.takeWhile (fun c => decide (c ≠ 10))).length + 1)) := by
  unfold text_tokens
  rw [lines_cons rem h]
  simp

theorem text_tokens_newline (X : List Nat) : text_tokens (10 :: X) = text_tokens X := by
  unfold text_tokens
  rw [lines_newline]
  simp [line_tokens_nil]

theorem fits_cons (S : Nat) (rem : List Nat) (h : rem ≠ []) (hf : fits S rem) :
    (rem.takeWhile (fun c => decide (c ≠ 10))).length ≤ S - 2 ∧
    (line_tokens (rem.takeWhile (fun c => decide (c ≠ 10)))).length ≤ MAXBUF ∧
    fits S (rem.drop ((rem.takeWhile (fun c => decide (c ≠ 10))).length + 1)) := by
  unfold fits at hf ⊢
  rw [lines_cons rem h] at hf
  refine ⟨(hf _ (List.mem_cons_self _ _)).1, (hf _ (List.mem_cons_self _ _)).2, ?_⟩
  intro l hl
  exact hf l (List.mem_cons_of_mem _ hl)

theorem fits_newline (S : Nat) (X : List Nat) (hf : fits S X) : fits S (10 :: X) := by
  unfold fits at hf ⊢
  rw [lines_newline]
  intro l hl
  rcases List.mem_cons.1 hl with rfl | hl
  · simp [line_tokens_nil]
  · exact hf l hl

theorem rest_advance (fp : FILE) (k : Nat) :
    FILE.rest { fp with pos := fp.pos + k } = fp.rest.drop k := by
  simp [FILE.rest, List.drop_drop, Nat.add_comm]

theorem not_mem_drop (x : Nat) (l : List Nat) (k : Nat) (h : x ∉ l) : x ∉ l.drop k :=
  fun hx => h (List.mem_of_mem_drop hx)

/-- What reading one line does for a scanner whose queue is empty. -/
theorem next_item_rec_spec (S : Nat) (hS : 3 ≤ S) : ∀ (n fuel : Nat) (sc : Scanner) (fp : FILE),
    fp.rest.length ≤ n → fp.rest.length + 2 ≤ fuel → sc.bufindex = [] →
    0 ∉ fp.rest → fits S fp.rest →
    (text_tokens fp.rest = [] → next_item_rec S fuel sc fp = .fatal "End of file") ∧
    (∀ t L, text_tokens fp.rest = t :: L → ∃ sc1 fp1,
      next_item_rec S fuel sc fp = .ok (t, sc1, fp1) ∧
      sc1.bufindex.map (cstr sc1.buf) ++ text_tokens fp1.rest = L ∧
      0 ∉ fp1.rest ∧ fits S fp1.rest) := by
  intro n
  induction n with
  | zero =>
    intro fuel sc fp hn hfuel hq _ _
    have hrest : fp.rest = [] := List.length_eq_zero.1 (by omega)
    obtain ⟨fuel, rfl⟩ : ∃ f, fuel = f + 1 := ⟨fuel - 1, by omega⟩
    constructor
    · intro _
      simp [next_item_rec, hq, fgets2, fgets, hrest]
    · intro t L h
      rw [hrest] at h
      simp [text_tokens, lines, lines_from] at h
  | succ n ih =>
    intro fuel sc fp hn hfuel hq hnul hfit
    obtain ⟨fuel, rfl⟩ : ∃ f, fuel = f + 1 := ⟨fuel - 1, by omega⟩
    cases hrest : fp.rest with
    | nil =>
      constructor
      · intro _
        simp [next_item_rec, hq, fgets2, fgets, hrest]
      · intro t L h
        simp [text_tokens, lines, lines_from] at h
    | cons c cs =>
      have hne : fp.rest ≠ [] := by rw [hrest]; simp
      obtain ⟨hl1, hl2, hl3⟩ := fits_cons S fp.rest hne hfit
      obtain ⟨g1, g2, g3, g4⟩ := fgets_chars_spec fp.rest (S - 1 - 1) hnul (by omega) (by omega) hne
      rw [hrest] at g1 g2 g3 g4
      -- the stream after the line, and what the text still holds
      have hfp1 : FILE.rest { fp with pos := fp.pos + (fgets_chars (S - 1 - 1) (c :: cs)).length }
          = (c :: cs).drop (fgets_chars (S - 1 - 1) (c :: cs)).length := by
        rw [rest_advance, hrest]
      have htt : text_tokens fp.rest =
          line_tokens ((c :: cs).takeWhile (fun c => decide (c ≠ 10))) ++
          text_tokens ((c :: cs).drop (fgets_chars (S - 1 - 1) (c :: cs)).length) := by
        rw [text_tokens_cons fp.rest hne, hrest]
        rcases g4 with g4 | g4
        · rw [g4]
        · rw [g4, text_tokens_newline]
      have hfit1 : fits S ((c :: cs).drop (fgets_chars (S - 1 - 1) (c :: cs)).length) := by
        rw [hrest] at hl3
        rcases g4 with g4 | g4
        · rw [g4]; exact hl3
        · rw [g4]; exact fits_newline S _ hl3
      have hnul1 : 0 ∉ (c :: cs).drop (fgets_chars (S - 1 - 1) (c :: cs)).length := by
        rw [hrest] at hnul
        exact not_mem_drop 0 _ _ hnul
      -- the scan of the line
      have hline : cstr (chop_newline (fgets_chars (S - 1 - 1) (c :: cs))) 0
          = (c :: cs).takeWhile (fun c => decide (c ≠ 10)) := by
        rw [chop_newline_cstr, g1]
      rw [hrest] at hl2
      obtain ⟨buf1, new, hscan, hmap, _⟩ := scan_loop_spec
        ((chop_newline (fgets_chars (S - 1 - 1) (c :: cs))).length + 1)
        (chop_newline (fgets_chars (S - 1 - 1) (c :: cs))) [] 0 (Nat.zero_le _) (by omega)
        (by rw [hline]; simpa using hl2)
      rw [hline] at hmap
      simp only [List.nil_append] at hscan
      have hstep : next_item_rec S (fuel + 1) sc fp = next_item_rec S fuel
          { buf := buf1, bufindex := new }
          { fp with pos := fp.pos + (fgets_chars (S - 1 - 1) (c :: cs)).length } := by
        simp only [next_item_rec, hq, fgets2, fgets, hrest, hscan]
      rw [hrest] at htt
      rw [hstep, htt]
      have hshort : (FILE.rest { fp with pos := fp.pos + (fgets_chars (S - 1 - 1) (c :: cs)).length }).length
          + 1 ≤ fp.rest.length := by
        rw [hfp1, List.length_drop, hrest]
        simp only [List.length_cons] at g3 ⊢
        omega
      have hlen1 : (FILE.rest { fp with pos := fp.pos + (fgets_chars (S - 1 - 1) (c :: cs)).length }).length
          ≤ n := by omega
      cases hnew : new with
      | nil =>
        rw [hnew] at hmap
        simp only [List.map_nil] at hmap
        rw [← hmap, List.nil_append, ← hfp1]
        exact ih fuel { buf := buf1, bufindex := [] } _ hlen1 (by omega) rfl
          (by rw [hfp1]; exact hnul1) (by rw [hfp1]; exact hfit1)
      | cons j js =>
        rw [hnew] at hmap
        simp only [List.map_cons] at hmap
        obtain ⟨fuel, rfl⟩ : ∃ f, fuel = f + 1 := ⟨fuel - 1, by omega⟩
        constructor
        · intro h
          rw [← hmap] at h
          simp at h
        · intro t L h
          rw [← hmap] at h
          simp only [List.cons_append, List.cons.injEq] at h
          refine ⟨{ buf := buf1, bufindex := js },
            { fp with pos := fp.pos + (fgets_chars (S - 1 - 1) (c :: cs)).length }, ?_, ?_, ?_, ?_⟩
          · simp [next_item_rec, h.1]
          · rw [hfp1]; exact h.2
          · rw [hfp1]; exact hnul1
          · rw [hfp1]; exact hfit1

/-- The scanner holds the tokens `L`: those queued, then those of the unread text. -/
theorem next_item_step (S : Nat) (hS : 3 ≤ S) (sc : Scanner) (fp : FILE) (t : List Nat)
    (L : List (List Nat)) (hL : sc.bufindex.map (cstr sc.buf) ++ text_tokens fp.rest = t :: L)
    (hnul : 0 ∉ fp.rest) (hfit : fits S fp.rest) :
    ∃ sc1 fp1, next_item S sc fp = .ok (t, sc1, fp1) ∧
      sc1.bufindex.map (cstr sc1.buf) ++ text_tokens fp1.rest = L ∧
      0 ∉ fp1.rest ∧ fits S fp1.rest := by
  cases hq : sc.bufindex with
  | nil =>
    rw [hq] at hL
    simp only [List.map_nil, List.nil_append] at hL
    exact (next_item_rec_spec S hS _ _ sc fp (Nat.le_refl _) (Nat.le_refl _) hq hnul hfit).2 t L hL
  | cons j js =>
    rw [hq] at hL
    simp only [List.map_cons, List.cons_append, List.cons.injEq] at hL
    refine ⟨{ sc with bufindex := js }, fp, ?_, hL.2, hnul, hfit⟩
    simp [next_item, next_item_rec, hq, hL.1]

theorem next_item_eof (S : Nat) (hS : 3 ≤ S) (sc : Scanner) (fp : FILE)
    (hL : sc.bufindex.map (cstr sc.buf) ++ text_tokens fp.rest = [])
    (hnul : 0 ∉ fp.rest) (hfit : fits S fp.rest) :
    next_item S sc fp = .fatal "End of file" := by
  have h1 : sc.bufindex = [] := by
    cases hq : sc.bufindex with
    | nil => rfl
    | cons j js => rw [hq] at hL; simp at hL
  have h2 : text_tokens fp.rest = [] := by
    rw [h1] at hL; simpa using hL
  exact (next_item_rec_spec S hS _ _ sc fp (Nat.le_refl _) (Nat.le_refl _) h1 hnul hfit).1 h2

theorem next_items_spec (S : Nat) (hS : 3 ≤ S) (L : List (List Nat)) :
    ∀ (sc : Scanner) (fp : FILE), sc.bufindex.map (cstr sc.buf) ++ text_tokens fp.rest = L →
    0 ∉ fp.rest → fits S fp.rest →
    ∃ sc1 fp1, next_items S L.length sc fp = .ok (L, sc1, fp1) ∧
      next_item S sc1 fp1 = .fatal "End of file" := by
  induction L with
  | nil =>
    intro sc fp hL hnul hfit
    exact ⟨sc, fp, rfl, next_item_eof S hS sc fp hL hnul hfit⟩
  | cons t L ih =>
    intro sc fp hL hnul hfit
    obtain ⟨sc1, fp1, h1, h2, h3, h4⟩ := next_item_step S hS sc fp t L hL hnul hfit
    obtain ⟨sc2, fp2, g1, g2⟩ := ih sc1 fp1 h2 h3 h4
    exact ⟨sc2, fp2, by simp [next_items, h1, g1], g2⟩


theorem fgets_chars_token (b Y : List Nat) (hb : ∀ c ∈ b, c ≠ 10) :
    fgets_chars b.length (b ++ Y) = b := by
  induction b with
  | nil => simp [fgets_chars]
  | cons c cs ih =>
    have hc : c ≠ 10 := hb c (List.mem_cons_self _ _)
    simp [fgets_chars, hc, ih (fun x hx => hb x (List.mem_cons_of_mem _ hx))]

theorem chop_newline_token (b : List Nat) (hb : ∀ c ∈ b, c ≠ 0 ∧ c ≠ 10) : chop_newline b = b := by
  induction b with
  | nil => rfl
  | cons c cs ih =>
    have hc := hb c (List.mem_cons_self _ _)
    simp [chop_newline, hc.1, hc.2, ih (fun x hx => hb x (List.mem_cons_of_mem _ hx))]

theorem cstr_token (b : List Nat) (hb : ∀ c ∈ b, c ≠ 0) : cstr b 0 = b := by
  have := takeWhile_ne_append (fun c => decide (c ≠ 0)) b [] (fun c hc => by simpa using hb c hc)
  simpa [cstr] using this

/-- The first call of `next_item` on a stream whose first chunk holds a token: the
other tokens of the chunk are left in the queue. -/
theorem next_item_first (S : Nat) (sc : Scanner) (fp : FILE) (t : List Nat) (T : List (List Nat))
    (hq : sc.bufindex = []) (hne : fp.rest ≠ [])
    (ht : line_tokens (cstr (chop_newline (fgets_chars (S - 1 - 1) fp.rest)) 0) = t :: T)
    (hT : T.length + 1 ≤ MAXBUF) :
    ∃ sc1, next_item S sc fp
        = .ok (t, sc1, { fp with pos := fp.pos + (fgets_chars (S - 1 - 1) fp.rest).length }) ∧
      sc1.bufindex.map (cstr sc1.buf) = T := by
  obtain ⟨buf1, new, hscan, hmap, _⟩ := scan_loop_spec
    ((chop_newline (fgets_chars (S - 1 - 1) fp.rest)).length + 1)
    (chop_newline (fgets_chars (S - 1 - 1) fp.rest)) [] 0 (Nat.zero_le _) (by omega)
    (by rw [ht]; simpa using hT)
  rw [ht] at hmap
  simp only [List.nil_append] at hscan
  cases hrest : fp.rest with
  | nil => exact absurd hrest hne
  | cons c cs =>
    rw [hrest] at hscan
    cases hnew : new with
    | nil => rw [hnew] at hmap; simp at hmap
    | cons j js =>
      rw [hnew] at hmap hscan
      simp only [List.map_cons, List.cons.injEq] at hmap
      refine ⟨{ buf := buf1, bufindex := js }, ?_, hmap.2⟩
      simp [next_item, next_item_rec, hq, fgets2, fgets, hrest, hscan, hmap.1]

/-- A call of `next_item` with a token in the queue returns it and leaves the stream. -/
theorem next_item_pop (S : Nat) (sc : Scanner) (fp : FILE) (t : List Nat) (T : List (List Nat))
    (h : sc.bufindex.map (cstr sc.buf) = t :: T) :
    ∃ sc1, next_item S sc fp = .ok (t, sc1, fp) ∧ sc1.bufindex.map (cstr sc1.buf) = T := by
  cases hq : sc.bufindex with
  | nil => rw [hq] at h; simp at h
  | cons j js =>
    rw [hq] at h
    simp only [List.map_cons, List.cons.injEq] at h
    exact ⟨{ sc with bufindex := js }, by simp [next_item, next_item_rec, hq, h.1], h.2⟩

theorem lines_one_line (b : List Nat) (hb : ∀ c ∈ b, c ≠ 10) : lines (b ++ [10]) = [b] := by
  have h10 : ∀ c ∈ b, (fun c => decide (c ≠ 10)) c = true := fun c hc => by simpa using hb c hc
  have htw : (b ++ [10]).takeWhile (fun c => decide (c ≠ 10)) = b := by
    rw [takeWhile_ne_append _ _ _ h10]
    simp
  rw [lines_cons (b ++ [10]) (by simp), htw]
  simp [lines, lines_from]

theorem text_tokens_one_line (b : List Nat) (hne : b ≠ [])
    (hb : ∀ c ∈ b, c ≠ 10 ∧ c ≠ 59 ∧ isspace c = false) : text_tokens (b ++ [10]) = [b] := by
  unfold text_tokens
  rw [lines_one_line b (fun c hc => (hb c hc).1)]
  simp [line_tokens_token_end b hne (fun c hc => (hb c hc).2)]

/-- A line of one token that is one character longer than `fgets2` can take: the
first call returns the token without its last character. -/
theorem next_item_split (S : Nat) (b : List Nat) (c0 : Nat) (hne : b ≠ [])
    (hlen : b.length = S - 1 - 1)
    (hb : ∀ c ∈ b, c ≠ 0 ∧ c ≠ 10 ∧ c ≠ 59 ∧ isspace c = false) :
    ∃ sc fp, next_item S Scanner.init ⟨b ++ [c0, 10], 0⟩ = .ok (b, sc, fp) := by
  have hrest : FILE.rest ⟨b ++ [c0, 10], 0⟩ = b ++ [c0, 10] := by simp [FILE.rest]
  have hchunk : fgets_chars (S - 1 - 1) (FILE.rest ⟨b ++ [c0, 10], 0⟩) = b := by
    rw [hrest, ← hlen]
    exact fgets_chars_token b [c0, 10] (fun c hc => (hb c hc).2.1)
  obtain ⟨sc1, h, _⟩ := next_item_first S Scanner.init ⟨b ++ [c0, 10], 0⟩ b []
    rfl (by rw [hrest]; simp)
    (by
      rw [hchunk, chop_newline_token _ (fun c hc => ⟨(hb c hc).1, (hb c hc).2.1⟩),
        cstr_token _ (fun c hc => (hb c hc).1)]
      exact line_tokens_token_end _ hne (fun c hc => (hb c hc).2.2))
    (by decide)
  exact ⟨sc1, _, h⟩

theorem replicate_ne_nil (n : Nat) (hn : 0 < n) : List.replicate n 97 ≠ [] := by
  intro h
  have := congrArg List.length h
  rw [List.length_replicate] at this
  simp at this
  omega

theorem long_line_split : long_line = List.replicate 4094 97 ++ [97, 10] := by
  unfold long_line
  rw [show (4095 : Nat) = 4094 + 1 from rfl, List.replicate_succ', List.append_assoc]
  rfl

theorem text_tokens_long_line : text_tokens long_line = [List.replicate 4095 97] := by
  unfold long_line
  apply text_tokens_one_line _ (replicate_ne_nil 4095 (by decide))
  intro c hc
  rw [List.eq_of_mem_replicate hc]
  decide

theorem next_item_long_line :
    ∃ sc fp, next_item 4096 Scanner.init ⟨long_line, 0⟩ = .ok (List.replicate 4094 97, sc, fp) := by
  rw [long_line_split]
  apply next_item_split 4096 _ 97 (replicate_ne_nil 4094 (by decide))
  · rw [List.length_replicate]
  · intro c hc
    rw [List.eq_of_mem_replicate hc]
    decide

/-- C1 (as amended): starting from an empty token queue, on a text without NUL
bytes whose physical lines each have at most `STRLEN - 2` characters and at most
`MAXBUF = 20` tokens, successive calls of `next_item` return exactly the tokens of
the text (line by line, the maximal runs of non-whitespace characters before the
first `;` of each line), and the call after the last token ends in the fatal
"End of file". -/
theorem next_item_returns_text_tokens (STRLEN : Nat) (sc : Scanner) (fp : FILE)
    (hS : 3 ≤ STRLEN) (hq : sc.nbuf = 0) (hnul : 0 ∉ fp.rest) (hfit : fits STRLEN fp.rest) :
    ∃ sc1 fp1,
      next_items STRLEN (text_tokens fp.rest).length sc fp = .ok (text_tokens fp.rest, sc1, fp1) ∧
      next_item STRLEN sc1 fp1 = .fatal "End of file" := by
  have hq1 : sc.bufindex = [] := List.length_eq_zero.1 hq
  exact next_items_spec STRLEN hS (text_tokens fp.rest) sc fp (by simp [hq1]) hnul hfit

/-- C1, at the input of the claim: the text "1 2 ;c\n3\n" yields "1", "2", "3". -/
theorem next_item_returns_text_tokens_witness :
    text_tokens (FILE.rest ⟨str "1 2 ;c\n3\n", 0⟩) = [str "1", str "2", str "3"] ∧
    ∃ sc1 fp1,
      next_items 4096 (text_tokens (FILE.rest ⟨str "1 2 ;c\n3\n", 0⟩)).length Scanner.init
          ⟨str "1 2 ;c\n3\n", 0⟩
        = .ok (text_tokens (FILE.rest ⟨str "1 2 ;c\n3\n", 0⟩), sc1, fp1) ∧
      next_item 4096 sc1 fp1 = .fatal "End of file" :=
  ⟨by decide, next_item_returns_text_tokens 4096 Scanner.init ⟨str "1 2 ;c\n3\n", 0⟩
    (by decide) rfl (by decide) (by decide)⟩

/-- C1 as stated fails: a physical line of 4095 letters holds one token, yet with
`STRLEN = 4096` the first call returns only its first 4094 letters; and on a line
with a NUL byte the scan stops at the NUL. -/
theorem next_item_long_line_counterexample :
    (∀ l ∈ lines long_line, (line_tokens l).length ≤ MAXBUF) ∧
    text_tokens long_line = [List.replicate 4095 97] ∧
    (∃ sc fp, next_item 4096 Scanner.init ⟨long_line, 0⟩
      = .ok (List.replicate 4094 97, sc, fp)) ∧
    text_tokens [97, 0, 98, 10] = [[97, 0, 98]] ∧
    (∃ sc fp, next_item 4096 Scanner.init ⟨[97, 0, 98, 10], 0⟩ = .ok ([97], sc, fp)) := by
  refine ⟨?_, text_tokens_long_line, next_item_long_line, by decide,
    ⟨⟨[97, 0, 98, 10], []⟩, ⟨[97, 0, 98, 10], 4⟩, by decide⟩⟩
  intro l hl
  have hlines : lines long_line = [List.replicate 4095 97] := by
    unfold long_line
    apply lines_one_line
    intro c hc
    rw [List.eq_of_mem_replicate hc]
    decide
  rw [hlines] at hl
  have hl1 : l = List.replicate 4095 97 := List.mem_singleton.1 hl
  have h := text_tokens_long_line
  unfold text_tokens at h
  rw [hlines] at h
  simp only [List.flatMap_cons, List.flatMap_nil, List.append_nil] at h
  rw [hl1, h]
  decide

/-! ## The text backend: strings -/


theorem bind_ok {α β : Type} (a : α) (f : α → Res β) : (Res.ok a).bind f = f a := rfl

theorem write_rest (fp : FILE) (bs : List Nat) :
    FILE.rest ⟨(fp.write bs).data, fp.pos⟩ = bs ++ fp.data.drop (fp.pos + bs.length) := by
  have hlen : (fp.data.take fp.pos ++ List.replicate (fp.pos - fp.data.length) 0).length
      = fp.pos := by
    simp only [List.length_append, List.length_take, List.length_replicate]
    omega
  have h := drop_append_length (fp.data.take fp.pos ++ List.replicate (fp.pos - fp.data.length) 0)
    (bs ++ fp.data.drop (fp.pos + bs.length)) 0
  rw [hlen] at h
  simp only [FILE.rest, FILE.write, Nat.add_zero, List.drop_zero] at h ⊢
  rw [← h]
  simp [List.append_assoc]

theorem fgets_chars_takeWhile (l : List Nat) : ∀ k : Nat,
    (fgets_chars k l).takeWhile (fun c => decide (c ≠ 0 ∧ c ≠ 10))
      = (l.takeWhile (fun c => decide (c ≠ 0 ∧ c ≠ 10))).take k := by
  induction l with
  | nil => intro k; simp [fgets_chars_nil]
  | cons c cs ih =>
    intro k
    cases k with
    | zero => simp [fgets_chars]
    | succ k =>
      by_cases h10 : c = 10
      · subst h10; simp [fgets_chars]
      · by_cases h0 : c = 0
        · subst h0; simp [fgets_chars]
        · simp only [fgets_chars, if_neg h10, List.takeWhile_cons]
          have hc : decide (c ≠ 0 ∧ c ≠ 10) = true := by simp [h0, h10]
          simp only [hc, ite_true, List.take_succ_cons, ih k]

/-- Blanks followed by nothing or by a comment hold no token. -/
theorem line_tokens_blank_comment (sp W : List Nat) (hsp : ∀ c ∈ sp, isspace c = true)
    (hW : W = [] ∨ ∃ W1, W = 59 :: W1) : line_tokens (sp ++ W) = [] := by
  rw [line_tokens_spaces sp W hsp]
  rcases hW with rfl | ⟨W1, rfl⟩
  · exact line_tokens_nil
  · exact line_tokens_semicolon W1

theorem line_tokens_token_then (s U : List Nat) (hne : s ≠ [])
    (hs : ∀ c ∈ s, c ≠ 59 ∧ isspace c = false)
    (hU : ∃ sp W, U = sp ++ W ∧ (∀ c ∈ sp, isspace c = true) ∧ (W = [] ∨ ∃ W1, W = 59 :: W1)) :
    line_tokens (s ++ U) = [s] := by
  obtain ⟨sp, W, rfl, hsp, hW⟩ := hU
  cases sp with
  | nil =>
    rcases hW with rfl | ⟨W1, rfl⟩
    · simpa using line_tokens_token_end s hne hs
    · simpa using line_tokens_token_semicolon s W1 hne hs
  | cons c sp1 =>
    have hc : isspace c = true := hsp c (List.mem_cons_self _ _)
    rw [List.cons_append, line_tokens_token_space s _ c hne hs hc,
      line_tokens_blank_comment sp1 W (fun x hx => hsp x (List.mem_cons_of_mem _ hx)) hW]

/-- The first chunk that `fgets2` takes of a line that starts with a token `s`,
followed by blanks and then the line end or a comment, holds the one token `s`. -/
theorem line_tokens_first_chunk (s sp X : List Nat) (z k : Nat) (hne : s ≠ [])
    (hs : ∀ c ∈ s, c ≠ 0 ∧ c ≠ 59 ∧ isspace c = false) (hsp : ∀ c ∈ sp, c = 32)
    (hz : z = 10 ∨ z = 59) (hk : s.length ≤ k) :
    line_tokens (cstr (chop_newline (fgets_chars k (s ++ (sp ++ z :: X)))) 0) = [s] := by
  rw [chop_newline_cstr, fgets_chars_takeWhile]
  have hs10 : ∀ c ∈ s, (fun c => decide (c ≠ 0 ∧ c ≠ 10)) c = true := by
    intro c hc
    have h := hs c hc
    have : c ≠ 10 := by
      intro h10; subst h10; simp [isspace] at h
    simp [h.1, this]
  have hsp10 : ∀ c ∈ sp, (fun c => decide (c ≠ 0 ∧ c ≠ 10)) c = true := by
    intro c hc
    rw [hsp c hc]; decide
  rw [takeWhile_ne_append _ s _ hs10, takeWhile_ne_append _ sp _ hsp10,
    List.take_append_eq_append_take, List.take_of_length_le hk]
  apply line_tokens_token_then s _ hne (fun c hc => (hs c hc).2)
  rw [List.take_append_eq_append_take]
  refine ⟨_, _, rfl, ?_, ?_⟩
  · intro c hc
    rw [hsp c (List.mem_of_mem_take hc)]; decide
  · rcases hz with rfl | rfl
    · left; simp
    · generalize hj : k - s.length - sp.length = j
      cases j with
      | zero => left; simp
      | succ j => right; exact ⟨_, by simp [List.takeWhile_cons]; rfl⟩


theorem dbgstr_shape (E : Env) (cur : t_fileio) (ac : Option (List Nat)) (desc d : List Nat)
    (h : dbgstr E cur ac desc = .ok d) : d = [] ∨ ∃ r, d = [32, 32] ++ 59 :: r := by
  unfold dbgstr at h
  split at h
  · left
    injection h with h
    exact h.symm
  · dsimp only at h
    split at h
    · right
      injection h with h
      exact ⟨32 :: (ac.getD [] ++ [32] ++ desc), by rw [← h]; simp⟩
    · cases h

theorem scan_s_token (s : List Nat) (hne : s ≠ []) (hs : ∀ c ∈ s, isspace c = false) :
    scan_s s = some s := by
  have h1 : s.dropWhile isspace = s := by
    cases s with
    | nil => rfl
    | cons c cs => simp [List.dropWhile_cons, hs c (List.mem_cons_self _ _)]
  have h2 := takeWhile_ne_append (fun c => !isspace c) s [] (fun c hc => by simp [hs c hc])
  simp only [List.append_nil, List.takeWhile_nil] at h2
  simp [scan_s, h1, h2, hne]

/-- The written line of a string, seen from the position where the write began. -/
theorem string_line_first (E : Env) (s d X : List Nat) (hne : s ≠ [])
    (hs : ∀ c ∈ s, c ≠ 0 ∧ c ≠ 59 ∧ isspace c = false) (hlen : s.length ≤ E.STRLEN - 2)
    (hd : d = [] ∨ ∃ r, d = [32, 32] ++ 59 :: r) :
    line_tokens (cstr (chop_newline (fgets_chars (E.STRLEN - 1 - 1)
      ((pad_right 18 s ++ d ++ [10]) ++ X))) 0) = [s] := by
  rcases hd with rfl | ⟨r, rfl⟩
  · have e : (pad_right 18 s ++ [] ++ [10]) ++ X
        = s ++ (List.replicate (18 - s.length) 32 ++ 10 :: X) := by simp [pad_right]
    rw [e]
    exact line_tokens_first_chunk s _ X 10 _ hne hs
      (fun c hc => List.eq_of_mem_replicate hc) (Or.inl rfl) (by omega)
  · have e : (pad_right 18 s ++ ([32, 32] ++ 59 :: r) ++ [10]) ++ X
        = s ++ ((List.replicate (18 - s.length) 32 ++ [32, 32]) ++ 59 :: (r ++ [10] ++ X)) := by
      simp [pad_right]
    rw [e]
    refine line_tokens_first_chunk s _ _ 59 _ hne hs ?_ (Or.inr rfl) (by omega)
    intro c hc
    rcases List.mem_append.1 hc with h | h
    · exact List.eq_of_mem_replicate h
    · simp at h; exact h

/-- The `eioSTRING` case of `do_ascread` with a destination. -/
theorem do_ascread_string (E : Env) (J : Junk) (rd : t_fileio) (sc sc1 : Scanner)
    (fpr fp2 : FILE) (dest dest1 tok w : List Nat) (hrd : rd.fp = some fpr)
    (hnext : next_item E.STRLEN sc fpr = .ok (tok, sc1, fp2)) (hw : scan_s tok = some w)
    (hpoke : poke dest 0 (w ++ [0]) = some dest1) :
    do_ascread E J rd sc (some dest) 1 eioSTRING
      = .ok (true, some dest1, { rd with fp := some fp2 }, sc1) := by
  simp [do_ascread, check_nitem, eioSTRING, eioREAL, eioINT, eioNUCHAR, eioUSHORT, eioRVEC,
    eioNRVEC, eioIVEC, asc_next, hrd, hnext, Res.bind, hw, store, deref, hpoke]

/-- C2 (as amended): for every non-empty string `s` without whitespace and without
`;`, of at most `STRLEN - 2` characters, `do_ascwrite` of `s` with kind STRING and
count 1 succeeds, and `do_ascread` of kind STRING with count 1, started with an
empty token queue at the position where the write began, into a destination with
room for `s` and its NUL, succeeds and stores a string equal to `s`; this holds
with debug mode off or on, as long as `dbgstr` can hold the comment. -/
theorem do_ascread_string_round_trip (E : Env) (J J1 : Junk) (add_comment : Option (List Nat))
    (curfio : t_fileio) (fp : FILE) (m desc d : List Nat)
    (hfp : curfio.fp = some fp) (hm : 0 ∈ m) (hne : cstr m 0 ≠ [])
    (hs : ∀ c ∈ cstr m 0, c ≠ 59 ∧ isspace c = false)
    (hlen : (cstr m 0).length ≤ E.STRLEN - 2)
    (hd : dbgstr E curfio add_comment desc = .ok d) :
    ∃ cur1 fp1, do_ascwrite E J add_comment curfio (some m) 1 eioSTRING desc = .ok (true, cur1) ∧
      cur1.fp = some fp1 ∧
      ∀ (rd : t_fileio) (sc : Scanner) (dest : List Nat), rd.fp = some ⟨fp1.data, fp.pos⟩ →
        sc.nbuf = 0 → (cstr m 0).length + 1 ≤ dest.length →
        ∃ dest1 rd1 sc1, do_ascread E J1 rd sc (some dest) 1 eioSTRING
            = .ok (true, some dest1, rd1, sc1) ∧ cstr dest1 0 = cstr m 0 := by
  have hs0 : ∀ c ∈ cstr m 0, c ≠ 0 ∧ c ≠ 59 ∧ isspace c = false := by
    intro c hc
    refine ⟨?_, hs c hc⟩
    have := List.mem_takeWhile_imp hc
    simpa using this
  refine ⟨{ curfio with fp := some (fp.write (pad_right 18 (cstr m 0) ++ d ++ [10])) },
    fp.write (pad_right 18 (cstr m 0) ++ d ++ [10]), ?_, rfl, ?_⟩
  · simp [do_ascwrite, check_nitem, eioSTRING, eioREAL, eioINT, eioNUCHAR, eioUSHORT, eioRVEC,
      eioNRVEC, eioIVEC, load_string, hm, hd, fprintf, hfp, Res.bind]
    omega
  · intro rd sc dest hrd hq hcap
    have hq1 : sc.bufindex = [] := List.length_eq_zero.1 hq
    have hrest := write_rest fp (pad_right 18 (cstr m 0) ++ d ++ [10])
    have hne2 : FILE.rest ⟨(fp.write (pad_right 18 (cstr m 0) ++ d ++ [10])).data, fp.pos⟩ ≠ [] := by
      rw [hrest]; simp
    obtain ⟨sc1, hnext, _⟩ := next_item_first E.STRLEN sc
      ⟨(fp.write (pad_right 18 (cstr m 0) ++ d ++ [10])).data, fp.pos⟩ (cstr m 0) [] hq1 hne2
      (by rw [hrest]
          exact string_line_first E _ d _ hne hs0 hlen (dbgstr_shape E curfio add_comment desc d hd))
      (by decide)
    have hpoke : poke dest 0 (cstr m 0 ++ [0])
        = some ((cstr m 0 ++ [0]) ++ dest.drop ((cstr m 0).length + 1)) := by
      simp [poke, hcap]
    have hread := do_ascread_string E J1 rd sc sc1 _ _ dest _ _ _ hrd hnext
      (scan_s_token _ hne (fun c hc => (hs c hc).2)) hpoke
    refine ⟨_, _, _, hread, ?_⟩
    have := cstr_append_token [] (cstr m 0) (0 :: dest.drop ((cstr m 0).length + 1))
      (fun c hc => (hs0 c hc).1)
    simp only [List.nil_append, List.length_nil] at this
    simp only [List.append_assoc, List.singleton_append]
    rw [this]
    simp [cstr]


/-- C2, at the string "hello" written to an empty file. -/
theorem do_ascread_string_round_trip_witness :
    ∃ cur1 fp1, do_ascwrite host junk0 none (stream_handle .efTPA [] 0)
        (some (str "hello" ++ [0])) 1 eioSTRING [] = .ok (true, cur1) ∧
      cur1.fp = some fp1 ∧
      ∀ (rd : t_fileio) (sc : Scanner) (dest : List Nat),
        rd.fp = some ⟨fp1.data, (⟨[], 0⟩ : FILE).pos⟩ →
        sc.nbuf = 0 → (cstr (str "hello" ++ [0]) 0).length + 1 ≤ dest.length →
        ∃ dest1 rd1 sc1, do_ascread host junk0 rd sc (some dest) 1 eioSTRING
            = .ok (true, some dest1, rd1, sc1) ∧ cstr dest1 0 = cstr (str "hello" ++ [0]) 0 :=
  do_ascread_string_round_trip host junk0 junk0 none (stream_handle .efTPA [] 0) ⟨[], 0⟩
    (str "hello" ++ [0]) [] [] rfl (by decide) (by decide) (by decide) (by decide) rfl

/-- C2 as stated fails: the string "a b" is written as the line "a b" padded to 18
characters, and the read stores "a". -/
theorem do_ascread_string_counterexample :
    do_ascwrite host junk0 none (stream_handle .efTPA [] 0) (some (str "a b" ++ [0])) 1
        eioSTRING [] = .ok (true, stream_handle .efTPA (str "a b               \n") 19) ∧
    (do_ascread host junk0 (stream_handle .efTPA (str "a b               \n") 0) Scanner.init
        (some [0, 0, 0, 0]) 1 eioSTRING).bind (fun r => .ok (r.1, r.2.1))
      = .ok (true, some (str "a" ++ [0, 0, 0])) := by
  decide


/-! ## The text backend: integer kinds -/

/-! ## Decimal conversions -/

theorem dec_digits_aux_fuel (n : Nat) : ∀ (f1 f2 : Nat) (acc : List Nat), n < f1 → n < f2 →
    dec_digits_aux f1 n acc = dec_digits_aux f2 n [] ++ acc := by
  induction n using Nat.strong_induction_on with
  | _ n ih =>
    intro f1 f2 acc h1 h2
    obtain ⟨f1, rfl⟩ : ∃ k, f1 = k + 1 := ⟨f1 - 1, by omega⟩
    obtain ⟨f2, rfl⟩ : ∃ k, f2 = k + 1 := ⟨f2 - 1, by omega⟩
    by_cases hn : n < 10
    · simp [dec_digits_aux, hn]
    · simp only [dec_digits_aux, if_neg hn]
      have hlt : n / 10 < n := by omega
      rw [ih (n / 10) hlt f1 f2 _ (by omega) (by omega),
        ih (n / 10) hlt f2 f2 [48 + n % 10] (by omega) (by omega)]
      simp

theorem dec_digits_rec (n : Nat) :
    dec_digits n = if n < 10 then [48 + n] else dec_digits (n / 10) ++ [48 + n % 10] := by
  by_cases hn : n < 10
  · simp [dec_digits, dec_digits_aux, hn]
  · rw [if_neg hn]
    unfold dec_digits
    rw [dec_digits_aux]
    rw [if_neg hn]
    exact dec_digits_aux_fuel (n / 10) n (n / 10 + 1) _ (by omega) (by omega)

theorem dec_digits_isdigit (n : Nat) : ∀ c ∈ dec_digits n, 48 ≤ c ∧ c ≤ 57 := by
  induction n using Nat.strong_induction_on with
  | _ n ih =>
    intro c hc
    rw [dec_digits_rec] at hc
    by_cases hn : n < 10
    · rw [if_pos hn] at hc
      have : c = 48 + n := by simpa using hc
      omega
    · rw [if_neg hn] at hc
      rcases List.mem_append.1 hc with h | h
      · exact ih (n / 10) (by omega) c h
      · have : c = 48 + n % 10 := by simpa using h
        omega

theorem dec_digits_ne_nil (n : Nat) : dec_digits n ≠ [] := by
  rw [dec_digits_rec]
  by_cases hn : n < 10
  · simp [hn]
  · simp [hn]

theorem digits_val_append (ds : List Nat) (c : Nat) :
    digits_val (ds ++ [c]) = 10 * digits_val ds + (c - 48) := by
  simp [digits_val, List.foldl_append]

theorem digits_val_dec_digits (n : Nat) : digits_val (dec_digits n) = n := by
  induction n using Nat.strong_induction_on with
  | _ n ih =>
    rw [dec_digits_rec]
    by_cases hn : n < 10
    · simp [hn, digits_val]
    · rw [if_neg hn, digits_val_append, ih (n / 10) (by omega)]
      omega

theorem dec_digits_length (k : Nat) : ∀ n : Nat, n < 10 ^ (k + 1) → (dec_digits n).length ≤ k + 1 := by
  induction k with
  | zero =>
    intro n hn
    rw [dec_digits_rec, if_pos (by simpa using hn)]
    simp
  | succ k ih =>
    intro n hn
    rw [dec_digits_rec]
    by_cases h10 : n < 10
    · simp [h10]
    · rw [if_neg h10]
      have : n / 10 < 10 ^ (k + 1) := by
        rw [Nat.div_lt_iff_lt_mul (by decide)]
        rw [pow_succ] at hn
        exact hn
      have := ih (n / 10) this
      simp
      omega

/-- The characters of a `%d` conversion: not NUL, not a blank, not `;`, not a line feed. -/
theorem fmt_int_chars (v : Int) :
    ∀ c ∈ fmt_int v, c ≠ 0 ∧ c ≠ 10 ∧ c ≠ 59 ∧ isspace c = false := by
  have hd : ∀ n c, c ∈ dec_digits n → c ≠ 0 ∧ c ≠ 10 ∧ c ≠ 59 ∧ isspace c = false := by
    intro n c hc
    have := dec_digits_isdigit n c hc
    refine ⟨by omega, by omega, by omega, ?_⟩
    simp [isspace]
    omega
  intro c hc
  unfold fmt_int at hc
  split at hc
  · rcases List.mem_cons.1 hc with rfl | h
    · decide
    · exact hd _ c h
  · exact hd _ c hc

theorem fmt_int_ne_nil (v : Int) : fmt_int v ≠ [] := by
  unfold fmt_int
  split
  · simp
  · exact dec_digits_ne_nil _

theorem fmt_int_length (v : Int) (h1 : -2 ^ 31 ≤ v) (h2 : v < 2 ^ 31) : (fmt_int v).length ≤ 11 := by
  unfold fmt_int
  split
  · have := dec_digits_length 9 (-v).toNat (by omega)
    simp
    omega
  · have := dec_digits_length 9 v.toNat (by omega)
    omega

theorem to_int32_of_int32 (v : Int) (h1 : -2 ^ 31 ≤ v) (h2 : v < 2 ^ 31) :
    to_int32 (of_int32 v) = v := by
  unfold to_int32 of_int32
  split <;> omega

theorem takeWhile_isdigit_dec_digits (n : Nat) : (dec_digits n).takeWhile isdigit = dec_digits n := by
  have := takeWhile_ne_append isdigit (dec_digits n) [] (fun c hc => by
    have := dec_digits_isdigit n c hc
    simp [isdigit]; omega)
  simpa using this

theorem scan_d_fmt_int (v : Int) (h1 : -2 ^ 31 ≤ v) (h2 : v < 2 ^ 31) :
    scan_d (fmt_int v) = some v := by
  have hhead : ∀ n, ∃ c cs, dec_digits n = c :: cs ∧ 48 ≤ c ∧ c ≤ 57 := by
    intro n
    cases h : dec_digits n with
    | nil => exact absurd h (dec_digits_ne_nil n)
    | cons c cs =>
      have := dec_digits_isdigit n c (by rw [h]; exact List.mem_cons_self _ _)
      exact ⟨c, cs, rfl, this⟩
  unfold fmt_int
  by_cases hv : v < 0
  · rw [if_pos hv]
    have hval : (digits_val (dec_digits (-v).toNat) : Int) = -v := by
      rw [digits_val_dec_digits]; omega
    simp [scan_d, List.dropWhile_cons, isspace, takeWhile_isdigit_dec_digits, dec_digits_ne_nil,
      hval, to_int32_of_int32 v h1 h2]
  · rw [if_neg hv]
    obtain ⟨c, cs, hc, hc1, hc2⟩ := hhead v.toNat
    have hsp : isspace c = false := by simp [isspace]; omega
    have hval : (digits_val (dec_digits v.toNat) : Int) = v := by
      rw [digits_val_dec_digits]; omega
    have htw := takeWhile_isdigit_dec_digits v.toNat
    have hne := dec_digits_ne_nil v.toNat
    rw [hc] at htw hne
    have h45 : c ≠ 45 := by omega
    have h43 : c ≠ 43 := by omega
    simp only [scan_d, hc, List.dropWhile_cons, hsp, List.head?_cons, Option.some.injEq, h45, h43,
      or_self, if_false, htw, hne, Bool.false_eq_true]
    rw [← hc, hval, to_int32_of_int32 v h1 h2]


/-! ## Storage -/

theorem le_bytes_length (n v : Nat) : (le_bytes n v).length = n := by
  induction n generalizing v with
  | zero => rfl
  | succ n ih => simp [le_bytes, ih]

theorem le_val_le_bytes (n : Nat) : ∀ v : Nat, le_val (le_bytes n v) = v % 256 ^ n := by
  induction n with
  | zero => intro v; simp [le_bytes, le_val, Nat.mod_one]
  | succ n ih =>
    intro v
    simp only [le_bytes, le_val, ih]
    rw [pow_succ, Nat.mul_comm (256 ^ n) 256, Nat.mod_mul]

theorem int_bytes_length (v : Int) : (int_bytes v).length = 4 := le_bytes_length 4 _

theorem to_int32_le_val_int_bytes (v : Int) (h1 : -2 ^ 31 ≤ v) (h2 : v < 2 ^ 31) :
    to_int32 (le_val (int_bytes v)) = v := by
  unfold int_bytes
  rw [le_val_le_bytes]
  have : of_int32 v % 256 ^ 4 = of_int32 v := by
    apply Nat.mod_eq_of_lt
    unfold of_int32
    omega
  rw [this]
  exact to_int32_of_int32 v h1 h2

theorem of_int32_natCast (u : Nat) (h : u < 2 ^ 32) : of_int32 (u : Int) = u := by
  unfold of_int32
  omega

theorem peek_append (pre bs post : List Nat) :
    peek (pre ++ bs ++ post) pre.length bs.length = some bs := by
  unfold peek
  rw [if_pos (by simp)]
  simp

theorem poke_append (pre old post new : List Nat) (h : old.length = new.length) :
    poke (pre ++ old ++ post) pre.length new = some (pre ++ new ++ post) := by
  unfold poke
  rw [if_pos (by simp; omega)]
  simp [← h]


/-! ## The text backend: one line per item -/

theorem fgets_chars_line (l X : List Nat) : ∀ k : Nat, 10 ∉ l → l.length + 1 ≤ k →
    fgets_chars k (l ++ 10 :: X) = l ++ [10] := by
  induction l with
  | nil =>
    intro k _ hk
    obtain ⟨k, rfl⟩ : ∃ j, k = j + 1 := ⟨k - 1, by simp at hk; omega⟩
    simp [fgets_chars]
  | cons c cs ih =>
    intro k h10 hk
    obtain ⟨k, rfl⟩ : ∃ j, k = j + 1 := ⟨k - 1, by simp at hk; omega⟩
    have hc : c ≠ 10 := fun h => h10 (by simp [h])
    have hcs : 10 ∉ cs := fun h => h10 (List.mem_cons_of_mem _ h)
    have := ih k hcs (by simp at hk; omega)
    simp only [List.cons_append, fgets_chars, if_neg hc]
    exact congrArg (List.cons c) this

theorem takeWhile_line (l : List Nat) (h10 : 10 ∉ l) :
    (l ++ [10]).takeWhile (fun c => decide (c ≠ 0 ∧ c ≠ 10))
      = l.takeWhile (fun c => decide (c ≠ 0 ∧ c ≠ 10)) := by
  induction l with
  | nil => simp
  | cons c cs ih =>
    have hcs : 10 ∉ cs := fun h => h10 (List.mem_cons_of_mem _ h)
    by_cases hc : decide (c ≠ 0 ∧ c ≠ 10) = true
    · simp only [List.cons_append, List.takeWhile_cons, hc, ite_true, ih hcs]
    · simp only [List.cons_append, List.takeWhile_cons, hc]
      simp

/-- The first `next_item` of a read that starts at the beginning of a line `l`
which fits the buffer. -/
theorem asc_next_first (E : Env) (cur : t_fileio) (sc : Scanner) (fpr : FILE) (l X t : List Nat)
    (T : List (List Nat)) (hcur : cur.fp = some fpr) (hq : sc.bufindex = [])
    (hrest : fpr.rest = l ++ 10 :: X) (h10 : 10 ∉ l) (hlen : l.length + 1 ≤ E.STRLEN - 2)
    (ht : line_tokens (l.takeWhile (fun c => decide (c ≠ 0 ∧ c ≠ 10))) = t :: T)
    (hT : T.length + 1 ≤ MAXBUF) :
    ∃ sc1, asc_next E cur sc
        = .ok (t, { cur with fp := some ⟨fpr.data, fpr.pos + (l.length + 1)⟩ }, sc1) ∧
      sc1.bufindex.map (cstr sc1.buf) = T := by
  have hchunk : fgets_chars (E.STRLEN - 1 - 1) fpr.rest = l ++ [10] := by
    rw [hrest]; exact fgets_chars_line l X _ h10 (by omega)
  obtain ⟨sc1, h1, h2⟩ := next_item_first E.STRLEN sc fpr t T hq (by rw [hrest]; simp)
    (by rw [hchunk, chop_newline_cstr, takeWhile_line l h10]; exact ht) hT
  refine ⟨sc1, ?_, h2⟩
  rw [hchunk] at h1
  simp [asc_next, hcur, h1, Res.bind]

/-- A later `next_item` of the read takes a token from the queue. -/
theorem asc_next_pop (E : Env) (cur : t_fileio) (sc : Scanner) (fpr : FILE) (t : List Nat)
    (T : List (List Nat)) (hcur : cur.fp = some fpr)
    (h : sc.bufindex.map (cstr sc.buf) = t :: T) :
    ∃ sc1, asc_next E cur sc = .ok (t, cur, sc1) ∧ sc1.bufindex.map (cstr sc1.buf) = T := by
  obtain ⟨sc1, h1, h2⟩ := next_item_pop E.STRLEN sc fpr t T h
  refine ⟨sc1, ?_, h2⟩
  cases cur
  simp only at hcur
  subst hcur
  simp [asc_next, h1, Res.bind]

theorem pad_left_spaces (w : Nat) (s : List Nat) :
    ∃ sp, pad_left w s = sp ++ s ∧ (∀ c ∈ sp, c = 32) ∧ sp.length = w - s.length :=
  ⟨List.replicate (w - s.length) 32, rfl, fun _ hc => List.eq_of_mem_replicate hc, by simp⟩

/-- The tokens of a line of `%18d` fields followed by blanks and a comment. -/
theorem line_tokens_fields (vals : List Int) (U : List Nat)
    (hv : ∀ v ∈ vals, -2 ^ 31 ≤ v ∧ v < 2 ^ 31)
    (hU : ∃ sp W, U = sp ++ W ∧ (∀ c ∈ sp, isspace c = true) ∧ (W = [] ∨ ∃ W1, W = 59 :: W1)) :
    line_tokens ((vals.map fun v => pad_left 18 (fmt_int v)).flatten ++ U) = vals.map fmt_int := by
  induction vals with
  | nil =>
    obtain ⟨sp, W, rfl, hsp, hW⟩ := hU
    simpa using line_tokens_blank_comment sp W hsp hW
  | cons v vs ih =>
    have hvr := hv v (List.mem_cons_self _ _)
    have ih1 := ih (fun x hx => hv x (List.mem_cons_of_mem _ hx))
    obtain ⟨sp, hpad, hsp, _⟩ := pad_left_spaces 18 (fmt_int v)
    have htok : ∀ c ∈ fmt_int v, c ≠ 59 ∧ isspace c = false :=
      fun c hc => (fmt_int_chars v c hc).2.2
    simp only [List.map_cons, List.flatten_cons, hpad, List.append_assoc]
    rw [line_tokens_spaces sp _ (fun c hc => by rw [hsp c hc]; decide)]
    cases vs with
    | nil =>
      simp only [List.map_nil, List.flatten_nil, List.nil_append]
      exact line_tokens_token_then _ U (fmt_int_ne_nil v) htok hU
    | cons v2 vs2 =>
      have hv2 := hv v2 (List.mem_cons_of_mem _ (List.mem_cons_self _ _))
      obtain ⟨sp2, hpad2, hsp2, hlen2⟩ := pad_left_spaces 18 (fmt_int v2)
      have hl := fmt_int_length v2 hv2.1 hv2.2
      obtain ⟨c2, sp3, rfl⟩ : ∃ c2 sp3, sp2 = c2 :: sp3 := by
        cases sp2 with
        | nil => simp at hlen2; omega
        | cons a b => exact ⟨a, b, rfl⟩
      have hc2 : c2 = 32 := hsp2 c2 (List.mem_cons_self _ _)
      subst hc2
      simp only [List.map_cons, List.flatten_cons, hpad2, List.append_assoc,
        List.cons_append] at ih1 ⊢
      rw [line_tokens_token_space _ _ 32 (fmt_int_ne_nil v) htok (by decide)]
      have := line_tokens_spaces [32] (sp3 ++ (fmt_int v2 ++
        ((List.map (fun v => pad_left 18 (fmt_int v)) vs2).flatten ++ U))) (by decide)
      simp only [List.singleton_append] at this
      rw [← this, ih1]

theorem fields_chars (vals : List Int) :
    ∀ c ∈ (vals.map fun v => pad_left 18 (fmt_int v)).flatten, c ≠ 0 ∧ c ≠ 10 := by
  intro c hc
  simp only [List.mem_flatten, List.mem_map] at hc
  obtain ⟨l, ⟨v, _, rfl⟩, hcl⟩ := hc
  rcases List.mem_append.1 hcl with h | h
  · rw [List.eq_of_mem_replicate h]; decide
  · exact ⟨(fmt_int_chars v c h).1, (fmt_int_chars v c h).2.1⟩

theorem fields_length (vals : List Int) (hv : ∀ v ∈ vals, -2 ^ 31 ≤ v ∧ v < 2 ^ 31) :
    ((vals.map fun v => pad_left 18 (fmt_int v)).flatten).length = 18 * vals.length := by
  induction vals with
  | nil => rfl
  | cons v vs ih =>
    have hvr := hv v (List.mem_cons_self _ _)
    have hl := fmt_int_length v hvr.1 hvr.2
    have ih1 := ih (fun x hx => hv x (List.mem_cons_of_mem _ hx))
    simp only [List.map_cons, List.flatten_cons, List.length_append, List.length_cons, ih1]
    simp only [pad_left, List.length_append, List.length_replicate]
    omega

/-- The tokens of the C string that `next_item` scans for a written line. -/
theorem line_tokens_written (vals : List Int) (d : List Nat)
    (hv : ∀ v ∈ vals, -2 ^ 31 ≤ v ∧ v < 2 ^ 31)
    (hd : d = [] ∨ ∃ r, d = [32, 32] ++ 59 :: r) :
    line_tokens ((((vals.map fun v => pad_left 18 (fmt_int v)).flatten) ++ d).takeWhile
      (fun c => decide (c ≠ 0 ∧ c ≠ 10))) = vals.map fmt_int := by
  rw [takeWhile_ne_append _ _ _ (fun c hc => by simpa using fields_chars vals c hc)]
  apply line_tokens_fields vals _ hv
  rcases hd with rfl | ⟨r, rfl⟩
  · exact ⟨[], [], rfl, by simp, Or.inl rfl⟩
  · exact ⟨[32, 32], 59 :: r.takeWhile (fun c => decide (c ≠ 0 ∧ c ≠ 10)),
      by simp [List.takeWhile_cons], by decide, Or.inr ⟨_, rfl⟩⟩


theorem peek_all (m : List Nat) : peek m 0 m.length = some m := by
  simp [peek]

theorem poke_all (dest bs : List Nat) (h : dest.length = bs.length) : poke dest 0 bs = some bs := by
  have := poke_append [] dest [] bs h
  simpa using this

theorem load_int_at (pre post : List Nat) (v : Int) (k : Nat) (hk : pre.length = 4 * k)
    (h1 : -2 ^ 31 ≤ v) (h2 : v < 2 ^ 31) :
    load_int (some (pre ++ int_bytes v ++ post)) k = .ok v := by
  have := peek_append pre (int_bytes v) post
  rw [int_bytes_length, hk] at this
  simp only [load_int, this, Option.map_some', deref, to_int32_le_val_int_bytes v h1 h2]

theorem load_ushort_bytes (u : Nat) (h : u < 2 ^ 16) : load_ushort (some (ushort_bytes u)) = .ok u := by
  have := peek_all (ushort_bytes u)
  have hl : (ushort_bytes u).length = 2 := le_bytes_length 2 u
  rw [hl] at this
  have hv : le_val (ushort_bytes u) = u := by
    unfold ushort_bytes
    rw [le_val_le_bytes]
    exact Nat.mod_eq_of_lt (by omega)
  simp only [load_ushort, this, Option.map_some', deref, hv]

theorem sscanf_d_fmt_int (v old : Int) (h1 : -2 ^ 31 ≤ v) (h2 : v < 2 ^ 31) :
    sscanf_d (fmt_int v) old = (1, v) := by
  simp [sscanf_d, scan_d_fmt_int v h1 h2]

theorem pending_nil (sc : Scanner) (h : sc.bufindex.map (cstr sc.buf) = []) : sc.bufindex = [] := by
  simpa using h

/-- The line that `do_ascwrite` writes for an item of an integer kind. -/
theorem do_ascwrite_item (E : Env) (J : Junk) (ac : Option (List Nat)) (cur : t_fileio) (fp : FILE)
    (it : IntItem) (desc d : List Nat) (hcur : cur.fp = some fp) (hv : it.valid)
    (hd : dbgstr E cur ac desc = .ok d) :
    do_ascwrite E J ac cur (some it.mem) 1 it.eio desc
      = .ok (true, { cur with fp := some (fp.write (it.fields ++ d ++ [10])) }) := by
  cases it with
  | int v =>
    have hl := load_int_at [] [] v 0 rfl hv.1 hv.2
    simp only [List.nil_append, List.append_nil] at hl
    simp [do_ascwrite, check_nitem, IntItem.eio, IntItem.mem, IntItem.fields, IntItem.vals,
      eioSTRING, eioREAL, eioINT, eioNUCHAR, eioUSHORT, eioRVEC, eioNRVEC, eioIVEC, hl, hd,
      fprintf, hcur, Res.bind]
    omega
  | ushort u =>
    have hl := load_ushort_bytes u hv
    simp [do_ascwrite, check_nitem, IntItem.eio, IntItem.mem, IntItem.fields, IntItem.vals,
      eioSTRING, eioREAL, eioINT, eioNUCHAR, eioUSHORT, eioRVEC, eioNRVEC, eioIVEC, hl, hd,
      fprintf, hcur, Res.bind]
    omega
  | ivec x y z =>
    have hx := load_int_at [] (int_bytes y ++ int_bytes z) x 0 rfl hv.1.1 hv.1.2
    have hy := load_int_at (int_bytes x) (int_bytes z) y 1 (int_bytes_length x) hv.2.1.1 hv.2.1.2
    have hz := load_int_at (int_bytes x ++ int_bytes y) [] z 2
      (by simp [int_bytes_length]) hv.2.2.1 hv.2.2.2
    simp only [List.nil_append, List.append_nil, List.append_assoc] at hx hy hz
    simp [do_ascwrite, check_nitem, IntItem.eio, IntItem.mem, IntItem.fields, IntItem.vals,
      eioSTRING, eioREAL, eioINT, eioNUCHAR, eioUSHORT, eioRVEC, eioNRVEC, eioIVEC, hx, hy, hz, hd,
      fprintf, hcur, Res.bind]
    omega


theorem IntItem.vals_valid (it : IntItem) (hv : it.valid) :
    ∀ v ∈ it.vals, -2 ^ 31 ≤ v ∧ v < 2 ^ 31 := by
  cases it with
  | int v => intro x hx; simp [IntItem.vals] at hx; subst hx; exact hv
  | ushort u =>
    intro x hx
    simp [IntItem.vals] at hx
    subst hx
    unfold IntItem.valid at hv
    omega
  | ivec x y z =>
    intro w hw
    simp [IntItem.vals] at hw
    rcases hw with rfl | rfl | rfl
    · exact hv.1
    · exact hv.2.1
    · exact hv.2.2

/-- What `do_ascread` does at the beginning of the line written for an item of an
integer kind: it returns TRUE, stores the item, consumes the line and leaves the
token queue empty. -/
theorem do_ascread_item (E : Env) (J : Junk) (rd : t_fileio) (sc : Scanner) (fpr : FILE)
    (it : IntItem) (d X : List Nat) (hrd : rd.fp = some fpr) (hq : sc.bufindex = [])
    (hrest : fpr.rest = (it.fields ++ d) ++ 10 :: X) (hv : it.valid)
    (hd : d = [] ∨ ∃ r, d = [32, 32] ++ 59 :: r) (h10 : 10 ∉ d)
    (hlen : (it.fields ++ d).length + 1 ≤ E.STRLEN - 2) :
    ∃ sc1, do_ascread E J rd sc (some (List.replicate it.mem.length 0)) 1 it.eio
        = .ok (true, some it.mem,
          { rd with fp := some ⟨fpr.data, fpr.pos + ((it.fields ++ d).length + 1)⟩ }, sc1) ∧
      sc1.bufindex = [] := by
  have hvals := it.vals_valid hv
  have h10f : 10 ∉ it.fields ++ d := by
    intro h
    rcases List.mem_append.1 h with h | h
    · exact (fields_chars it.vals 10 h).2 rfl
    · exact h10 h
  have ht := line_tokens_written it.vals d hvals hd
  cases it with
  | int v =>
    obtain ⟨sc1, h1, h2⟩ := asc_next_first E rd sc fpr _ X (fmt_int v) [] hrd hq hrest h10f hlen
      (by simpa [IntItem.vals, IntItem.fields] using ht) (by decide)
    refine ⟨sc1, ?_, pending_nil sc1 h2⟩
    have hp : poke [0, 0, 0, 0] 0 (int_bytes v) = some (int_bytes v) :=
      poke_all _ _ (by simp [int_bytes_length])
    simp [do_ascread, check_nitem, IntItem.eio, IntItem.mem, eioSTRING, eioREAL, eioINT,
      eioNUCHAR, eioUSHORT, eioRVEC, eioNRVEC, eioIVEC, h1, Res.bind,
      sscanf_d_fmt_int v _ hv.1 hv.2, store_if, store, deref, int_bytes_length, hp]
  | ushort u =>
    have hu : u < 2 ^ 16 := hv
    obtain ⟨sc1, h1, h2⟩ := asc_next_first E rd sc fpr _ X (fmt_int u) [] hrd hq hrest h10f hlen
      (by simpa [IntItem.vals, IntItem.fields] using ht) (by decide)
    refine ⟨sc1, ?_, pending_nil sc1 h2⟩
    have hl : (ushort_bytes u).length = 2 := le_bytes_length 2 u
    have hp : poke [0, 0] 0 (ushort_bytes u) = some (ushort_bytes u) :=
      poke_all _ _ (by simp [hl])
    have hr := hvals u (by simp [IntItem.vals])
    simp [do_ascread, check_nitem, IntItem.eio, IntItem.mem, eioSTRING, eioREAL, eioINT,
      eioNUCHAR, eioUSHORT, eioRVEC, eioNRVEC, eioIVEC, h1, Res.bind,
      sscanf_d_fmt_int u _ hr.1 hr.2, store_if, store, deref, hl, hp,
      of_int32_natCast u (by omega)]
  | ivec x y z =>
    obtain ⟨sc1, h1, h2⟩ := asc_next_first E rd sc fpr _ X (fmt_int x) [fmt_int y, fmt_int z]
      hrd hq hrest h10f hlen (by simpa [IntItem.vals, IntItem.fields] using ht)
      (by simp [MAXBUF])
    obtain ⟨fp1, hfp1d⟩ : ∃ f : FILE,
        f = ⟨fpr.data, fpr.pos + ((IntItem.fields (.ivec x y z) ++ d).length + 1)⟩ := ⟨_, rfl⟩
    obtain ⟨rd1, hrd1⟩ : ∃ r : t_fileio, r = { rd with fp := some fp1 } := ⟨_, rfl⟩
    rw [← hfp1d] at h1 ⊢
    rw [← hrd1] at h1 ⊢
    have hfp1 : rd1.fp = some fp1 := by rw [hrd1]
    obtain ⟨sc2, g1, g2⟩ := asc_next_pop E rd1 sc1 _ (fmt_int y) [fmt_int z] hfp1 h2
    obtain ⟨sc3, k1, k2⟩ := asc_next_pop E rd1 sc2 _ (fmt_int z) [] hfp1 g2
    refine ⟨sc3, ?_, pending_nil sc3 k2⟩
    have hp1 : poke [0, 0, 0, 0, 0, 0, 0, 0, 0, 0, 0, 0] 0 (int_bytes x)
        = some (int_bytes x ++ [0, 0, 0, 0, 0, 0, 0, 0]) := by
      have := poke_append [] [0, 0, 0, 0] [0, 0, 0, 0, 0, 0, 0, 0] (int_bytes x)
        (by simp [int_bytes_length])
      simpa using this
    have hp2 : poke (int_bytes x ++ [0, 0, 0, 0, 0, 0, 0, 0]) 4 (int_bytes y)
        = some (int_bytes x ++ (int_bytes y ++ [0, 0, 0, 0])) := by
      have := poke_append (int_bytes x) [0, 0, 0, 0] [0, 0, 0, 0] (int_bytes y)
        (by simp [int_bytes_length])
      simpa [int_bytes_length] using this
    have hp3 : poke (int_bytes x ++ (int_bytes y ++ [0, 0, 0, 0])) 8 (int_bytes z)
        = some (int_bytes x ++ (int_bytes y ++ int_bytes z)) := by
      have := poke_append (int_bytes x ++ int_bytes y) [0, 0, 0, 0] [] (int_bytes z)
        (by simp [int_bytes_length])
      simpa [int_bytes_length] using this
    simp only [int_bytes] at hp1 hp2 hp3
    simp [do_ascread, check_nitem, IntItem.eio, IntItem.mem, eioSTRING, eioREAL, eioINT,
      eioNUCHAR, eioUSHORT, eioRVEC, eioNRVEC, eioIVEC, DIM, ascread_ints, h1, g1, k1, Res.bind,
      sscanf_d_fmt_int x _ hv.1.1 hv.1.2, sscanf_d_fmt_int y _ hv.2.1.1 hv.2.1.2,
      sscanf_d_fmt_int z _ hv.2.2.1 hv.2.2.2, store_if, store, deref, int_bytes_length,
      int_bytes, le_bytes_length, hp1, hp2, hp3]


/-! ## The text backend: sequences of integer items -/

theorem write_write (fp : FILE) (a b : List Nat) : (fp.write a).write b = fp.write (a ++ b) := by
  have hP : (fp.data.take fp.pos ++ List.replicate (fp.pos - fp.data.length) 0).length = fp.pos := by
    simp only [List.length_append, List.length_take, List.length_replicate]
    omega
  generalize hPd : fp.data.take fp.pos ++ List.replicate (fp.pos - fp.data.length) 0 = P at hP
  have h1 : (fp.write a).data = (P ++ a) ++ fp.data.drop (fp.pos + a.length) := by
    simp [FILE.write, hPd]
  have h2 : (fp.write a).pos = (P ++ a).length := by simp [FILE.write, hP]
  have h3 : (fp.write (a ++ b)).data = (P ++ a) ++ b ++ fp.data.drop (fp.pos + a.length + b.length) := by
    simp [FILE.write, hPd, Nat.add_assoc]
  have ht : ((P ++ a) ++ fp.data.drop (fp.pos + a.length)).take (P ++ a).length = P ++ a :=
    List.take_left' rfl
  have hd : ((P ++ a) ++ fp.data.drop (fp.pos + a.length)).drop ((P ++ a).length + b.length)
      = fp.data.drop (fp.pos + a.length + b.length) := by
    rw [drop_append_length, List.drop_drop]
  have hz : (P ++ a).length - ((P ++ a) ++ fp.data.drop (fp.pos + a.length)).length = 0 := by
    simp
  have hdata : ((fp.write a).write b).data = (fp.write (a ++ b)).data := by
    rw [h3]
    show (fp.write a).data.take (fp.write a).pos
      ++ List.replicate ((fp.write a).pos - (fp.write a).data.length) 0 ++ b
      ++ (fp.write a).data.drop ((fp.write a).pos + b.length) = _
    rw [h1, h2, ht, hd, hz]
    simp
  have hpos : ((fp.write a).write b).pos = (fp.write (a ++ b)).pos := by
    simp [FILE.write, Nat.add_assoc]
  cases h : (fp.write a).write b
  cases h' : fp.write (a ++ b)
  rw [h] at hdata hpos
  rw [h'] at hdata hpos
  simp only at hdata hpos
  rw [hdata, hpos]

theorem comment_fits_shape (E : Env) (cur : t_fileio) (ac : Option (List Nat)) (w : Nat)
    (desc : List Nat) (h : comment_fits E cur ac w desc) :
    ∃ d, dbgstr E cur ac desc = .ok d ∧ (d = [] ∨ ∃ r, d = [32, 32] ++ 59 :: r) ∧ 10 ∉ d ∧
      w + d.length + 1 ≤ E.STRLEN - 2 := by
  obtain ⟨d, h1, h2, h3⟩ := h
  exact ⟨d, h1, dbgstr_shape E cur ac desc d h1, h2, h3⟩

theorem handle_eta (cur : t_fileio) (fp : FILE) (h : cur.fp = some fp) :
    { cur with fp := some fp } = cur := by
  cases cur
  simp only at h
  subst h
  rfl

/-- Writing a list of items and reading them back, by induction on the list. -/
theorem ascwrite_all_spec (E : Env) (J J1 : Junk) (ac : Option (List Nat))
    (items : List (IntItem × List Nat)) : ∀ (cur : t_fileio) (fp : FILE), cur.fp = some fp →
    (∀ p ∈ items, p.1.valid ∧ comment_fits E cur ac p.1.fields.length p.2) →
    ∃ txt fp1, ascwrite_all E J ac items cur
        = .ok (items.map (fun _ => true), { cur with fp := some fp1 }) ∧
      (fp1 = fp.write txt ∨ (txt = [] ∧ fp1 = fp)) ∧
      ∀ (rd : t_fileio) (sc : Scanner) (fpr : FILE) (X : List Nat), rd.fp = some fpr →
        sc.bufindex = [] → fpr.rest = txt ++ X →
        ∃ sc1, ascread_all E J1 (items.map Prod.fst) rd sc
            = .ok (items.map (fun p => (true, some p.1.mem)),
              { rd with fp := some ⟨fpr.data, fpr.pos + txt.length⟩ }, sc1) ∧
          sc1.bufindex = [] := by
  induction items with
  | nil =>
    intro cur fp hcur _
    refine ⟨[], fp, by simp [ascwrite_all, handle_eta cur fp hcur], Or.inr ⟨rfl, rfl⟩, ?_⟩
    intro rd sc fpr X hrd hq _
    refine ⟨sc, ?_, hq⟩
    have : ({ data := fpr.data, pos := fpr.pos + ([] : List Nat).length } : FILE) = fpr := rfl
    simp [ascread_all, this, handle_eta rd fpr hrd]
  | cons p rest ih =>
    intro cur fp hcur hall
    obtain ⟨it, desc⟩ := p
    obtain ⟨hv, hcf⟩ := hall (it, desc) (List.mem_cons_self _ _)
    obtain ⟨d, hd, hshape, h10, hlen⟩ := comment_fits_shape E cur ac _ desc hcf
    have hw := do_ascwrite_item E J ac cur fp it desc d hcur hv hd
    obtain ⟨txt, fp1, hwr, hfp1, hread⟩ := ih
      { cur with fp := some (fp.write (it.fields ++ d ++ [10])) }
      (fp.write (it.fields ++ d ++ [10])) rfl
      (fun q hq => hall q (List.mem_cons_of_mem _ hq))
    refine ⟨(it.fields ++ d ++ [10]) ++ txt, fp1, ?_, ?_, ?_⟩
    · simp only [ascwrite_all, hw, Res.bind, hwr, List.map_cons]
    · left
      rcases hfp1 with h | ⟨h1, h2⟩
      · rw [h, write_write]
      · rw [h2, h1, List.append_nil]
    · intro rd sc fpr X hrd hq hrest
      obtain ⟨sc1, hr1, hq1⟩ := do_ascread_item E J1 rd sc fpr it d (txt ++ X) hrd hq
        (by rw [hrest]; simp) hv hshape h10 (by simp at hlen ⊢; omega)
      obtain ⟨sc2, hr2, hq2⟩ := hread
        { rd with fp := some ⟨fpr.data, fpr.pos + ((it.fields ++ d).length + 1)⟩ } sc1
        ⟨fpr.data, fpr.pos + ((it.fields ++ d).length + 1)⟩ X rfl hq1
        (by
          have := rest_advance fpr ((it.fields ++ d).length + 1)
          rw [this, hrest]
          have e : it.fields ++ d ++ [10] ++ txt ++ X = (it.fields ++ d ++ [10]) ++ (txt ++ X) := by
            simp
          have e2 : (it.fields ++ d).length + 1 = (it.fields ++ d ++ [10]).length + 0 := by
            rw [List.length_append (it.fields ++ d) [10]]
            rfl
          rw [e, e2, drop_append_length]
          rfl)
      refine ⟨sc2, ?_, hq2⟩
      simp only [List.map_cons, ascread_all, hr1, Res.bind, hr2]
      simp
      omega



/-- C3: items of kinds INT (32-bit signed), USHORT (16-bit unsigned) and IVEC
(three 32-bit signed), written in order with `do_ascwrite`, are read back by
`do_ascread` of the same kinds in the same order, started with an empty token queue
at the position where the writing began: every write and every read returns TRUE
and every read stores the bytes of the item written. The three fields of an IVEC
come back as three tokens. Debug mode may be off or on; when on, the comment of
each line has no line feed and the line fits the scanner's buffer. -/
theorem ascread_all_round_trip (E : Env) (J J1 : Junk) (add_comment : Option (List Nat))
    (curfio : t_fileio) (fp : FILE) (items : List (IntItem × List Nat))
    (hfp : curfio.fp = some fp)
    (hitems : ∀ p ∈ items, p.1.valid ∧ comment_fits E curfio add_comment p.1.fields.length p.2) :
    ∃ cur1 fp1, ascwrite_all E J add_comment items curfio = .ok (items.map (fun _ => true), cur1) ∧
      cur1.fp = some fp1 ∧
      ∀ (rd : t_fileio) (sc : Scanner), rd.fp = some ⟨fp1.data, fp.pos⟩ → sc.nbuf = 0 →
        ∃ rd1 sc1, ascread_all E J1 (items.map Prod.fst) rd sc
          = .ok (items.map (fun p => (true, some p.1.mem)), rd1, sc1) := by
  obtain ⟨txt, fp1, hw, hfp1, hread⟩ :=
    ascwrite_all_spec E J J1 add_comment items curfio fp hfp hitems
  refine ⟨_, fp1, hw, rfl, ?_⟩
  intro rd sc hrd hq
  have hrest : ∃ X, FILE.rest ⟨fp1.data, fp.pos⟩ = txt ++ X := by
    rcases hfp1 with h | ⟨h1, h2⟩
    · rw [h]; exact ⟨_, write_rest fp txt⟩
    · rw [h1, h2]; exact ⟨_, rfl⟩
  obtain ⟨X, hX⟩ := hrest
  obtain ⟨sc1, h, _⟩ := hread rd sc ⟨fp1.data, fp.pos⟩ X hrd (List.length_eq_zero.1 hq) hX
  exact ⟨_, sc1, h⟩

/-- C3, at an INT, a USHORT and an IVEC written to an empty file with debug off. -/
theorem ascread_all_round_trip_witness :
    ∃ cur1 fp1, ascwrite_all host junk0 none
        [(.int (-2147483648), []), (.ushort 65535, []), (.ivec 1 (-2) 2147483647, [])]
        (stream_handle .efTPA [] 0)
          = .ok ([(.int (-2147483648), []), (.ushort 65535, []),
              (IntItem.ivec 1 (-2) 2147483647, ([] : List Nat))].map (fun _ => true), cur1) ∧
      cur1.fp = some fp1 ∧
      ∀ (rd : t_fileio) (sc : Scanner), rd.fp = some ⟨fp1.data, (⟨[], 0⟩ : FILE).pos⟩ →
        sc.nbuf = 0 →
        ∃ rd1 sc1, ascread_all host junk0
            ([(.int (-2147483648), []), (.ushort 65535, []),
              (IntItem.ivec 1 (-2) 2147483647, ([] : List Nat))].map Prod.fst) rd sc
          = .ok ([(.int (-2147483648), []), (.ushort 65535, []),
              (IntItem.ivec 1 (-2) 2147483647, ([] : List Nat))].map
                (fun p => (true, some p.1.mem)), rd1, sc1) :=
  ascread_all_round_trip host junk0 junk0 none (stream_handle .efTPA [] 0) ⟨[], 0⟩ _ rfl
    (by
      intro p hp
      simp only [List.mem_cons, List.mem_singleton, List.not_mem_nil, or_false] at hp
      rcases hp with rfl | rfl | rfl
      · exact ⟨by decide, [], rfl, by decide, by decide⟩
      · exact ⟨by decide, [], rfl, by decide, by decide⟩
      · exact ⟨by decide, [], rfl, by decide, by decide⟩)



/-! ## The native-binary backend -/

theorem take_append_length (bs tail : List Nat) : (bs ++ tail).take bs.length = bs :=
  List.take_left' rfl

theorem fwrite_ok (cur : t_fileio) (fp : FILE) (m : List Nat) (size : Nat) (nitem : Int)
    (hcur : cur.fp = some fp) (hn : 0 ≤ nitem) (hm : m.length = size * nitem.toNat) :
    fwrite cur (some m) size nitem
      = .ok (if size = 0 then 0 else nitem, { cur with fp := some (fp.write m) }) := by
  have hp : peek m 0 (size * nitem.toNat) = some m := by rw [← hm]; exact peek_all m
  have hneg : ¬ nitem < 0 := by omega
  simp [fwrite, hcur, hneg, hp]

theorem fread_ok (rd : t_fileio) (fpr : FILE) (m dest tail : List Nat) (size : Nat) (nitem : Int)
    (hrd : rd.fp = some fpr) (hn : 0 ≤ nitem) (hsize : 0 < size)
    (hm : m.length = size * nitem.toNat) (hrest : fpr.rest = m ++ tail)
    (hdest : m.length ≤ dest.length) :
    fread rd (some dest) size nitem
      = .ok (nitem, some (m ++ dest.drop m.length),
          { rd with fp := some ⟨fpr.data, fpr.pos + m.length⟩ }) := by
  have hgot : fpr.rest.take (size * nitem.toNat) = m := by
    rw [hrest, ← hm]; exact take_append_length m tail
  have hp : poke dest 0 m = some (m ++ dest.drop m.length) := by
    simp [poke, hdest]
  have hneg : ¬ nitem < 0 := by omega
  have hs : size ≠ 0 := by omega
  have hdiv : ((m.length / size : Nat) : Int) = nitem := by
    rw [hm, Nat.mul_div_cancel_left _ hsize]
    omega
  simp [fread, hrd, hneg, hgot, hp, hs, hdiv]

theorem fixed_kind_size_pos (eio nitem : Int) (size : Nat) (h : fixed_kind eio nitem size) :
    0 < size ∧ 0 ≤ nitem := by
  rcases h with ⟨_, h, h2⟩ | ⟨_, h, h2⟩ | ⟨_, h, h2⟩ | ⟨_, h, h2⟩ <;> omega

theorem do_binwrite_fixed (E : Env) (depth : Nat) (cur : t_fileio) (fp : FILE) (m : List Nat)
    (nitem eio : Int) (size : Nat) (hcur : cur.fp = some fp) (hk : fixed_kind eio nitem size)
    (hm : m.length = size * nitem.toNat) :
    do_binwrite_rec E (depth + 1) cur (some m) nitem eio
      = .ok (true, { cur with fp := some (fp.write m) }) := by
  obtain ⟨hs, hn⟩ := fixed_kind_size_pos eio nitem size hk
  have hw := fwrite_ok cur fp m size nitem hcur hn hm
  have hs0 : size ≠ 0 := by omega
  rcases hk with ⟨h1, h2, h3⟩ | ⟨h1, h2, h3⟩ | ⟨h1, h2, h3⟩ | ⟨h1, h2, h3⟩ <;>
    subst h1 <;> subst h2 <;>
    simp [do_binwrite_rec, check_nitem, h3, eioSTRING, eioREAL, eioINT, eioNUCHAR, eioUSHORT,
      eioRVEC, eioNRVEC, eioIVEC, DIM, Res.bind] <;>
    (try simp [eioSTRING, eioREAL, eioINT, eioNUCHAR, eioUSHORT,
      eioRVEC, eioNRVEC, eioIVEC, h3] at hw) <;>
    simp [hw]

theorem do_binread_fixed (E : Env) (J : Junk) (depth : Nat) (rd : t_fileio) (fpr : FILE)
    (m dest tail : List Nat) (nitem eio : Int) (size : Nat) (hrd : rd.fp = some fpr)
    (hk : fixed_kind eio nitem size) (hm : m.length = size * nitem.toNat)
    (hrest : fpr.rest = m ++ tail) (hdest : m.length ≤ dest.length) :
    do_binread_rec E J (depth + 1) rd (some dest) nitem eio
      = .ok (true, some (m ++ dest.drop m.length),
          { rd with fp := some ⟨fpr.data, fpr.pos + m.length⟩ }) := by
  obtain ⟨hs, hn⟩ := fixed_kind_size_pos eio nitem size hk
  have hr := fread_ok rd fpr m dest tail size nitem hrd hn hs hm hrest hdest
  rcases hk with ⟨h1, h2, h3⟩ | ⟨h1, h2, h3⟩ | ⟨h1, h2, h3⟩ | ⟨h1, h2, h3⟩ <;>
    subst h1 <;> subst h2 <;>
    simp [do_binread_rec, check_nitem, h3, eioSTRING, eioREAL, eioINT, eioNUCHAR, eioUSHORT,
      eioRVEC, eioNRVEC, eioIVEC, DIM, Res.bind] <;>
    (try simp [eioSTRING, eioREAL, eioINT, eioNUCHAR, eioUSHORT,
      eioRVEC, eioNRVEC, eioIVEC, h3] at hr) <;>
    simp [hr]


theorem cstr_split (m : List Nat) (h : 0 ∈ m) : ∃ rest, m = cstr m 0 ++ 0 :: rest := by
  induction m with
  | nil => simp at h
  | cons c cs ih =>
    by_cases hc : c = 0
    · subst hc
      exact ⟨cs, by simp [cstr]⟩
    · have hcs : 0 ∈ cs := by
        rcases List.mem_cons.1 h with h | h
        · exact absurd h.symm hc
        · exact h
      obtain ⟨rest, hrest⟩ := ih hcs
      refine ⟨rest, ?_⟩
      simp only [cstr, List.drop_zero] at hrest ⊢
      simp only [List.takeWhile_cons, hc, ne_eq, not_false_eq_true, decide_True, ite_true,
        List.cons_append]
      exact congrArg (List.cons c) hrest

theorem cstr_not_mem_zero (m : List Nat) : ∀ c ∈ cstr m 0, c ≠ 0 := by
  intro c hc
  have := List.mem_takeWhile_imp hc
  simpa using this

theorem to_int32_small (n : Nat) (h : n < 2 ^ 31) : to_int32 n = (n : Int) := by
  unfold to_int32
  have : n % 2 ^ 32 = n := Nat.mod_eq_of_lt (by omega)
  rw [this, if_pos h]

theorem size_t_of_nat (n : Nat) (h : n < 2 ^ 31) : size_t_of (n : Int) = n := by
  unfold size_t_of
  omega

theorem fwrite_peek (cur : t_fileio) (fp : FILE) (m bs : List Nat) (size : Nat) (nitem : Int)
    (hcur : cur.fp = some fp) (hn : 0 ≤ nitem) (hp : peek m 0 (size * nitem.toNat) = some bs) :
    fwrite cur (some m) size nitem
      = .ok (if size = 0 then 0 else nitem, { cur with fp := some (fp.write bs) }) := by
  have hneg : ¬ nitem < 0 := by omega
  simp [fwrite, hcur, hneg, hp]

/-- The `eioSTRING` case of `do_binwrite`: the length as an INT, then the characters
and the NUL. -/
theorem do_binwrite_string (E : Env) (cur : t_fileio) (fp : FILE) (m : List Nat)
    (hcur : cur.fp = some fp) (hm : 0 ∈ m) (hlen : (cstr m 0).length + 1 < 2 ^ 31) :
    ∃ fp1, do_binwrite E cur (some m) 1 eioSTRING = .ok (true, { cur with fp := some fp1 }) ∧
      fp1 = fp.write (int_bytes (((cstr m 0).length + 1 : Nat) : Int) ++ (cstr m 0 ++ [0])) := by
  refine ⟨_, ?_, rfl⟩
  obtain ⟨rest, hsplit⟩ := cstr_split m hm
  have hw1 := fwrite_peek cur fp (int_bytes (((cstr m 0).length + 1 : Nat) : Int)) _ 4 1 hcur
    (by decide) (by
      have := peek_all (int_bytes (((cstr m 0).length + 1 : Nat) : Int))
      rw [int_bytes_length] at this
      exact this)
  have hp : peek m 0 (((cstr m 0).length + 1) * (1 : Int).toNat) = some (cstr m 0 ++ [0]) := by
    have := peek_append [] (cstr m 0 ++ [0]) rest
    simp only [List.nil_append, List.length_nil, List.length_append, List.length_singleton,
      List.append_assoc, List.singleton_append] at this
    rw [← hsplit] at this
    simpa using this
  have hw2 := fwrite_peek
    { cur with fp := some (fp.write (int_bytes (((cstr m 0).length + 1 : Nat) : Int))) }
    (fp.write (int_bytes (((cstr m 0).length + 1 : Nat) : Int))) m _ ((cstr m 0).length + 1) 1
    rfl (by decide) hp
  have hts := to_int32_small ((cstr m 0).length + 1) hlen
  have hsz := size_t_of_nat ((cstr m 0).length + 1) hlen
  simp only [Nat.cast_add, Nat.cast_one] at hts hsz hw1 hw2
  simp [do_binwrite, do_binwrite_rec, check_nitem, eioSTRING, eioREAL, eioINT, eioNUCHAR,
    eioUSHORT, eioRVEC, eioNRVEC, eioIVEC, Res.bind, load_string, hm, hts, hw1, hsz, hw2,
    write_write]


/-- The `eioSTRING` case of `do_binread` on a stream that holds a length, the
characters and the NUL. -/
theorem do_binread_string (E : Env) (J : Junk) (rd : t_fileio) (fpr : FILE)
    (s dest tail : List Nat) (hrd : rd.fp = some fpr) (hs : ∀ c ∈ s, c ≠ 0)
    (hlen : s.length + 1 < 2 ^ 31)
    (hrest : fpr.rest = int_bytes ((s.length + 1 : Nat) : Int) ++ ((s ++ [0]) ++ tail))
    (hdest : s.length + 1 ≤ dest.length) :
    ∃ dest1, do_binread E J rd (some dest) 1 eioSTRING
        = .ok (true, some dest1, { rd with fp := some ⟨fpr.data, fpr.pos + (4 + (s.length + 1))⟩ }) ∧
      cstr dest1 0 = s := by
  have hr1 := fread_ok rd fpr (int_bytes ((s.length + 1 : Nat) : Int)) (int_bytes J.ssize)
    ((s ++ [0]) ++ tail) 4 1 hrd (by decide) (by decide) (by rw [int_bytes_length]; rfl) hrest
    (by simp [int_bytes_length])
  have hload := load_int_at [] (List.drop (int_bytes ((s.length + 1 : Nat) : Int)).length
    (int_bytes J.ssize)) ((s.length + 1 : Nat) : Int) 0 rfl (by omega) (by omega)
  have hrest2 : FILE.rest ⟨fpr.data, fpr.pos + 4⟩ = (s ++ [0]) ++ tail := by
    have := rest_advance fpr 4
    rw [this, hrest]
    have := drop_append_length (int_bytes ((s.length + 1 : Nat) : Int)) ((s ++ [0]) ++ tail) 0
    rw [int_bytes_length] at this
    simpa using this
  have hr2 := fread_ok { rd with fp := some ⟨fpr.data, fpr.pos + 4⟩ } ⟨fpr.data, fpr.pos + 4⟩
    (s ++ [0]) dest tail (s.length + 1) 1 rfl (by decide) (by omega) (by simp) hrest2
    (by simpa using hdest)
  have hsz := size_t_of_nat (s.length + 1) hlen
  refine ⟨(s ++ [0]) ++ dest.drop (s ++ [0]).length, ?_, ?_⟩
  · simp only [Nat.cast_add, Nat.cast_one, List.nil_append, int_bytes_length] at hsz hr1 hr2 hload
    simp [do_binread, do_binread_rec, check_nitem, eioSTRING, eioREAL, eioINT, eioNUCHAR,
      eioUSHORT, eioRVEC, eioNRVEC, eioIVEC, Res.bind, hr1, hload, hsz, hr2, int_bytes_length]
    omega
  · have := cstr_append_token [] s (0 :: dest.drop (s ++ [0]).length) hs
    simp only [List.nil_append, List.length_nil] at this
    simp only [List.append_assoc, List.singleton_append]
    rw [this]
    simp [cstr]

/-- C4: native-binary round trip. For INT, USHORT and IVEC (count 1) and for byte
arrays (NUCHAR, any count that is not negative), `do_binwrite` of an object writes
its bytes and returns TRUE, and `do_binread` of the same kind and count into a
fresh destination of that size, started at the position where the write began,
returns TRUE, stores the same bytes and consumes exactly them. For STRING (the
length plus one being an `int`) the stream receives the length `strlen+1` as an INT
followed by the characters and the NUL, and the read returns TRUE, stores a string
equal to the one written and consumes exactly these `4 + strlen + 1` bytes. -/
theorem do_binread_round_trip (E : Env) (J : Junk) (curfio : t_fileio) (fp : FILE)
    (hfp : curfio.fp = some fp) :
    (∀ (m : List Nat) (nitem eio : Int) (size : Nat), fixed_kind eio nitem size →
      m.length = size * nitem.toNat →
      do_binwrite E curfio (some m) nitem eio = .ok (true, { curfio with fp := some (fp.write m) }) ∧
      FILE.rest ⟨(fp.write m).data, fp.pos⟩ = m ++ fp.data.drop (fp.pos + m.length) ∧
      ∀ (rd : t_fileio) (dest : List Nat), rd.fp = some ⟨(fp.write m).data, fp.pos⟩ →
        dest.length = m.length →
        do_binread E J rd (some dest) nitem eio
          = .ok (true, some m, { rd with fp := some ⟨(fp.write m).data, fp.pos + m.length⟩ })) ∧
    (∀ (m : List Nat), 0 ∈ m → (cstr m 0).length + 1 < 2 ^ 31 →
      ∃ fp1, do_binwrite E curfio (some m) 1 eioSTRING
          = .ok (true, { curfio with fp := some fp1 }) ∧
        FILE.rest ⟨fp1.data, fp.pos⟩ = int_bytes (((cstr m 0).length + 1 : Nat) : Int)
          ++ ((cstr m 0 ++ [0]) ++ fp.data.drop (fp.pos + (4 + ((cstr m 0).length + 1)))) ∧
        ∀ (rd : t_fileio) (dest : List Nat), rd.fp = some ⟨fp1.data, fp.pos⟩ →
          (cstr m 0).length + 1 ≤ dest.length →
          ∃ dest1, do_binread E J rd (some dest) 1 eioSTRING
              = .ok (true, some dest1,
                { rd with fp := some ⟨fp1.data, fp.pos + (4 + ((cstr m 0).length + 1))⟩ }) ∧
            cstr dest1 0 = cstr m 0) := by
  constructor
  · intro m nitem eio size hk hm
    refine ⟨do_binwrite_fixed E 1 curfio fp m nitem eio size hfp hk hm, write_rest fp m, ?_⟩
    intro rd dest hrd hdest
    have := do_binread_fixed E J 1 rd ⟨(fp.write m).data, fp.pos⟩ m dest _ nitem eio size hrd hk hm
      (write_rest fp m) (by omega)
    have hdrop : dest.drop m.length = [] := by
      rw [← hdest]; simp
    rw [hdrop, List.append_nil] at this
    exact this
  · intro m hm hlen
    obtain ⟨fp1, hw, hfp1⟩ := do_binwrite_string E curfio fp m hfp hm hlen
    have hrest : FILE.rest ⟨fp1.data, fp.pos⟩ = int_bytes (((cstr m 0).length + 1 : Nat) : Int)
        ++ ((cstr m 0 ++ [0]) ++ fp.data.drop (fp.pos + (4 + ((cstr m 0).length + 1)))) := by
      rw [hfp1, write_rest]
      simp [int_bytes_length, List.append_assoc]
    refine ⟨fp1, hw, hrest, ?_⟩
    intro rd dest hrd hdest
    exact do_binread_string E J rd ⟨fp1.data, fp.pos⟩ (cstr m 0) dest _ hrd
      (cstr_not_mem_zero m) hlen hrest hdest



/-- C4, at the byte array 1, 2, 3 and the string "hi" written to an empty file. -/
theorem do_binread_round_trip_witness :
    (do_binwrite host (stream_handle .efTPB [] 0) (some [1, 2, 3]) 3 eioNUCHAR
        = .ok (true, stream_handle .efTPB [1, 2, 3] 3) ∧
      do_binread host junk0 (stream_handle .efTPB [1, 2, 3] 0) (some [0, 0, 0]) 3 eioNUCHAR
        = .ok (true, some [1, 2, 3], stream_handle .efTPB [1, 2, 3] 3)) ∧
    (do_binwrite host (stream_handle .efTPB [] 0) (some (str "hi" ++ [0])) 1 eioSTRING
        = .ok (true, stream_handle .efTPB ([3, 0, 0, 0] ++ str "hi" ++ [0]) 7) ∧
      do_binread host junk0 (stream_handle .efTPB ([3, 0, 0, 0] ++ str "hi" ++ [0]) 0)
          (some [9, 9, 9]) 1 eioSTRING
        = .ok (true, some (str "hi" ++ [0]),
            stream_handle .efTPB ([3, 0, 0, 0] ++ str "hi" ++ [0]) 7)) := by
  have h := do_binread_round_trip host junk0 (stream_handle .efTPB [] 0) ⟨[], 0⟩ rfl
  obtain ⟨h1, h2, h3⟩ := h.1 [1, 2, 3] 3 eioNUCHAR 1 (by decide) (by decide)
  refine ⟨⟨h1, h3 (stream_handle .efTPB [1, 2, 3] 0) [0, 0, 0] rfl rfl⟩, by decide, by decide⟩


/-- C3 as stated fails when debug mode is on and a description holds a line feed:
INT 1 written with the description "a\n7" and then INT 2 are read back as 1 and 7. -/
theorem ascread_all_debug_counterexample :
    (ascwrite_all host junk0 none [(.int 1, str "a\n7"), (.int 2, [])]
        { stream_handle .efTPA [] 0 with bDebug := true }).bind (fun r => .ok (r.1, r.2.fp))
      = .ok ([true, true], some ⟨str "                 1  ;  a\n7\n                 2  ;  \n", 51⟩) ∧
    (ascread_all host junk0 [.int 1, .int 2]
        (stream_handle .efTPA (str "                 1  ;  a\n7\n                 2  ;  \n") 0)
        Scanner.init).bind (fun r => .ok r.1)
      = .ok [(true, some (int_bytes 1)), (true, some (int_bytes 7))] ∧
    int_bytes 7 ≠ int_bytes 2 := by
  decide

/-! ## The native-binary backend: kinds made of reals -/

theorem real_kind_nitem (eio nitem : Int) (k : Nat) (h : real_kind eio nitem k) :
    0 < k ∧ 0 ≤ nitem ∧ nitem < 2 ^ 31 := by
  rcases h with ⟨_, h, h2⟩ | ⟨_, h, h2⟩ | ⟨_, h, h2, h3⟩ <;> (try simp only [DIM] at h) <;> omega

theorem fread_got (rd : t_fileio) (fpr : FILE) (bs dest tail : List Nat) (size : Nat) (nitem : Int)
    (hrd : rd.fp = some fpr) (hn : 0 ≤ nitem) (hsize : 0 < size)
    (hm : bs.length = size * nitem.toNat) (hrest : fpr.rest = bs ++ tail)
    (hdest : bs.length ≤ dest.length) :
    fread rd (some dest) size nitem
      = .ok (nitem, some (bs ++ dest.drop bs.length),
          { rd with fp := some ⟨fpr.data, fpr.pos + bs.length⟩ }) :=
  fread_ok rd fpr bs dest tail size nitem hrd hn hsize hm hrest hdest

theorem fseek_cur_forward (cur : t_fileio) (fp : FILE) (n : Nat) (hcur : cur.fp = some fp) :
    fseek_cur cur (n : Int) = .ok { cur with fp := some ⟨fp.data, fp.pos + n⟩ } := by
  have h : ¬ ((fp.pos : Int) + (n : Int) < 0) := by omega
  have h2 : ((fp.pos : Int) + (n : Int)).toNat = fp.pos + n := by omega
  simp [fseek_cur, hcur, h, h2]

theorem do_binwrite_rec_real (E : Env) (depth : Nat) (cur : t_fileio) (item : Option (List Nat))
    (nitem eio : Int) (k : Nat) (hk : real_kind eio nitem k) :
    do_binwrite_rec E (depth + 1) cur item nitem eio
      = (fwrite cur item (k * E.sizeof_real) nitem).bind
          fun r => .ok (decide (r.1 = nitem), r.2) := by
  rcases hk with ⟨h1, h2, h3⟩ | ⟨h1, h2, h3⟩ | ⟨h1, h2, h3, h4⟩
  · subst h1; subst h2; subst h3
    simp [do_binwrite_rec, check_nitem, eioSTRING, eioREAL, eioINT, eioNUCHAR,
      eioUSHORT, eioRVEC, eioNRVEC, eioIVEC, Res.bind]
  · subst h1; subst h2; subst h3
    simp [do_binwrite_rec, check_nitem, eioSTRING, eioREAL, eioINT, eioNUCHAR,
      eioUSHORT, eioRVEC, eioNRVEC, eioIVEC, Res.bind]
  · subst h1; subst h2
    simp [do_binwrite_rec, check_nitem, eioSTRING, eioREAL, eioINT, eioNUCHAR,
      eioUSHORT, eioRVEC, eioNRVEC, eioIVEC, Res.bind]

theorem do_binread_rec_real (E : Env) (J : Junk) (depth : Nat) (cur : t_fileio)
    (item : Option (List Nat)) (nitem eio : Int) (k : Nat) (hk : real_kind eio nitem k) :
    do_binread_rec E J (depth + 1) cur item nitem eio
      = match item with
        | some _ =>
          (fread cur item (binread_size cur.bDouble k) nitem).bind
            fun r => .ok (decide (r.1 = nitem), r.2.1, r.2.2)
        | none =>
          (fseek_cur cur ((binread_size cur.bDouble k * size_t_of nitem : Nat) : Int)).bind
            fun cur2 => .ok (true, none, cur2) := by
  rcases hk with ⟨h1, h2, h3⟩ | ⟨h1, h2, h3⟩ | ⟨h1, h2, h3, h4⟩
  · subst h1; subst h2; subst h3
    cases hb : cur.bDouble <;> cases item <;>
      simp [do_binread_rec, check_nitem, eioSTRING, eioREAL, eioINT, eioNUCHAR,
        eioUSHORT, eioRVEC, eioNRVEC, eioIVEC, Res.bind, binread_size, hb]
  · subst h1; subst h2; subst h3
    cases hb : cur.bDouble <;> cases item <;>
      simp [do_binread_rec, check_nitem, eioSTRING, eioREAL, eioINT, eioNUCHAR,
        eioUSHORT, eioRVEC, eioNRVEC, eioIVEC, Res.bind, binread_size, hb]
  · subst h1; subst h2
    cases hb : cur.bDouble <;> cases item <;>
      simp [do_binread_rec, check_nitem, eioSTRING, eioREAL, eioINT, eioNUCHAR,
        eioUSHORT, eioRVEC, eioNRVEC, eioIVEC, Res.bind, binread_size, hb]

/-- C5 fails in the code: `do_binwrite` emits `sizeof(real)` bytes for each real
of a REAL, RVEC or NRVEC whatever the precision flag is, but `do_binread` takes
the size of a real from the flag `bDouble` and hands it to `fread` with the
caller's object of `real`s, without any conversion. On a build with
`real = float`, once the flag is set, a read into an object of `real`s that is not
empty stores past its end whenever the stream holds more bytes than the object
has; on a build with `real = double` with the flag cleared by `fio_setprecision`,
the read of a REAL takes 4 of the 8 bytes written, reports success and leaves the
other half of the object as it was. -/
theorem do_binread_flag_overrun :
    (∀ (E : Env) (curfio : t_fileio) (fp : FILE) (nitem eio : Int) (k : Nat) (m : List Nat),
      curfio.fp = some fp → real_kind eio nitem k → 0 < E.sizeof_real →
      m.length = (k * E.sizeof_real) * nitem.toNat →
      do_binwrite E curfio (some m) nitem eio
        = .ok (true, { curfio with fp := some (fp.write m) })) ∧
    (∀ (E : Env) (J : Junk) (curfio : t_fileio) (fp : FILE) (nitem eio : Int) (k : Nat)
        (dest : List Nat),
      curfio.fp = some fp → real_kind eio nitem k → E.sizeof_real = 4 → curfio.bDouble = true →
      dest.length = (k * E.sizeof_real) * nitem.toNat → 0 < dest.length →
      dest.length < fp.rest.length →
      do_binread E J curfio (some dest) nitem eio = .undefined) ∧
    do_binwrite host { stream_handle .efTRJ [] 0 with bDouble := true } (some [1, 2, 3, 4]) 1 eioREAL
      = .ok (true, { stream_handle .efTRJ [1, 2, 3, 4] 4 with bDouble := true }) ∧
    do_binread host junk0 { stream_handle .efTRJ [1, 2, 3, 4, 5, 6, 7, 8] 0 with bDouble := true }
        (some [0, 0, 0, 0]) 1 eioREAL = .undefined ∧
    do_binread host junk0 (stream_handle .efTRJ [1, 2, 3, 4, 5, 6, 7, 8] 0)
        (some [0, 0, 0, 0]) 1 eioREAL
      = .ok (true, some [1, 2, 3, 4], stream_handle .efTRJ [1, 2, 3, 4, 5, 6, 7, 8] 4) ∧
    do_binwrite host_double (stream_handle .efTRJ [] 0) (some [1, 2, 3, 4, 5, 6, 7, 8]) 1 eioREAL
      = .ok (true, stream_handle .efTRJ [1, 2, 3, 4, 5, 6, 7, 8] 8) ∧
    (fio_setprecision
        { Gmx.init with FIO := [{ stream_handle .efTRJ [1, 2, 3, 4, 5, 6, 7, 8] 0 with
            bDouble := true }] } 0 false).bind (fun g => .ok g.FIO)
      = .ok [stream_handle .efTRJ [1, 2, 3, 4, 5, 6, 7, 8] 0] ∧
    do_binread host_double junk0 (stream_handle .efTRJ [1, 2, 3, 4, 5, 6, 7, 8] 0)
        (some [9, 9, 9, 9, 9, 9, 9, 9]) 1 eioREAL
      = .ok (true, some [1, 2, 3, 4, 9, 9, 9, 9],
          stream_handle .efTRJ [1, 2, 3, 4, 5, 6, 7, 8] 4) := by
  refine ⟨?_, ?_, by decide, by decide, by decide, by decide, by decide, by decide⟩
  · intro E curfio fp nitem eio k m hfp hk hsz hm
    obtain ⟨hk0, hn, _⟩ := real_kind_nitem eio nitem k hk
    have hw := fwrite_ok curfio fp m (k * E.sizeof_real) nitem hfp hn hm
    have hne : k * E.sizeof_real ≠ 0 := Nat.pos_iff_ne_zero.1 (Nat.mul_pos hk0 hsz)
    rw [if_neg hne] at hw
    rw [do_binwrite, do_binwrite_rec_real E 1 curfio (some m) nitem eio k hk, hw]
    simp [Res.bind]
  · intro E J curfio fp nitem eio k dest hfp hk hsz hb hlen hpos hrest
    obtain ⟨hk0, hn, _⟩ := real_kind_nitem eio nitem k hk
    rw [do_binread, do_binread_rec_real E J 1 curfio (some dest) nitem eio k hk]
    simp only []
    have hgot : dest.length
        < (fp.rest.take (binread_size curfio.bDouble k * nitem.toNat)).length := by
      rw [List.length_take, hb]
      simp only [binread_size, if_true]
      rw [hsz] at hlen
      have h8 : 8 * k * nitem.toNat = 2 * dest.length := by
        rw [hlen]
        ring
      omega
    have hp : poke dest 0 (fp.rest.take (binread_size curfio.bDouble k * nitem.toNat)) = none := by
      unfold poke
      rw [if_neg (by omega)]
    unfold fread
    simp only [hfp]
    rw [if_neg (by omega)]
    simp only [hp, Res.bind]


/-! ## Reads with an absent destination -/

theorem bind_isOk_false {α β : Type} (r : Res α) (f : α → Res β)
    (h : ∀ a, (f a).isOk = false) : (r.bind f).isOk = false := by
  cases r with
  | ok a => exact h a
  | fatal m => rfl
  | undefined => rfl
  | nofuel => rfl

/-- C6 fails in the code at kind RVEC of the text backend. The loop of the RVEC case
of `do_ascread` stores through `ptr[m] = x` without the test `if (item)` that the
NRVEC case has: with an absent destination the call never completes, whatever the
state is, where the same text is read into a present destination by taking three
tokens, and where kind NRVEC with count 1 discards the same three tokens and
leaves the stream and the token queue as the read into a destination does. -/
theorem do_ascread_rvec_null_undefined :
    (∀ (E : Env) (J : Junk) (curfio : t_fileio) (sc : Scanner),
      (do_ascread E J curfio sc none 1 eioRVEC).isOk = false) ∧
    do_ascread host junk0 (stream_handle .efTPA (str "1 2 3\n") 0) Scanner.init
        (some [0, 0, 0, 0, 0, 0, 0, 0, 0, 0, 0, 0]) 1 eioRVEC
      = .ok (true, some [1, 0, 0, 0, 2, 0, 0, 0, 3, 0, 0, 0],
          stream_handle .efTPA (str "1 2 3\n") 6, ⟨[49, 0, 50, 0, 51, 0], []⟩) ∧
    do_ascread host junk0 (stream_handle .efTPA (str "1 2 3\n") 0) Scanner.init none 1 eioRVEC
      = .undefined ∧
    do_ascread host junk0 (stream_handle .efTPA (str "1 2 3\n") 0) Scanner.init none 1 eioNRVEC
      = .ok (true, none, stream_handle .efTPA (str "1 2 3\n") 6, ⟨[49, 0, 50, 0, 51, 0], []⟩) := by
  refine ⟨?_, by decide, by decide, by decide⟩
  intro E J curfio sc
  have h : (ascread_reals E false 0 DIM 0
      { res := J.res, v := J.x, item := none, cur := curfio, sc := sc }).isOk = false := by
    simp only [DIM, ascread_reals]
    apply bind_isOk_false
    intro a
    simp [store, Res.bind, Res.isOk]
  simp only [do_ascread, check_nitem, eioRVEC, eioREAL, eioINT, eioNUCHAR, eioUSHORT, eioNRVEC]
  simp only [eioRVEC] at h
  revert h
  generalize ascread_reals E false 0 DIM 0
      { res := J.res, v := J.x, item := none, cur := curfio, sc := sc } = r
  intro h
  cases r <;> simp [Res.bind, Res.isOk] at h ⊢

/-- C7 fails in the code: `do_ascread` assigns `res` anew at every token, so the
value returned tells whether the last token parsed. An IVEC, an RVEC and a byte
array read from tokens the first of which is "x" return TRUE (the component of the
malformed token keeps what the scanned variable held); only a malformed last
token, or a malformed token of a single-token kind, returns FALSE. -/
theorem do_ascread_malformed_first_token :
    (do_ascread host junk0 (stream_handle .efTPA (str "x 2 3\n") 0) Scanner.init
        (some [0, 0, 0, 0, 0, 0, 0, 0, 0, 0, 0, 0]) 1 eioIVEC).bind (fun r => .ok (r.1, r.2.1))
      = .ok (true, some [0, 0, 0, 0, 2, 0, 0, 0, 3, 0, 0, 0]) ∧
    (do_ascread host junk0 (stream_handle .efTPA (str "1 x 3\n") 0) Scanner.init
        (some [0, 0, 0, 0, 0, 0, 0, 0, 0, 0, 0, 0]) 1 eioIVEC).bind (fun r => .ok (r.1, r.2.1))
      = .ok (true, some [1, 0, 0, 0, 1, 0, 0, 0, 3, 0, 0, 0]) ∧
    (do_ascread host junk0 (stream_handle .efTPA (str "1 2 x\n") 0) Scanner.init
        (some [0, 0, 0, 0, 0, 0, 0, 0, 0, 0, 0, 0]) 1 eioIVEC).bind (fun r => .ok r.1)
      = .ok false ∧
    (do_ascread host junk0 (stream_handle .efTPA (str "x 2 3\n") 0) Scanner.init
        (some [0, 0, 0, 0, 0, 0, 0, 0, 0, 0, 0, 0]) 1 eioRVEC).bind (fun r => .ok r.1)
      = .ok true ∧
    (do_ascread host junk0 (stream_handle .efTPA (str "x 2 3\n") 0) Scanner.init
        (some [0, 0, 0, 0, 0, 0, 0, 0, 0, 0, 0, 0]) 1 eioNRVEC).bind (fun r => .ok r.1)
      = .ok true ∧
    (do_ascread host junk0 (stream_handle .efTPA (str "x 2\n") 0) Scanner.init
        (some [0, 0]) 2 eioNUCHAR).bind (fun r => .ok r.1)
      = .ok true ∧
    (do_ascread host junk0 (stream_handle .efTPA (str "x\n") 0) Scanner.init
        (some [0, 0, 0, 0]) 1 eioINT).bind (fun r => .ok r.1)
      = .ok false := by
  decide


/-! ## The count check -/

theorem bind_ne_count {α β : Type} (r : Res α) (f : α → Res β)
    (hr : r ≠ .fatal nitem_msg) (hf : ∀ a, f a ≠ .fatal nitem_msg) :
    r.bind f ≠ .fatal nitem_msg := by
  cases r with
  | ok a => exact hf a
  | fatal m =>
    intro h
    apply hr
    simp only [Res.bind] at h
    injection h with h
    rw [h]
  | undefined => simp [Res.bind]
  | nofuel => simp [Res.bind]

theorem FE_ne_count {α : Type} : (FE : Res α) ≠ .fatal nitem_msg := by
  simp only [FE, nitem_msg, ne_eq, Res.fatal.injEq]
  decide

theorem deref_ne_count {α : Type} (o : Option α) : deref o ≠ .fatal nitem_msg := by
  cases o <;> simp [deref]

theorem load_int_ne_count (item : Option (List Nat)) (k : Nat) :
    load_int item k ≠ .fatal nitem_msg := by
  cases item
  · simp [load_int]
  · exact deref_ne_count _

theorem load_ushort_ne_count (item : Option (List Nat)) :
    load_ushort item ≠ .fatal nitem_msg := by
  cases item
  · simp [load_ushort]
  · exact deref_ne_count _

theorem load_uchar_ne_count (item : Option (List Nat)) (k : Nat) :
    load_uchar item k ≠ .fatal nitem_msg := by
  cases item
  · simp [load_uchar]
  · exact deref_ne_count _

theorem load_real_ne_count (E : Env) (item : Option (List Nat)) (k : Nat) :
    load_real E item k ≠ .fatal nitem_msg := by
  cases item
  · simp [load_real]
  · exact deref_ne_count _

theorem load_string_ne_count (item : Option (List Nat)) :
    load_string item ≠ .fatal nitem_msg := by
  cases item
  · simp [load_string]
  · simp only [load_string]
    split <;> simp

theorem store_ne_count (item : Option (List Nat)) (off : Nat) (bs : List Nat) :
    store item off bs ≠ .fatal nitem_msg := by
  cases item
  · simp [store]
  · exact bind_ne_count _ _ (deref_ne_count _) (fun _ => by simp)

theorem store_if_ne_count (item : Option (List Nat)) (off : Nat) (bs : List Nat) :
    store_if item off bs ≠ .fatal nitem_msg := by
  cases item
  · simp [store_if]
  · exact store_ne_count (some _) off bs

theorem dbgstr_ne_count (E : Env) (cur : t_fileio) (ac : Option (List Nat)) (desc : List Nat) :
    dbgstr E cur ac desc ≠ .fatal nitem_msg := by
  unfold dbgstr
  split
  · simp
  · dsimp only
    split <;> simp

theorem fprintf_ne_count (cur : t_fileio) (bs : List Nat) :
    fprintf cur bs ≠ .fatal nitem_msg := by
  unfold fprintf
  split <;> simp

theorem fwrite_ne_count (cur : t_fileio) (item : Option (List Nat)) (size : Nat) (nitem : Int) :
    fwrite cur item size nitem ≠ .fatal nitem_msg := by
  unfold fwrite
  split
  · split
    · simp
    · split <;> simp
  · simp

theorem fread_ne_count (cur : t_fileio) (item : Option (List Nat)) (size : Nat) (nitem : Int) :
    fread cur item size nitem ≠ .fatal nitem_msg := by
  unfold fread
  split
  · split
    · simp
    · dsimp only
      split <;> simp
  · simp

theorem fseek_cur_ne_count (cur : t_fileio) (offset : Int) :
    fseek_cur cur offset ≠ .fatal nitem_msg := by
  unfold fseek_cur
  split
  · simp
  · split <;> simp

theorem scan_loop_ne_fatal (fuel : Nat) (buf bufindex : List Nat) (i : Nat) (m : String) :
    scan_loop fuel buf bufindex i ≠ .fatal m := by
  induction fuel generalizing buf bufindex i with
  | zero => simp [scan_loop]
  | succ n ih =>
    unfold scan_loop
    dsimp only
    split
    · split
      · split
        · exact ih _ _ _
        · simp
      · simp
    · split
      · exact ih _ _ _
      · simp

theorem next_item_rec_ne_count (STRLEN fuel : Nat) (sc : Scanner) (fp : FILE) :
    next_item_rec STRLEN fuel sc fp ≠ .fatal nitem_msg := by
  induction fuel generalizing sc fp with
  | zero => simp [next_item_rec]
  | succ n ih =>
    unfold next_item_rec
    split
    · simp
    · split
      · simp only [nitem_msg, ne_eq, Res.fatal.injEq]
        decide
      · split
        · exact ih _ _
        · rename_i h
          exact absurd h (scan_loop_ne_fatal _ _ _ _ _)
        · simp
        · simp

theorem asc_next_ne_count (E : Env) (cur : t_fileio) (sc : Scanner) :
    asc_next E cur sc ≠ .fatal nitem_msg := by
  unfold asc_next
  split
  · simp
  · exact bind_ne_count _ _ (next_item_rec_ne_count _ _ _ _) (fun _ => by simp)

theorem ascwrite_uchars_ne_count (item : Option (List Nat)) (n k : Nat) (res : Int)
    (cur : t_fileio) : ascwrite_uchars item n k res cur ≠ .fatal nitem_msg := by
  induction n generalizing k res cur with
  | zero => simp [ascwrite_uchars]
  | succ n ih =>
    unfold ascwrite_uchars
    exact bind_ne_count _ _ (load_uchar_ne_count _ _) fun _ =>
      bind_ne_count _ _ (fprintf_ne_count _ _) fun _ => ih _ _ _

theorem fmt_rvec_ne_count (E : Env) (item : Option (List Nat)) (k : Nat) :
    fmt_rvec E item k ≠ .fatal nitem_msg := by
  unfold fmt_rvec
  exact bind_ne_count _ _ (load_real_ne_count _ _ _) fun _ =>
    bind_ne_count _ _ (load_real_ne_count _ _ _) fun _ =>
    bind_ne_count _ _ (load_real_ne_count _ _ _) fun _ => by simp

theorem ascwrite_rvecs_ne_count (E : Env) (ac : Option (List Nat)) (desc : List Nat)
    (item : Option (List Nat)) (n k : Nat) (res : Int) (cur : t_fileio) :
    ascwrite_rvecs E ac desc item n k res cur ≠ .fatal nitem_msg := by
  induction n generalizing k res cur with
  | zero => simp [ascwrite_rvecs]
  | succ n ih =>
    unfold ascwrite_rvecs
    exact bind_ne_count _ _ (fmt_rvec_ne_count _ _ _) fun _ =>
      bind_ne_count _ _ (dbgstr_ne_count _ _ _ _) fun _ =>
      bind_ne_count _ _ (fprintf_ne_count _ _) fun _ => ih _ _ _

theorem ascread_ints_ne_count (E : Env) (width n k : Nat) (st : AscLoop Int) :
    ascread_ints E width n k st ≠ .fatal nitem_msg := by
  induction n generalizing k st with
  | zero => simp [ascread_ints]
  | succ n ih =>
    unfold ascread_ints
    exact bind_ne_count _ _ (asc_next_ne_count _ _ _) fun _ =>
      bind_ne_count _ _ (store_if_ne_count _ _ _) fun _ => ih _ _

theorem ascread_reals_ne_count (E : Env) (guarded : Bool) (k n m : Nat) (st : AscLoop Nat) :
    ascread_reals E guarded k n m st ≠ .fatal nitem_msg := by
  induction n generalizing m st with
  | zero => simp [ascread_reals]
  | succ n ih =>
    unfold ascread_reals
    refine bind_ne_count _ _ (asc_next_ne_count _ _ _) fun _ =>
      bind_ne_count _ _ ?_ fun _ => ih _ _
    cases guarded
    · exact store_ne_count _ _ _
    · exact store_if_ne_count _ _ _

theorem ascread_rvecs_ne_count (E : Env) (n k : Nat) (st : AscLoop Nat) :
    ascread_rvecs E n k st ≠ .fatal nitem_msg := by
  induction n generalizing k st with
  | zero => simp [ascread_rvecs]
  | succ n ih =>
    unfold ascread_rvecs
    exact bind_ne_count _ _ (ascread_reals_ne_count _ _ _ _ _ _) fun _ => ih _ _

theorem check_nitem_count (eio nitem : Int)
    (h : nitem ≠ 1 ∧ eio ≠ eioNUCHAR ∧ eio ≠ eioNRVEC ∧ 0 ≤ eio ∧ eio < eioNR) :
    check_nitem eio nitem = .fatal nitem_msg := by
  unfold check_nitem
  rw [if_pos ⟨h.1, fun hc => hc.elim h.2.2.1 h.2.1⟩, if_pos ⟨h.2.2.2.1, h.2.2.2.2⟩]

theorem check_nitem_range (eio nitem : Int)
    (h : nitem ≠ 1 ∧ eio ≠ eioNUCHAR ∧ eio ≠ eioNRVEC) (hr : ¬ (0 ≤ eio ∧ eio < eioNR)) :
    check_nitem eio nitem = .undefined := by
  unfold check_nitem
  rw [if_pos ⟨h.1, fun hc => hc.elim h.2.2 h.2.1⟩, if_neg hr]

theorem check_nitem_pass (eio nitem : Int)
    (h : ¬ (nitem ≠ 1 ∧ eio ≠ eioNUCHAR ∧ eio ≠ eioNRVEC)) :
    check_nitem eio nitem = .ok () := by
  unfold check_nitem
  rw [if_neg]
  intro hc
  exact h ⟨hc.1, fun e => hc.2 (Or.inr e), fun e => hc.2 (Or.inl e)⟩

theorem do_ascwrite_count (E : Env) (J : Junk) (ac : Option (List Nat)) (curfio : t_fileio)
    (item : Option (List Nat)) (nitem eio : Int) (desc : List Nat) :
    do_ascwrite E J ac curfio item nitem eio desc = .fatal nitem_msg
      ↔ nitem ≠ 1 ∧ eio ≠ eioNUCHAR ∧ eio ≠ eioNRVEC ∧ 0 ≤ eio ∧ eio < eioNR := by
  constructor
  · intro h
    by_contra hc5
    have hc : ¬ (nitem ≠ 1 ∧ eio ≠ eioNUCHAR ∧ eio ≠ eioNRVEC) := by
      intro h3
      by_cases hr : 0 ≤ eio ∧ eio < eioNR
      · exact hc5 ⟨h3.1, h3.2.1, h3.2.2, hr.1, hr.2⟩
      · unfold do_ascwrite at h
        rw [check_nitem_range eio nitem h3 hr] at h
        cases h
    revert h
    unfold do_ascwrite
    rw [check_nitem_pass eio nitem hc, bind_ok]
    refine bind_ne_count _ _ ?_ (fun _ => by simp)
    repeat' split
    all_goals first
      | exact FE_ne_count
      | exact ascwrite_rvecs_ne_count _ _ _ _ _ _ _ _
      | exact bind_ne_count _ _ (load_real_ne_count _ _ _) fun _ =>
          bind_ne_count _ _ (dbgstr_ne_count _ _ _ _) fun _ => fprintf_ne_count _ _
      | exact bind_ne_count _ _ (load_int_ne_count _ _) fun _ =>
          bind_ne_count _ _ (dbgstr_ne_count _ _ _ _) fun _ => fprintf_ne_count _ _
      | exact bind_ne_count _ _ (load_ushort_ne_count _) fun _ =>
          bind_ne_count _ _ (dbgstr_ne_count _ _ _ _) fun _ => fprintf_ne_count _ _
      | exact bind_ne_count _ _ (load_string_ne_count _) fun _ =>
          bind_ne_count _ _ (dbgstr_ne_count _ _ _ _) fun _ => fprintf_ne_count _ _
      | exact bind_ne_count _ _ (fmt_rvec_ne_count _ _ _) fun _ =>
          bind_ne_count _ _ (dbgstr_ne_count _ _ _ _) fun _ => fprintf_ne_count _ _
      | exact bind_ne_count _ _ (ascwrite_uchars_ne_count _ _ _ _ _) fun _ =>
          bind_ne_count _ _ (dbgstr_ne_count _ _ _ _) fun _ =>
          bind_ne_count _ _ (fprintf_ne_count _ _) fun _ => by simp
      | exact bind_ne_count _ _ (load_int_ne_count _ _) fun _ =>
          bind_ne_count _ _ (load_int_ne_count _ _) fun _ =>
          bind_ne_count _ _ (load_int_ne_count _ _) fun _ =>
          bind_ne_count _ _ (dbgstr_ne_count _ _ _ _) fun _ => fprintf_ne_count _ _
  · intro h
    unfold do_ascwrite
    rw [check_nitem_count eio nitem h]
    rfl

theorem do_ascread_count (E : Env) (J : Junk) (curfio : t_fileio) (sc : Scanner)
    (item : Option (List Nat)) (nitem eio : Int) :
    do_ascread E J curfio sc item nitem eio = .fatal nitem_msg
      ↔ nitem ≠ 1 ∧ eio ≠ eioNUCHAR ∧ eio ≠ eioNRVEC ∧ 0 ≤ eio ∧ eio < eioNR := by
  constructor
  · intro h
    by_contra hc5
    have hc : ¬ (nitem ≠ 1 ∧ eio ≠ eioNUCHAR ∧ eio ≠ eioNRVEC) := by
      intro h3
      by_cases hr : 0 ≤ eio ∧ eio < eioNR
      · exact hc5 ⟨h3.1, h3.2.1, h3.2.2, hr.1, hr.2⟩
      · unfold do_ascread at h
        rw [check_nitem_range eio nitem h3 hr] at h
        cases h
    revert h
    unfold do_ascread
    rw [check_nitem_pass eio nitem hc, bind_ok]
    refine bind_ne_count _ _ ?_ (fun _ => by simp)
    repeat' split
    all_goals first
      | exact FE_ne_count
      | exact bind_ne_count _ _ (asc_next_ne_count _ _ _) fun _ =>
          bind_ne_count _ _ (store_if_ne_count _ _ _) fun _ => by simp
      | exact bind_ne_count _ _ (ascread_ints_ne_count _ _ _ _ _) fun _ => by simp
      | exact bind_ne_count _ _ (ascread_reals_ne_count _ _ _ _ _ _) fun _ => by simp
      | exact bind_ne_count _ _ (ascread_rvecs_ne_count _ _ _ _) fun _ => by simp
      | (refine bind_ne_count _ _ (asc_next_ne_count _ _ _) fun _ => ?_
         repeat' split
         all_goals first
           | (simp; done)
           | exact bind_ne_count _ _ (store_ne_count _ _ _) fun _ => by simp)
  · intro h
    unfold do_ascread
    rw [check_nitem_count eio nitem h]
    rfl

theorem do_binwrite_rec_ne_count (E : Env) (depth : Nat) (curfio : t_fileio)
    (item : Option (List Nat)) (nitem eio : Int)
    (hc : ¬ (nitem ≠ 1 ∧ eio ≠ eioNUCHAR ∧ eio ≠ eioNRVEC)) :
    do_binwrite_rec E depth curfio item nitem eio ≠ .fatal nitem_msg := by
  induction depth generalizing curfio item nitem eio with
  | zero => simp [do_binwrite_rec]
  | succ n ih =>
    unfold do_binwrite_rec
    rw [check_nitem_pass eio nitem hc, bind_ok]
    refine bind_ne_count _ _ ?_ fun _ =>
      bind_ne_count _ _ (fwrite_ne_count _ _ _ _) fun _ => by simp
    repeat' split
    all_goals first
      | exact FE_ne_count
      | (simp; done)
      | exact bind_ne_count _ _ (load_string_ne_count _) fun _ =>
          bind_ne_count _ _ (ih _ _ _ _ (by simp)) fun _ => by simp

theorem do_binread_rec_ne_count (E : Env) (J : Junk) (depth : Nat) (curfio : t_fileio)
    (item : Option (List Nat)) (nitem eio : Int)
    (hc : ¬ (nitem ≠ 1 ∧ eio ≠ eioNUCHAR ∧ eio ≠ eioNRVEC)) :
    do_binread_rec E J depth curfio item nitem eio ≠ .fatal nitem_msg := by
  induction depth generalizing curfio item nitem eio with
  | zero => simp [do_binread_rec]
  | succ n ih =>
    unfold do_binread_rec
    rw [check_nitem_pass eio nitem hc, bind_ok]
    refine bind_ne_count _ _ ?_ fun p => ?_
    · repeat' split
      all_goals first
        | exact FE_ne_count
        | (simp; done)
        | exact bind_ne_count _ _ (ih _ _ _ _ (by simp)) fun _ =>
            bind_ne_count _ _ (load_int_ne_count _ _) fun _ => by simp
    · obtain ⟨size, cur1⟩ := p
      cases item
      · exact bind_ne_count _ _ (fseek_cur_ne_count _ _) fun _ => by simp
      · exact bind_ne_count _ _ (fread_ne_count _ _ _ _) fun _ => by simp

theorem do_binwrite_count (E : Env) (curfio : t_fileio) (item : Option (List Nat))
    (nitem eio : Int) :
    do_binwrite E curfio item nitem eio = .fatal nitem_msg
      ↔ nitem ≠ 1 ∧ eio ≠ eioNUCHAR ∧ eio ≠ eioNRVEC ∧ 0 ≤ eio ∧ eio < eioNR := by
  constructor
  · intro h
    by_contra hc5
    have hc : ¬ (nitem ≠ 1 ∧ eio ≠ eioNUCHAR ∧ eio ≠ eioNRVEC) := by
      intro h3
      by_cases hr : 0 ≤ eio ∧ eio < eioNR
      · exact hc5 ⟨h3.1, h3.2.1, h3.2.2, hr.1, hr.2⟩
      · unfold do_binwrite do_binwrite_rec at h
        rw [check_nitem_range eio nitem h3 hr] at h
        cases h
    exact do_binwrite_rec_ne_count E 2 curfio item nitem eio hc h
  · intro h
    unfold do_binwrite do_binwrite_rec
    rw [check_nitem_count eio nitem h]
    rfl

theorem do_binread_count (E : Env) (J : Junk) (curfio : t_fileio) (item : Option (List Nat))
    (nitem eio : Int) :
    do_binread E J curfio item nitem eio = .fatal nitem_msg
      ↔ nitem ≠ 1 ∧ eio ≠ eioNUCHAR ∧ eio ≠ eioNRVEC ∧ 0 ≤ eio ∧ eio < eioNR := by
  constructor
  · intro h
    by_contra hc5
    have hc : ¬ (nitem ≠ 1 ∧ eio ≠ eioNUCHAR ∧ eio ≠ eioNRVEC) := by
      intro h3
      by_cases hr : 0 ≤ eio ∧ eio < eioNR
      · exact hc5 ⟨h3.1, h3.2.1, h3.2.2, hr.1, hr.2⟩
      · unfold do_binread do_binread_rec at h
        rw [check_nitem_range eio nitem h3 hr] at h
        cases h
    exact do_binread_rec_ne_count E J 2 curfio item nitem eio hc h
  · intro h
    unfold do_binread do_binread_rec
    rw [check_nitem_count eio nitem h]
    rfl

theorem xdr_string_ne_count (x : XDR) (cptr : List Nat) (slen : Int) :
    xdr_string x cptr slen ≠ .fatal nitem_msg := by
  unfold xdr_string
  dsimp only
  repeat' split
  all_goals simp

theorem xdr_uchars_ne_count (n j : Nat) (st : XdrLoop) :
    xdr_uchars n j st ≠ .fatal nitem_msg := by
  induction n generalizing j st with
  | zero => simp [xdr_uchars]
  | succ n ih =>
    unfold xdr_uchars
    split
    · exact bind_ne_count _ _ (load_uchar_ne_count _ _) fun _ =>
        bind_ne_count _ _ (store_ne_count _ _ _) fun _ => ih _ _
    · simp

theorem xdr_ivec_ne_count (n m : Nat) (idum : Int) (st : XdrLoop) :
    xdr_ivec n m idum st ≠ .fatal nitem_msg := by
  induction n generalizing m idum st with
  | zero => simp [xdr_ivec]
  | succ n ih =>
    unfold xdr_ivec
    split
    · refine bind_ne_count _ _ ?_ fun _ =>
        bind_ne_count _ _ (store_if_ne_count _ _ _) fun _ => ih _ _ _
      split
      · simp
      · exact load_int_ne_count _ _
    · simp

theorem xdr_rvec_ne_count (E : Env) (J : Junk) (bDouble : Bool) (k : Nat) (st : XdrLoop) :
    xdr_rvec E J bDouble k st ≠ .fatal nitem_msg := by
  unfold xdr_rvec
  dsimp only
  refine bind_ne_count _ _ ?_ fun _ =>
    bind_ne_count _ _ (store_if_ne_count _ _ _) fun _ => by simp
  split
  · simp
  · exact bind_ne_count _ _ (load_real_ne_count _ _ _) fun _ =>
      bind_ne_count _ _ (load_real_ne_count _ _ _) fun _ =>
      bind_ne_count _ _ (load_real_ne_count _ _ _) fun _ => by simp

theorem xdr_rvecs_ne_count (E : Env) (J : Junk) (bDouble : Bool) (n j : Nat) (st : XdrLoop) :
    xdr_rvecs E J bDouble n j st ≠ .fatal nitem_msg := by
  induction n generalizing j st with
  | zero => simp [xdr_rvecs]
  | succ n ih =>
    unfold xdr_rvecs
    split
    · exact bind_ne_count _ _ (xdr_rvec_ne_count _ _ _ _ _) fun _ => ih _ _
    · simp

theorem do_xdr_count (E : Env) (J : Junk) (curfio : t_fileio) (item : Option (List Nat))
    (nitem eio : Int) :
    do_xdr E J curfio item nitem eio = .fatal nitem_msg
      ↔ nitem ≠ 1 ∧ eio ≠ eioNUCHAR ∧ eio ≠ eioNRVEC ∧ 0 ≤ eio ∧ eio < eioNR := by
  constructor
  · intro h
    by_contra hc5
    have hc : ¬ (nitem ≠ 1 ∧ eio ≠ eioNUCHAR ∧ eio ≠ eioNRVEC) := by
      intro h3
      by_cases hr : 0 ≤ eio ∧ eio < eioNR
      · exact hc5 ⟨h3.1, h3.2.1, h3.2.2, hr.1, hr.2⟩
      · unfold do_xdr at h
        rw [check_nitem_range eio nitem h3 hr] at h
        cases h
    revert h
    unfold do_xdr
    rw [check_nitem_pass eio nitem hc, bind_ok]
    refine bind_ne_count _ _ (deref_ne_count _) fun x => ?_
    refine bind_ne_count _ _ ?_ (fun _ => by simp)
    by_cases h1 : eio = eioREAL
    · rw [if_pos h1]
      refine bind_ne_count _ _ ?_ fun _ =>
        bind_ne_count _ _ (store_if_ne_count _ _ _) fun _ => by simp
      cases item
      · simp
      · exact bind_ne_count _ _ (load_real_ne_count _ _ _) fun _ => by simp
    rw [if_neg h1]
    by_cases h2 : eio = eioINT
    · rw [if_pos h2]
      refine bind_ne_count _ _ ?_ fun _ =>
        bind_ne_count _ _ (store_if_ne_count _ _ _) fun _ => by simp
      cases item
      · simp
      · exact load_int_ne_count _ _
    rw [if_neg h2]
    by_cases h3 : eio = eioNUCHAR
    · rw [if_pos h3]
      exact xdr_uchars_ne_count _ _ _
    rw [if_neg h3]
    by_cases h4 : eio = eioUSHORT
    · rw [if_pos h4]
      refine bind_ne_count _ _ ?_ fun _ =>
        bind_ne_count _ _ (store_if_ne_count _ _ _) fun _ => by simp
      cases item
      · simp
      · exact load_ushort_ne_count _
    rw [if_neg h4]
    by_cases h5 : eio = eioRVEC
    · rw [if_pos h5]
      exact xdr_rvec_ne_count _ _ _ _ _
    rw [if_neg h5]
    by_cases h6 : eio = eioNRVEC
    · rw [if_pos h6]
      exact xdr_rvecs_ne_count _ _ _ _ _ _
    rw [if_neg h6]
    by_cases h7 : eio = eioIVEC
    · rw [if_pos h7]
      exact xdr_ivec_ne_count _ _ _ _
    rw [if_neg h7]
    by_cases h8 : eio = eioSTRING
    · rw [if_pos h8]
      refine bind_ne_count _ _ ?_ fun slen0 => ?_
      · cases item
        · simp
        · dsimp only
          split
          · exact bind_ne_count _ _ (load_string_ne_count _) fun _ => by simp
          · simp
      · dsimp only
        split
        · simp only [nitem_msg, ne_eq, Res.fatal.injEq]
          decide
        · split
          · simp
          · exact bind_ne_count _ _ (xdr_string_ne_count _ _ _) fun _ => by simp
    rw [if_neg h8]
    · exact FE_ne_count
  · intro h
    unfold do_xdr
    rw [check_nitem_count eio nitem h]
    rfl

/-- C8: each backend entry point (`do_ascwrite`, `do_ascread`, `do_binwrite`,
`do_binread`, `do_xdr`) ends in the fatal count error if and only if the count
differs from 1 and the kind is one of the `eioNR` item kinds other than NUCHAR and
NRVEC (an `eio` that is no item kind makes `_check_nitem` read outside `eioNames`
instead). The condition is the same for the five entry points and does not involve
the handle, the storage or the scanner: on a violation the error is the outcome in
every state, also on a handle that has no stream or channel to touch, so nothing
is consumed or emitted before it; no other path of an entry point raises this
error. -/
theorem check_nitem_count_contract (E : Env) (J : Junk) (add_comment : Option (List Nat))
    (curfio : t_fileio) (sc : Scanner) (item : Option (List Nat)) (nitem eio : Int)
    (desc : List Nat) :
    (do_ascwrite E J add_comment curfio item nitem eio desc = .fatal nitem_msg
      ↔ nitem ≠ 1 ∧ eio ≠ eioNUCHAR ∧ eio ≠ eioNRVEC ∧ 0 ≤ eio ∧ eio < eioNR) ∧
    (do_ascread E J curfio sc item nitem eio = .fatal nitem_msg
      ↔ nitem ≠ 1 ∧ eio ≠ eioNUCHAR ∧ eio ≠ eioNRVEC ∧ 0 ≤ eio ∧ eio < eioNR) ∧
    (do_binwrite E curfio item nitem eio = .fatal nitem_msg
      ↔ nitem ≠ 1 ∧ eio ≠ eioNUCHAR ∧ eio ≠ eioNRVEC ∧ 0 ≤ eio ∧ eio < eioNR) ∧
    (do_binread E J curfio item nitem eio = .fatal nitem_msg
      ↔ nitem ≠ 1 ∧ eio ≠ eioNUCHAR ∧ eio ≠ eioNRVEC ∧ 0 ≤ eio ∧ eio < eioNR) ∧
    (do_xdr E J curfio item nitem eio = .fatal nitem_msg
      ↔ nitem ≠ 1 ∧ eio ≠ eioNUCHAR ∧ eio ≠ eioNRVEC ∧ 0 ≤ eio ∧ eio < eioNR) :=
  ⟨do_ascwrite_count E J add_comment curfio item nitem eio desc,
    do_ascread_count E J curfio sc item nitem eio,
    do_binwrite_count E curfio item nitem eio,
    do_binread_count E J curfio item nitem eio,
    do_xdr_count E J curfio item nitem eio⟩

/-! ## The registry: the slot that `fio_open` takes -/

theorem find_slot_ge (l : List t_fileio) (i : Nat) : i ≤ find_slot l i ∧ find_slot l i ≤ i + l.length := by
  induction l generalizing i with
  | nil => simp [find_slot]
  | cons f fs ih =>
    simp only [find_slot, List.length_cons]
    split
    · omega
    · have := ih (i + 1)
      omega

theorem find_slot_open_before (l : List t_fileio) (i j : Nat) (hj : i + j < find_slot l i) :
    ∃ f, l.get? j = some f ∧ f.bOpen = true := by
  induction l generalizing i j with
  | nil => simp [find_slot] at hj
  | cons f fs ih =>
    simp only [find_slot] at hj
    split at hj
    · omega
    · rename_i hf
      cases j with
      | zero => exact ⟨f, rfl, by simpa using hf⟩
      | succ j =>
        have := ih (i + 1) j (by omega)
        simpa using this

theorem find_slot_free (l : List t_fileio) (i : Nat) (h : find_slot l i < i + l.length) :
    ∃ f, l.get? (find_slot l i - i) = some f ∧ f.bOpen = false := by
  induction l generalizing i with
  | nil => simp [find_slot] at h
  | cons f fs ih =>
    simp only [find_slot, List.length_cons] at h ⊢
    split
    · rename_i hf
      exact ⟨f, by simp, by simpa using hf⟩
    · rename_i hf
      rw [if_neg hf] at h
      obtain ⟨f1, h1, h2⟩ := ih (i + 1) (by omega)
      have hge := (find_slot_ge fs (i + 1)).1
      have e : find_slot fs (i + 1) - i = (find_slot fs (i + 1) - (i + 1)) + 1 := by omega
      exact ⟨f1, by rw [e]; simpa using h1, h2⟩

theorem find_slot_all_open (l : List t_fileio) (i : Nat) (h : ∀ f ∈ l, f.bOpen = true) :
    find_slot l i = i + l.length := by
  induction l generalizing i with
  | nil => simp [find_slot]
  | cons f fs ih =>
    have hf : f.bOpen = true := h f (by simp)
    simp only [find_slot, hf, List.length_cons]
    rw [ih (i + 1) (fun x hx => h x (by simp [hx]))]
    simp
    omega

theorem find_slot_first_free (a b : List t_fileio) (f : t_fileio) (i : Nat)
    (ha : ∀ x ∈ a, x.bOpen = true) (hf : f.bOpen = false) :
    find_slot (a ++ f :: b) i = i + a.length := by
  induction a generalizing i with
  | nil => simp [find_slot, hf]
  | cons x xs ih =>
    have hx : x.bOpen = true := ha x (by simp)
    rw [List.cons_append, find_slot, ih (i + 1) (fun y hy => ha y (by simp [hy]))]
    simp [hx]
    omega

theorem bind_eq_ok {α β : Type} (r : Res α) (f : α → Res β) (b : β) (h : r.bind f = .ok b) :
    ∃ a, r = .ok a ∧ f a = .ok b := by
  cases r with
  | ok a => exact ⟨a, rfl, h⟩
  | fatal m => simp [Res.bind] at h
  | undefined => simp [Res.bind] at h
  | nofuel => simp [Res.bind] at h

theorem open_mode_read (w : World) (mode : List Nat) :
    ((if w.fn2ftp = Ftp.efTPA then mode
      else if mode.headD 0 = 114 then [114, 98]
      else if mode.headD 0 = 119 then [119, 98] else [97, 98]).headD 0 = 114)
      ↔ mode.headD 0 = 114 := by
  split
  · exact Iff.rfl
  · split
    · rename_i h
      exact ⟨fun _ => h, fun _ => rfl⟩
    · rename_i h
      split
      · exact ⟨fun e => absurd e (by decide), fun e => absurd e h⟩
      · exact ⟨fun e => absurd e (by decide), fun e => absurd e h⟩

theorem open_mode_write (w : World) (mode : List Nat) (h : w.fn2ftp ≠ Ftp.efTPA) :
    ((if w.fn2ftp = Ftp.efTPA then mode
      else if mode.headD 0 = 114 then [114, 98]
      else if mode.headD 0 = 119 then [119, 98] else [97, 98]).headD 0 = 119)
      ↔ mode.headD 0 = 119 := by
  rw [if_neg h]
  split
  · rename_i h1
    exact ⟨fun e => absurd e (by decide), fun e => by rw [e] at h1; exact absurd h1 (by decide)⟩
  · split
    · rename_i h2
      exact ⟨fun _ => h2, fun _ => rfl⟩
    · rename_i h2
      exact ⟨fun e => absurd e (by decide), fun e => absurd e h2⟩

theorem xdr_not_tpa (w : World) (h : in_ftpset w.fn2ftp ftpXDR = true) : w.fn2ftp ≠ Ftp.efTPA := by
  intro e
  rw [e] at h
  exact absurd h (by decide)

/-- What a `fio_open` that returns has done: the slot it filled and where. -/
theorem fio_open_ok_shape (E : Env) (w : World) (fn : Option (List Nat)) (mode : List Nat)
    (g g1 : Gmx) (i : Nat) (h : fio_open E w fn mode g = .ok (i, g1)) :
    ∃ f : t_fileio, f.bOpen = true ∧ f.bDebug = false ∧
      f.bDouble = decide (E.sizeof_real = 8) ∧ f.bRead = decide (mode.headD 0 = 114) ∧
      f.fn = fn.getD (str "STDIO") ∧ f.iFTP = (if fn = none then .efTPA else w.fn2ftp) ∧
      (fn ≠ none → in_ftpset w.fn2ftp ftpXDR = false → f.fp = w.ffopen ∧ f.xdr = none) ∧
      closable f ∧
      i = find_slot g.FIO 0 ∧
      g1 = (if find_slot g.FIO 0 = g.nFIO then { g with FIO := g.FIO ++ [f], curfio := none }
            else { g with FIO := g.FIO.set (find_slot g.FIO 0) f }) := by
  unfold fio_open at h
  dsimp only at h
  have hmr := open_mode_read w mode
  generalize (if w.fn2ftp = Ftp.efTPA then mode
      else if mode.headD 0 = 114 then [114, 98]
      else if mode.headD 0 = 119 then [119, 98] else [97, 98]) = m at h hmr
  obtain ⟨f, hfilled, hf⟩ := bind_eq_ok _ _ _ h
  have hbr : ∀ b : Bool, b = decide (m.headD 0 = 114) → b = decide (mode.headD 0 = 114) := by
    intro b hb
    rw [hb]
    exact decide_eq_decide.2 hmr
  have hres : (find_slot g.FIO 0, (if find_slot g.FIO 0 = g.nFIO then
        ({ g with FIO := g.FIO ++ [f], curfio := none } : Gmx)
      else { g with FIO := g.FIO.set (find_slot g.FIO 0) f })) = (i, g1) := by
    split at hf
    · rename_i hi
      rw [if_pos hi]
      injection hf
    · rename_i hi
      rw [if_neg hi]
      injection hf
  injection hres with hi hg
  refine ⟨f, ?_, ?_, ?_, ?_, ?_, ?_, ?_, ?_, hi.symm, hg.symm⟩ <;> clear hf h hi hg
  all_goals
    cases fn with
    | none =>
      injection hfilled with hfilled
      subst hfilled
      first
        | rfl
        | exact hbr _ rfl
        | (intro hne; exact absurd rfl hne)
        | simp [closable, show in_ftpset Ftp.efTPA ftpXDR = false by decide]
    | some name =>
      simp only at hfilled
      split at hfilled
      · rename_i hxdr
        split at hfilled
        · simp at hfilled
        · injection hfilled with hfilled
          subst hfilled
          first
            | rfl
            | exact hbr _ rfl
            | (intro _ hx; rw [hx] at hxdr; exact absurd hxdr (by decide))
            | (unfold closable; rw [if_pos hxdr]; rfl)
      · rename_i hxdr
        split at hfilled
        · simp at hfilled
        · rename_i fp hfp
          injection hfilled with hfilled
          subst hfilled
          first
            | rfl
            | exact hbr _ rfl
            | (intro _ _; exact ⟨hfp.symm, rfl⟩)
            | (unfold closable; rw [if_neg hxdr]; intro _; rfl)

/-- `fio_open` returns exactly when the collaborators let it through. -/
theorem fio_open_passes_iff (E : Env) (w : World) (fn : Option (List Nat)) (mode : List Nat)
    (g : Gmx) : (∃ r, fio_open E w fn mode g = .ok r) ↔ fio_open_passes w fn mode := by
  unfold fio_open_passes
  constructor
  · rintro ⟨r, h⟩
    unfold fio_open at h
    dsimp only at h
    have hmw := fun hx => open_mode_write w mode (xdr_not_tpa w hx)
    generalize (if w.fn2ftp = Ftp.efTPA then mode
        else if mode.headD 0 = 114 then [114, 98]
        else if mode.headD 0 = 119 then [119, 98] else [97, 98]) = m at h hmw
    obtain ⟨f, hfilled, _⟩ := bind_eq_ok _ _ _ h
    cases fn with
    | none => exact Or.inl rfl
    | some name =>
      right
      simp only at hfilled
      by_cases hxdr : in_ftpset w.fn2ftp ftpXDR = true
      · left
        refine ⟨hxdr, ?_⟩
        rw [if_pos hxdr] at hfilled
        by_cases hno : m.headD 0 ≠ 119 ∧ w.fexist = false
        · rw [if_pos hno] at hfilled
          cases hfilled
        · by_cases hm : mode.headD 0 = 119
          · exact Or.inl hm
          · right
            cases hfe : w.fexist with
            | true => rfl
            | false => exact absurd ⟨fun hm2 => hm ((hmw hxdr).1 hm2), hfe⟩ hno
      · right
        refine ⟨by simpa using hxdr, ?_⟩
        rw [if_neg hxdr] at hfilled
        cases hfp : w.ffopen with
        | none =>
          rw [hfp] at hfilled
          cases hfilled
        | some fp => rfl
  · intro hp
    rcases hp with h | ⟨hx, hm⟩ | ⟨hx, hf⟩
    · subst h
      simp only [fio_open, bind_ok]
      split <;> exact ⟨_, rfl⟩
    · cases fn with
      | none =>
        simp only [fio_open, bind_ok]
        split <;> exact ⟨_, rfl⟩
      | some name =>
        have hcond : ¬ ((if w.fn2ftp = Ftp.efTPA then mode
            else if mode.headD 0 = 114 then [114, 98]
            else if mode.headD 0 = 119 then [119, 98] else [97, 98]).headD 0 ≠ 119 ∧
            w.fexist = false) := by
          rintro ⟨h1, h2⟩
          rcases hm with hm | hm
          · exact h1 ((open_mode_write w mode (xdr_not_tpa w hx)).2 hm)
          · rw [hm] at h2
            exact absurd h2 (by decide)
        simp only [fio_open, hx, if_true]
        rw [if_neg hcond]
        simp only [bind_ok]
        split <;> exact ⟨_, rfl⟩
    · cases fn with
      | none =>
        simp only [fio_open, bind_ok]
        split <;> exact ⟨_, rfl⟩
      | some name =>
        obtain ⟨fp, hfp⟩ := Option.isSome_iff_exists.1 hf
        simp only [fio_open, hx, hfp, bind_ok]
        simp only [Bool.false_eq_true, if_false, bind_ok]
        split <;> exact ⟨_, rfl⟩

/-- The table after `fio_open` has put `f` at the first free index. -/
theorem fio_open_slot_get (g : Gmx) (f : t_fileio) :
    find_slot g.FIO 0 < Gmx.nFIO (if find_slot g.FIO 0 = g.nFIO then
          { g with FIO := g.FIO ++ [f], curfio := none }
        else { g with FIO := g.FIO.set (find_slot g.FIO 0) f }) ∧
    List.get? ( Gmx.FIO (if find_slot g.FIO 0 = g.nFIO then
          { g with FIO := g.FIO ++ [f], curfio := none }
        else { g with FIO := g.FIO.set (find_slot g.FIO 0) f })) (find_slot g.FIO 0) = some f ∧
    ∀ j, j ≠ find_slot g.FIO 0 →
      List.get? ( Gmx.FIO (if find_slot g.FIO 0 = g.nFIO then
          { g with FIO := g.FIO ++ [f], curfio := none }
        else { g with FIO := g.FIO.set (find_slot g.FIO 0) f })) j = g.FIO.get? j := by
  have hge := find_slot_ge g.FIO 0
  by_cases h : find_slot g.FIO 0 = g.nFIO
  · rw [if_pos h]
    have h2 : find_slot g.FIO 0 = g.FIO.length := h
    refine ⟨by simp [Gmx.nFIO, h2], by simp [h2], ?_⟩
    intro j hj
    rw [h2] at hj
    simp only [List.get?_eq_getElem?]
    rcases Nat.lt_or_gt_of_ne hj with hlt | hgt
    · rw [List.getElem?_append_left hlt]
    · rw [List.getElem?_eq_none (by simp; omega), List.getElem?_eq_none (by omega)]
  · rw [if_neg h]
    have hlt : find_slot g.FIO 0 < g.FIO.length := by
      have : find_slot g.FIO 0 ≠ g.FIO.length := h
      omega
    refine ⟨by simp [Gmx.nFIO, hlt], by simp [hlt], ?_⟩
    intro j hj
    simp only [List.get?_eq_getElem?]
    rw [List.getElem?_set_ne (Ne.symm hj)]

theorem run_append (E : Env) (a b : List Op) (g : Gmx) :
    run E (a ++ b) g
      = (run E a g).bind fun r => (run E b r.2).bind fun r2 => .ok (r.1 ++ r2.1, r2.2) := by
  induction a generalizing g with
  | nil =>
    simp only [List.nil_append, run, bind_ok]
    cases run E b g <;> rfl
  | cons op ops ih =>
    cases op with
    | fio_open w fn mode =>
      rw [List.cons_append]
      simp only [run]
      cases fio_open E w fn mode g with
      | ok r =>
        simp only [bind_ok, ih]
        cases run E ops r.2 with
        | ok r1 =>
          simp only [bind_ok]
          cases run E b r1.2 <;> rfl
        | fatal m => rfl
        | undefined => rfl
        | nofuel => rfl
      | fatal m => rfl
      | undefined => rfl
      | nofuel => rfl
    | fio_select fio =>
      rw [List.cons_append]
      simp only [run]
      cases fio_select E g fio with
      | ok r => simp only [bind_ok, ih]
      | fatal m => rfl
      | undefined => rfl
      | nofuel => rfl
    | fio_close fio =>
      rw [List.cons_append]
      simp only [run]
      cases fio_close g fio with
      | ok r => simp only [bind_ok, ih]
      | fatal m => rfl
      | undefined => rfl
      | nofuel => rfl

theorem fio_check_pass (g : Gmx) (h : Int) (h0 : 0 ≤ h) (h1 : h < g.nFIO) :
    fio_check g h = .ok () := by
  unfold fio_check
  rw [if_neg]
  intro hc
  rcases hc with hc | hc <;> omega

/-- `fio_close` returns on an open slot that holds what it releases. -/
theorem fio_close_returns (g : Gmx) (h : Int) (f : t_fileio) (h0 : 0 ≤ h) (h1 : h < g.nFIO)
    (hf : g.FIO.get? h.toNat = some f) (ho : f.bOpen = true) (hc : closable f) :
    fio_close g h = .ok { g with
      FIO := g.FIO.set h.toNat { f with bOpen := false },
      do_read := .do_dummy, do_write := .do_dummy } := by
  unfold fio_close
  rw [fio_check_pass g h h0 h1, bind_ok, hf]
  simp only [deref, bind_ok]
  unfold closable at hc
  by_cases hx : in_ftpset f.iFTP ftpXDR = true
  · rw [if_pos hx] at hc
    obtain ⟨x, hxx⟩ := Option.isSome_iff_exists.1 hc
    rw [if_pos hx, hxx]
    simp [Res.bind, ho]
  · rw [if_neg hx] at hc
    rw [if_neg hx]
    by_cases hs : f.bStdio = false
    · obtain ⟨x, hxx⟩ := Option.isSome_iff_exists.1 (hc hs)
      rw [if_pos hs, hxx]
      simp [Res.bind, ho]
    · rw [if_neg hs]
      simp [Res.bind, ho]

/-- What a `fio_close` that returns has done. -/
theorem fio_close_ok_shape (g g1 : Gmx) (h : Int) (hcl : fio_close g h = .ok g1) :
    0 ≤ h ∧ h < g.nFIO ∧ ∃ f, g.FIO.get? h.toNat = some f ∧ f.bOpen = true ∧
      g1 = { g with
        FIO := g.FIO.set h.toNat { f with bOpen := false },
        do_read := .do_dummy, do_write := .do_dummy } := by
  unfold fio_close at hcl
  obtain ⟨_, hchk, hcl⟩ := bind_eq_ok _ _ _ hcl
  obtain ⟨f, hf, hcl⟩ := bind_eq_ok _ _ _ hcl
  obtain ⟨_, _, hcl⟩ := bind_eq_ok _ _ _ hcl
  have hr : 0 ≤ h ∧ h < g.nFIO := by
    unfold fio_check at hchk
    split at hchk
    · cases hchk
    · rename_i hn
      constructor <;> omega
  have hf2 : g.FIO.get? h.toNat = some f := by
    cases hg : g.FIO.get? h.toNat with
    | none =>
      rw [hg] at hf
      cases hf
    | some f2 =>
      rw [hg] at hf
      injection hf with hf
      rw [hf]
  refine ⟨hr.1, hr.2, f, hf2, ?_⟩
  split at hcl
  · cases hcl
  · rename_i ho
    injection hcl with hcl
    exact ⟨by simpa using ho, hcl.symm⟩

theorem run_opens (E : Env) (reqs : List (World × Option (List Nat) × List Nat)) (g : Gmx)
    (hg : ∀ f ∈ g.FIO, f.bOpen = true ∧ closable f)
    (hreqs : ∀ r ∈ reqs, fio_open_passes r.1 r.2.1 r.2.2) :
    ∃ g1, run E (reqs.map fun r => Op.fio_open r.1 r.2.1 r.2.2) g
        = .ok (List.range' g.nFIO reqs.length, g1) ∧
      g1.nFIO = g.nFIO + reqs.length ∧ ∀ f ∈ g1.FIO, f.bOpen = true ∧ closable f := by
  induction reqs generalizing g with
  | nil => exact ⟨g, rfl, rfl, hg⟩
  | cons r rs ih =>
    obtain ⟨⟨i, g0⟩, hopen⟩ := (fio_open_passes_iff E r.1 r.2.1 r.2.2 g).2 (hreqs r (by simp))
    obtain ⟨f, hf, _, _, _, _, _, _, hcl, hi, hg0⟩ := fio_open_ok_shape E r.1 r.2.1 r.2.2 g g0 i hopen
    have hslot : find_slot g.FIO 0 = g.nFIO := by
      rw [find_slot_all_open g.FIO 0 (fun x hx => (hg x hx).1)]
      simp [Gmx.nFIO]
    rw [hslot, if_pos rfl] at hg0
    rw [hslot] at hi
    subst hi hg0
    have hg1 : ∀ x ∈ Gmx.FIO { g with FIO := g.FIO ++ [f], curfio := none },
        x.bOpen = true ∧ closable x := by
      intro x hx
      rcases List.mem_append.1 hx with h | h
      · exact hg x h
      · rw [List.mem_singleton.1 h]
        exact ⟨hf, hcl⟩
    obtain ⟨g2, hrun, hn, hall⟩ := ih { g with FIO := g.FIO ++ [f], curfio := none } hg1
      (fun x hx => hreqs x (by simp [hx]))
    refine ⟨g2, ?_, ?_, hall⟩
    · simp only [List.map_cons, run, hopen, bind_ok, hrun, List.length_cons]
      have e : Gmx.nFIO { g with FIO := g.FIO ++ [f], curfio := none } = g.nFIO + 1 := by
        simp [Gmx.nFIO]
      rw [e]
      rfl
    · rw [hn]
      simp [Gmx.nFIO]
      omega

theorem fio_close_open_slot (g : Gmx) (k : Nat) (hk : k < g.nFIO)
    (hg : ∀ f ∈ g.FIO, f.bOpen = true ∧ closable f) :
    ∃ g1, fio_close g (k : Int) = .ok g1 ∧ g1.nFIO = g.nFIO ∧ find_slot g1.FIO 0 = k := by
  have hk1 : k < g.FIO.length := hk
  obtain ⟨f, hf⟩ : ∃ f, g.FIO.get? k = some f := ⟨g.FIO.get ⟨k, hk1⟩, List.get?_eq_get hk1⟩
  have hfo := hg f (List.get?_mem hf)
  refine ⟨_, fio_close_returns g (k : Int) f (by omega) (by exact_mod_cast hk)
    (by rw [Int.toNat_ofNat]; exact hf) hfo.1 hfo.2, ?_, ?_⟩
  · simp [Gmx.nFIO]
  · have hsplit : g.FIO = g.FIO.take k ++ f :: g.FIO.drop (k + 1) := by
      have h1 := List.take_append_drop k g.FIO
      have h2 : g.FIO.drop k = f :: g.FIO.drop (k + 1) := by
        rw [List.drop_eq_getElem_cons hk1]
        congr 1
        have := List.get?_eq_get hk1
        rw [hf] at this
        simpa using this.symm
      rw [h2] at h1
      exact h1.symm
    have hlen : (g.FIO.take k).length = k := by
      rw [List.length_take]
      omega
    have hset : g.FIO.set k { f with bOpen := false }
        = g.FIO.take k ++ { f with bOpen := false } :: g.FIO.drop (k + 1) := by
      conv_lhs => rw [hsplit]
      rw [List.set_append_right _ _ (by omega), hlen]
      simp
    show find_slot (g.FIO.set (k : Int).toNat { f with bOpen := false }) 0 = k
    rw [Int.toNat_ofNat, hset,
      find_slot_first_free _ _ _ 0 (fun x hx => (hg x (List.mem_of_mem_take hx)).1) rfl, hlen]
    simp

/-- C9: `fio_open` returns exactly when the collaborators let it through (there is
no file name, or the file is of a portable-binary type and is opened for writing or
exists, or it is of another type and `ffopen` opens it), and the index `i` it
returns is such that every slot below `i` is open, and either slot `i` of the table
is not open, and then the table keeps its size `nFIO`, or `i` is the old `nFIO`,
and then the table has grown by exactly one; slot `i` is open afterwards and the
other slots are untouched. Hence from the empty table, after opening `N ≥ 1`
handles, which get the indices `0..N-1`, and closing index `N/2`, the next
`fio_open` returns `N/2` and the table still has `N` slots. -/
theorem fio_open_reuses_first_free_slot (E : Env) (w : World) (fn : Option (List Nat))
    (mode : List Nat) :
    (∀ g : Gmx, (∃ i g1, fio_open E w fn mode g = .ok (i, g1)) ↔ fio_open_passes w fn mode) ∧
    (∀ (g : Gmx) (i : Nat) (g1 : Gmx), fio_open E w fn mode g = .ok (i, g1) →
      (∀ j, j < i → ∃ f, g.FIO.get? j = some f ∧ f.bOpen = true) ∧
      ((∃ f, g.FIO.get? i = some f ∧ f.bOpen = false ∧ g1.nFIO = g.nFIO) ∨
        (i = g.nFIO ∧ g1.nFIO = g.nFIO + 1)) ∧
      (∃ f, g1.FIO.get? i = some f ∧ f.bOpen = true) ∧
      (∀ j, j ≠ i → g1.FIO.get? j = g.FIO.get? j)) ∧
    (∀ reqs : List (World × Option (List Nat) × List Nat), reqs ≠ [] →
      (∀ r ∈ reqs, fio_open_passes r.1 r.2.1 r.2.2) → fio_open_passes w fn mode →
      ∃ g3, run E ((reqs.map fun r => Op.fio_open r.1 r.2.1 r.2.2) ++
          [Op.fio_close ((reqs.length / 2 : Nat) : Int), Op.fio_open w fn mode]) Gmx.init
        = .ok (List.range reqs.length ++ [reqs.length / 2], g3) ∧ g3.nFIO = reqs.length) := by
  refine ⟨?_, ?_, ?_⟩
  · intro g
    rw [← fio_open_passes_iff E w fn mode g]
    exact ⟨fun ⟨i, g1, h⟩ => ⟨(i, g1), h⟩, fun ⟨r, h⟩ => ⟨r.1, r.2, h⟩⟩
  · intro g i g1 hopen
    obtain ⟨f, hf, _, _, _, _, _, _, _, hi, hg1⟩ := fio_open_ok_shape E w fn mode g g1 i hopen
    obtain ⟨_, hget, hother⟩ := fio_open_slot_get g f
    rw [← hg1, ← hi] at hget hother
    have hge := find_slot_ge g.FIO 0
    refine ⟨?_, ?_, ⟨f, hget, hf⟩, hother⟩
    · intro j hj
      rw [hi] at hj
      exact find_slot_open_before g.FIO 0 j (by omega)
    · by_cases h : find_slot g.FIO 0 = g.nFIO
      · right
        rw [if_pos h] at hg1
        rw [hg1]
        exact ⟨hi.trans h, by simp [Gmx.nFIO]⟩
      · left
        rw [if_neg h] at hg1
        have hlt : find_slot g.FIO 0 < 0 + g.FIO.length := by
          have : find_slot g.FIO 0 ≠ g.FIO.length := h
          omega
        obtain ⟨f0, h0, h1⟩ := find_slot_free g.FIO 0 hlt
        rw [hi, hg1]
        exact ⟨f0, by simpa using h0, h1, by simp [Gmx.nFIO]⟩
  · intro reqs hne hreqs hw
    obtain ⟨g1, hrun, hn, hall⟩ := run_opens E reqs Gmx.init (by simp [Gmx.init]) hreqs
    have hn1 : g1.nFIO = reqs.length := by
      rw [hn]
      simp [Gmx.nFIO, Gmx.init]
    have hpos : 0 < reqs.length := List.length_pos.2 hne
    obtain ⟨g2, hclose, hn2, hslot⟩ := fio_close_open_slot g1 (reqs.length / 2)
      (by rw [hn1]; omega) hall
    obtain ⟨⟨i, g3⟩, hopen⟩ := (fio_open_passes_iff E w fn mode g2).2 hw
    obtain ⟨f, _, _, _, _, _, _, _, _, hi, hg3⟩ := fio_open_ok_shape E w fn mode g2 g3 i hopen
    have hne2 : find_slot g2.FIO 0 ≠ g2.nFIO := by
      rw [hslot, hn2, hn1]
      omega
    rw [if_neg hne2] at hg3
    rw [hslot] at hi
    subst hi
    have hn3 : g3.nFIO = g2.nFIO := by
      rw [hg3]
      simp [Gmx.nFIO]
    refine ⟨g3, ?_, by rw [hn3, hn2, hn1]⟩
    rw [run_append, hrun, bind_ok]
    simp only [run, hclose, bind_ok, hopen]
    have e : Gmx.nFIO Gmx.init = 0 := rfl
    rw [e, List.range_eq_range']

/-- C9, at three handles opened from the empty table, the second on a text file
that does not exist yet: after the close of index 1 the fourth `fio_open` returns 1
and the table keeps its three slots. -/
theorem fio_open_reuses_first_free_slot_witness :
    ∃ g3, run host
        [Op.fio_open (world .efTPA []) none (str "w"),
          Op.fio_open { world .efTPA [] with fexist := false } (some (str "a")) (str "w"),
          Op.fio_open (world .efTPB []) (some (str "b")) (str "r"),
          Op.fio_close 1,
          Op.fio_open (world .efTPA []) none (str "w")] Gmx.init
      = .ok ([0, 1, 2, 1], g3) ∧ g3.nFIO = 3 :=
  (fio_open_reuses_first_free_slot host (world .efTPA []) none (str "w")).2.2
      [(world .efTPA [], none, str "w"),
        ({ world .efTPA [] with fexist := false }, some (str "a"), str "w"),
        (world .efTPB [], some (str "b"), str "r")] (by simp)
      (by
        intro r hr
        simp only [List.mem_cons, List.mem_singleton, List.not_mem_nil, or_false] at hr
        rcases hr with rfl | rfl | rfl
        · exact Or.inl rfl
        · exact Or.inr (Or.inr ⟨rfl, rfl⟩)
        · exact Or.inr (Or.inr ⟨rfl, rfl⟩))
      (Or.inl rfl)

/-! ## The registry: the dispatch after `fio_open` -/

theorem fio_open_dispatch (E : Env) (w : World) (fn : Option (List Nat)) (mode : List Nat)
    (g g1 : Gmx) (i : Nat) (h : fio_open E w fn mode g = .ok (i, g1)) :
    g1.do_read = g.do_read ∧ g1.do_write = g.do_write ∧ g1.scanner = g.scanner ∧
    g1.add_comment = g.add_comment ∧
    i ≤ g.nFIO ∧ (i < g.nFIO → g1.curfio = g.curfio) ∧ (i = g.nFIO → g1.curfio = none) := by
  obtain ⟨f, _, _, _, _, _, _, _, _, hi, hg1⟩ := fio_open_ok_shape E w fn mode g g1 i h
  have hge := find_slot_ge g.FIO 0
  have hle : i ≤ g.nFIO := by
    rw [hi]
    simp only [Gmx.nFIO]
    omega
  by_cases hs : find_slot g.FIO 0 = g.nFIO
  · rw [if_pos hs] at hg1
    subst hg1
    exact ⟨rfl, rfl, rfl, rfl, hle, fun hlt => absurd (hi.trans hs) (by omega), fun _ => rfl⟩
  · rw [if_neg hs] at hg1
    subst hg1
    exact ⟨rfl, rfl, rfl, rfl, hle, fun _ => rfl, fun he => absurd (hi.symm.trans he) hs⟩

theorem do_call_dangling (E : Env) (J : Junk) (f : DoFunc) (g : Gmx) (item : Option (List Nat))
    (nitem eio : Int) (desc : List Nat) (hc : g.curfio = none) (hf : f ≠ .do_dummy) :
    do_call E J f g item nitem eio desc = .undefined := by
  cases f <;> first | exact absurd rfl hf | simp [do_call, hc, deref, Res.bind]

theorem fio_close_dispatch (g g1 : Gmx) (fio : Int) (h : fio_close g fio = .ok g1) :
    g1.do_read = .do_dummy ∧ g1.do_write = .do_dummy := by
  obtain ⟨_, _, f, _, _, hg1⟩ := fio_close_ok_shape g g1 fio h
  subst hg1
  exact ⟨rfl, rfl⟩

theorem run_unselected (E : Env) (ops : List Op) (b : Bool) (g g1 : Gmx) (is : List Nat)
    (hrun : run E ops g = .ok (is, g1)) (hun : unselected ops b = true)
    (hb : b = true → g.do_read = .do_dummy ∧ g.do_write = .do_dummy) :
    g1.do_read = .do_dummy ∧ g1.do_write = .do_dummy := by
  induction ops generalizing b g is with
  | nil =>
    simp only [run] at hrun
    injection hrun with hrun
    injection hrun with _ hg
    subst hg
    exact hb hun
  | cons op ops ih =>
    cases op with
    | fio_open w fn mode =>
      simp only [run] at hrun
      obtain ⟨r, hr, h1⟩ := bind_eq_ok _ _ _ hrun
      obtain ⟨r2, hr2, h2⟩ := bind_eq_ok _ _ _ h1
      injection h2 with h2
      injection h2 with _ h2
      subst h2
      obtain ⟨d1, d2, _⟩ := fio_open_dispatch E w fn mode g r.2 r.1 hr
      exact ih b r.2 r2.1 hr2 hun (fun hbt => by rw [d1, d2]; exact hb hbt)
    | fio_select fio =>
      simp only [run] at hrun
      obtain ⟨r, hr, h1⟩ := bind_eq_ok _ _ _ hrun
      exact ih false r is h1 hun (fun hbt => by simp at hbt)
    | fio_close fio =>
      simp only [run] at hrun
      obtain ⟨r, hr, h1⟩ := bind_eq_ok _ _ _ hrun
      exact ih true r is h1 hun (fun _ => fio_close_dispatch g r fio hr)

/-- C10 (as amended): `fio_open` leaves `do_read` and `do_write` as they are; the
index it returns is at most the old table size, it leaves `curfio` as it is when it
reuses a slot of the table, and when it grows the table `curfio` no longer points
into the table, so that an item call through a `do_read` or `do_write` that is not
`do_dummy` has no defined behaviour. In a state reached from the start by a history
of `fio_open`, `fio_select` and `fio_close` calls in which no `fio_select` was
called since the last `fio_close` (or at all, when there was no `fio_close`), an
item call through `do_read` or `do_write` made after a further `fio_open` has
returned ends in the fatal error "fio_select not called!" of `do_dummy`, whatever
the arguments are. -/
theorem do_call_after_fio_open (E : Env) (J : Junk) (ops : List Op) (is : List Nat) (g g1 : Gmx)
    (w : World) (fn : Option (List Nat)) (mode : List Nat) (h : Nat)
    (item : Option (List Nat)) (nitem eio : Int) (desc : List Nat)
    (hrun : run E ops Gmx.init = .ok (is, g))
    (hopen : fio_open E w fn mode g = .ok (h, g1)) :
    g1.do_read = g.do_read ∧ g1.do_write = g.do_write ∧ h ≤ g.nFIO ∧
    (h < g.nFIO → g1.curfio = g.curfio) ∧
    (h = g.nFIO → g1.curfio = none ∧
      (g1.do_read ≠ .do_dummy → do_call E J g1.do_read g1 item nitem eio desc = .undefined) ∧
      (g1.do_write ≠ .do_dummy → do_call E J g1.do_write g1 item nitem eio desc = .undefined)) ∧
    (unselected ops true = true →
      do_call E J g1.do_read g1 item nitem eio desc = .fatal "fio_select not called!" ∧
      do_call E J g1.do_write g1 item nitem eio desc = .fatal "fio_select not called!") := by
  obtain ⟨d1, d2, _, _, d3, d4, d5⟩ := fio_open_dispatch E w fn mode g g1 h hopen
  refine ⟨d1, d2, d3, d4, ?_, ?_⟩
  · intro he
    exact ⟨d5 he, do_call_dangling E J _ g1 item nitem eio desc (d5 he),
      do_call_dangling E J _ g1 item nitem eio desc (d5 he)⟩
  · intro hun
    obtain ⟨e1, e2⟩ := run_unselected E ops true Gmx.init g is hrun hun (fun _ => ⟨rfl, rfl⟩)
    rw [d1, d2, e1, e2]
    exact ⟨rfl, rfl⟩

/-- C10, at the history open, select, close, open: the call after the second open
fails in `do_dummy`. -/
theorem do_call_after_fio_open_witness :
    (run host [Op.fio_open (world .efTPA (str "5\n")) (some (str "a")) (str "r"),
        Op.fio_select 0, Op.fio_close 0] Gmx.init).bind (fun r => .ok r.1) = .ok [0] ∧
    unselected [Op.fio_open (world .efTPA (str "5\n")) (some (str "a")) (str "r"),
        Op.fio_select 0, Op.fio_close 0] true = true ∧
    ∃ g1, fio_open host (world .efTPA (str "5\n")) (some (str "a")) (str "r")
        { Gmx.init with
          curfio := some 0,
          FIO := [{ stream_handle .efTPA (str "5\n") 0 with
            bOpen := false, bRead := true, fn := str "a" }] } = .ok (0, g1) ∧
      do_call host junk0 g1.do_read g1 (some [0, 0, 0, 0]) 1 eioINT []
        = .fatal "fio_select not called!" ∧
      do_call host junk0 g1.do_write g1 (some [0, 0, 0, 0]) 1 eioINT []
        = .fatal "fio_select not called!" :=
  ⟨by decide, by decide, _, rfl,
    (do_call_after_fio_open host junk0
      [Op.fio_open (world .efTPA (str "5\n")) (some (str "a")) (str "r"),
        Op.fio_select 0, Op.fio_close 0] [0]
      { Gmx.init with
        curfio := some 0,
        FIO := [{ stream_handle .efTPA (str "5\n") 0 with
            bOpen := false, bRead := true, fn := str "a" }] } _
      (world .efTPA (str "5\n")) (some (str "a")) (str "r") 0 (some [0, 0, 0, 0]) 1 eioINT []
      (by decide) rfl).2.2.2.2.2 (by decide)⟩

/-- C10 as stated fails: after the history open A, open B, close B, select A, the
next `fio_open` returns the index 1 of the freed slot, without touching the table's
size, `do_read` or `do_write`; before any `fio_select` of the new handle an INT
read through `do_read` runs `do_ascread` on the stream of A and takes "5" from it. -/
theorem do_call_after_select_counterexample :
    (run host [Op.fio_open (world .efTPA (str "5\n")) (some (str "a")) (str "r"),
        Op.fio_open (world .efTPA []) (some (str "b")) (str "w"),
        Op.fio_close 1, Op.fio_select 0,
        Op.fio_open (world .efTPA []) (some (str "c")) (str "w")] Gmx.init).bind
        (fun r => .ok (r.1, r.2.do_read, r.2.do_write, r.2.curfio, Gmx.nFIO r.2))
      = .ok ([0, 1, 1], .do_ascread, .do_ascwrite, some 0, 2) ∧
    (run host [Op.fio_open (world .efTPA (str "5\n")) (some (str "a")) (str "r"),
        Op.fio_open (world .efTPA []) (some (str "b")) (str "w"),
        Op.fio_close 1, Op.fio_select 0,
        Op.fio_open (world .efTPA []) (some (str "c")) (str "w")] Gmx.init).bind
        (fun r => (do_call host junk0 r.2.do_read r.2 (some [0, 0, 0, 0]) 1 eioINT []).bind
          fun c => .ok (c.1, c.2.1, List.map (fun f => f.fp) ( Gmx.FIO c.2.2)))
      = .ok (true, some [5, 0, 0, 0], [some ⟨str "5\n", 2⟩, some ⟨[], 0⟩]) := by
  decide


/-! ## The registry: the dispatch after `fio_close` -/

theorem slot_some (g : Gmx) (fio : Int) (h0 : 0 ≤ fio) (h1 : fio < g.nFIO) :
    ∃ f, g.FIO.get? fio.toNat = some f := by
  have h : fio.toNat < g.FIO.length := by
    have : (fio.toNat : Int) < (g.FIO.length : Int) := by
      rw [Int.toNat_of_nonneg h0]
      exact h1
    exact_mod_cast this
  exact ⟨g.FIO.get ⟨fio.toNat, h⟩, List.get?_eq_get h⟩

theorem fio_check_fatal (g : Gmx) (fio : Int) (h : fio < 0 ∨ fio ≥ g.nFIO) :
    fio_check g fio = .fatal "Trying to access non-open file %d, in %s, line %d" := by
  unfold fio_check
  rw [if_pos h]

/-- C12, the part that the code has, and where it departs: an index that is
negative or not below `nFIO` makes every operation that takes an index end in the
fatal error of `_fio_check`, before anything is read or changed. But `_fio_check`
tests the range only, not `bOpen`: on the slot 0 that `fio_open` filled and
`fio_close` closed, `fio_getread` and `fio_getftp` return the stale values,
`fio_setprecision` and `fio_setdebug` change the slot, `fio_select` installs the
text backend and makes the closed slot current, and a second `fio_close`, which
releases the stream and the name again, has no defined behaviour. -/
theorem fio_check_range_only (E : Env) (w : World) (g : Gmx) (fio : Int) (b : Bool) (ftp : Ftp)
    (fpos : Int) (hbad : fio < 0 ∨ fio ≥ g.nFIO) :
    (fio_close g fio = .fatal "Trying to access non-open file %d, in %s, line %d" ∧
      fio_select E g fio = .fatal "Trying to access non-open file %d, in %s, line %d" ∧
      fio_setprecision g fio b = .fatal "Trying to access non-open file %d, in %s, line %d" ∧
      fio_getdebug g fio = .fatal "Trying to access non-open file %d, in %s, line %d" ∧
      fio_setdebug g fio b = .fatal "Trying to access non-open file %d, in %s, line %d" ∧
      fio_getname g fio = .fatal "Trying to access non-open file %d, in %s, line %d" ∧
      fio_setftp g fio ftp = .fatal "Trying to access non-open file %d, in %s, line %d" ∧
      fio_getftp g fio = .fatal "Trying to access non-open file %d, in %s, line %d" ∧
      fio_rewind w g fio = .fatal "Trying to access non-open file %d, in %s, line %d" ∧
      fio_flush g fio = .fatal "Trying to access non-open file %d, in %s, line %d" ∧
      fio_ftell g fio = .fatal "Trying to access non-open file %d, in %s, line %d" ∧
      fio_seek g fio fpos = .fatal "Trying to access non-open file %d, in %s, line %d" ∧
      fio_getfp g fio = .fatal "Trying to access non-open file %d, in %s, line %d" ∧
      fio_getxdr g fio = .fatal "Trying to access non-open file %d, in %s, line %d" ∧
      fio_getread g fio = .fatal "Trying to access non-open file %d, in %s, line %d") ∧
    (run host [Op.fio_open (world .efTPA (str "5\n")) (some (str "a")) (str "r"),
        Op.fio_close 0] Gmx.init).bind
        (fun r => .ok (r.1, List.map (fun f => f.bOpen) ( Gmx.FIO r.2))) = .ok ([0], [false]) ∧
    (run host [Op.fio_open (world .efTPA (str "5\n")) (some (str "a")) (str "r"),
        Op.fio_close 0] Gmx.init).bind
        (fun r => (fio_setprecision r.2 0 true).bind fun g1 =>
          .ok (List.map (fun f => f.bDouble) ( Gmx.FIO r.2),
            List.map (fun f => f.bDouble) ( Gmx.FIO g1))) = .ok ([false], [true]) ∧
    (run host [Op.fio_open (world .efTPA (str "5\n")) (some (str "a")) (str "r"),
        Op.fio_close 0] Gmx.init).bind
        (fun r => (fio_setdebug r.2 0 true).bind fun g1 =>
          .ok (List.map (fun f => f.bDebug) ( Gmx.FIO g1))) = .ok [true] ∧
    (run host [Op.fio_open (world .efTPA (str "5\n")) (some (str "a")) (str "r"),
        Op.fio_close 0] Gmx.init).bind (fun r => fio_getread r.2 0) = .ok true ∧
    (run host [Op.fio_open (world .efTPA (str "5\n")) (some (str "a")) (str "r"),
        Op.fio_close 0] Gmx.init).bind (fun r => fio_getftp r.2 0) = .ok .efTPA ∧
    (run host [Op.fio_open (world .efTPA (str "5\n")) (some (str "a")) (str "r"),
        Op.fio_close 0] Gmx.init).bind
        (fun r => (fio_select host r.2 0).bind fun g1 => .ok (g1.do_read, g1.curfio))
      = .ok (.do_ascread, some 0) ∧
    (run host [Op.fio_open (world .efTPA (str "5\n")) (some (str "a")) (str "r"),
        Op.fio_close 0] Gmx.init).bind (fun r => fio_close r.2 0) = .undefined := by
  have hc := fio_check_fatal g fio hbad
  refine ⟨⟨?_, ?_, ?_, ?_, ?_, ?_, ?_, ?_, ?_, ?_, ?_, ?_, ?_, ?_, ?_⟩,
    by decide, by decide, by decide, by decide, by decide, by decide, by decide⟩
  · unfold fio_close; rw [hc]; rfl
  · unfold fio_select; rw [hc]; rfl
  · unfold fio_setprecision; rw [hc]; rfl
  · unfold fio_getdebug; rw [hc]; rfl
  · unfold fio_setdebug; rw [hc]; rfl
  · unfold fio_getname; rw [hc]; rfl
  · unfold fio_setftp; rw [hc]; rfl
  · unfold fio_getftp; rw [hc]; rfl
  · unfold fio_rewind; rw [hc]; rfl
  · unfold fio_flush; rw [hc]; rfl
  · unfold fio_ftell; rw [hc]; rfl
  · unfold fio_seek; rw [hc]; rfl
  · unfold fio_getfp; rw [hc]; rfl
  · unfold fio_getxdr; rw [hc]; rfl
  · unfold fio_getread; rw [hc]; rfl

/-- C12, at the index 1 of a table that has the single slot 0: `fio_setprecision`
ends in the fatal error. -/
theorem fio_check_range_only_witness :
    ((1 : Int) < 0 ∨ (1 : Int) ≥ Gmx.nFIO { Gmx.init with FIO := [stream_handle .efTPA [] 0] }) ∧
    fio_setprecision { Gmx.init with FIO := [stream_handle .efTPA [] 0] } 1 true
      = .fatal "Trying to access non-open file %d, in %s, line %d" :=
  ⟨by decide,
    (fio_check_range_only host (world .efTPA []) { Gmx.init with FIO := [stream_handle .efTPA [] 0] }
      1 true .efTPA 0 (by decide)).1.2.2.1⟩


/-! ## The registry: `fio_select` -/

theorem ftpsets_disjoint (ftp : Ftp) :
    ¬ (in_ftpset ftp ftpXDR = true ∧ in_ftpset ftp ftpASC = true) ∧
    ¬ (in_ftpset ftp ftpXDR = true ∧ in_ftpset ftp ftpBIN = true) ∧
    ¬ (in_ftpset ftp ftpASC = true ∧ in_ftpset ftp ftpBIN = true) := by
  cases ftp <;> simp [in_ftpset, ftpXDR, ftpASC, ftpBIN]

/-- C13, the part that the code has, and where it departs. The three sets are
pairwise disjoint. For an index in range, `fio_select` installs `do_xdr` for both
directions when the tag of the slot is in `ftpXDR` (in a build with `USE_XDR`),
`do_ascread` and `do_ascwrite` when it is in `ftpASC`, `do_binread` and
`do_binwrite` when it is in `ftpBIN`, and makes the slot the current one. When the
tag is in none of the sets, the argument `ftp2ext(curfio->iFTP)` of the fatal error
is evaluated first: the call ends in the fatal error when some handle was selected
before, and has no defined behaviour when `curfio` is still NULL. -/
theorem fio_select_partition (E : Env) (g : Gmx) (fio : Int) (f : t_fileio)
    (h0 : 0 ≤ fio) (h1 : fio < g.nFIO) (hf : g.FIO.get? fio.toNat = some f) :
    (∀ ftp : Ftp,
      ¬ (in_ftpset ftp ftpXDR = true ∧ in_ftpset ftp ftpASC = true) ∧
      ¬ (in_ftpset ftp ftpXDR = true ∧ in_ftpset ftp ftpBIN = true) ∧
      ¬ (in_ftpset ftp ftpASC = true ∧ in_ftpset ftp ftpBIN = true)) ∧
    (in_ftpset f.iFTP ftpXDR = true → E.USE_XDR = true →
      fio_select E g fio
        = .ok { g with do_read := .do_xdr, do_write := .do_xdr, curfio := some fio.toNat }) ∧
    (in_ftpset f.iFTP ftpASC = true →
      fio_select E g fio
        = .ok { g with do_read := .do_ascread, do_write := .do_ascwrite,
                       curfio := some fio.toNat }) ∧
    (in_ftpset f.iFTP ftpBIN = true →
      fio_select E g fio
        = .ok { g with do_read := .do_binread, do_write := .do_binwrite,
                       curfio := some fio.toNat }) ∧
    (in_ftpset f.iFTP ftpXDR = false → in_ftpset f.iFTP ftpASC = false →
      in_ftpset f.iFTP ftpBIN = false →
      (g.curfio ≠ none →
        fio_select E g fio = .fatal "Can not read/write topologies to file type %s") ∧
      (g.curfio = none → fio_select E g fio = .undefined)) := by
  have hc := fio_check_pass g fio h0 h1
  refine ⟨ftpsets_disjoint, ?_, ?_, ?_, ?_⟩
  · intro hx hu
    unfold fio_select
    rw [hc, bind_ok, hf]
    simp [deref, Res.bind, hx, hu]
  · intro ha
    have hx : in_ftpset f.iFTP ftpXDR = false := by
      have := (ftpsets_disjoint f.iFTP).1
      cases h : in_ftpset f.iFTP ftpXDR
      · rfl
      · exact absurd ⟨h, ha⟩ this
    unfold fio_select
    rw [hc, bind_ok, hf]
    simp [deref, Res.bind, hx, ha]
  · intro hb
    have hx : in_ftpset f.iFTP ftpXDR = false := by
      have := (ftpsets_disjoint f.iFTP).2.1
      cases h : in_ftpset f.iFTP ftpXDR
      · rfl
      · exact absurd ⟨h, hb⟩ this
    have ha : in_ftpset f.iFTP ftpASC = false := by
      have := (ftpsets_disjoint f.iFTP).2.2
      cases h : in_ftpset f.iFTP ftpASC
      · rfl
      · exact absurd ⟨h, hb⟩ this
    unfold fio_select
    rw [hc, bind_ok, hf]
    simp [deref, Res.bind, hx, ha, hb]
  · intro hx ha hb
    constructor
    · intro hcur
      obtain ⟨k, hk⟩ := Option.ne_none_iff_exists'.1 hcur
      unfold fio_select
      rw [hc, bind_ok, hf]
      simp [deref, Res.bind, hx, ha, hb, hk]
    · intro hcur
      unfold fio_select
      rw [hc, bind_ok, hf]
      simp [deref, Res.bind, hx, ha, hb, hcur]

/-- C13, at the first `fio_select` of a program, on a handle whose file type is in
none of the three sets: the call has no defined behaviour. -/
theorem fio_select_partition_witness :
    (run host [Op.fio_open (world (.efOther 0) []) (some (str "a")) (str "r")] Gmx.init).bind
        (fun r => .ok (r.1, r.2.curfio, List.map (fun f => f.iFTP) ( Gmx.FIO r.2)))
      = .ok ([0], none, [.efOther 0]) ∧
    fio_select host { Gmx.init with FIO := [stream_handle (.efOther 0) [] 0] } 0 = .undefined :=
  ⟨by decide,
    ((fio_select_partition host { Gmx.init with FIO := [stream_handle (.efOther 0) [] 0] } 0
      (stream_handle (.efOther 0) [] 0) (by decide) (by decide) rfl).2.2.2.2 rfl rfl rfl).2 rfl⟩


/-! ## The portable-binary backend and the precision flag -/

theorem xdr_write_write (x : XDR) (a b : List Nat) : (x.write a).write b = x.write (a ++ b) := by
  have h := write_write ⟨x.data, x.pos⟩ a b
  have hd := congrArg FILE.data h
  have hp := congrArg FILE.pos h
  simp only [FILE.write] at hd hp
  simp only [XDR.write]
  rw [hd, hp]

theorem xdr_write_encode (x : XDR) (a : List Nat) : (x.write a).encode = x.encode := rfl

theorem xdr_prim_encode (x : XDR) (n v : Nat) (h : x.encode = true) :
    xdr_prim x n v = (true, v, x.write (le_bytes n v).reverse) := by
  simp [xdr_prim, h]

theorem xdr_vector_encode (width : Nat) (x : XDR) (a b c : Nat) (h : x.encode = true) :
    xdr_vector width DIM x [a, b, c] = (true, [a, b, c],
      x.write ((le_bytes width a).reverse ++ ((le_bytes width b).reverse ++
        ((le_bytes width c).reverse ++ [])))) := by
  have h1 : (x.write (le_bytes width a).reverse).encode = true := h
  have h2 : ((x.write (le_bytes width a).reverse).write (le_bytes width b).reverse).encode
      = true := h
  have h3 : (x.write ((le_bytes width a).reverse ++ (le_bytes width b).reverse)).encode
      = true := h
  simp only [DIM, xdr_vector, List.headD_cons, List.tail_cons, xdr_prim_encode x _ _ h,
    xdr_prim_encode _ _ _ h1, xdr_prim_encode _ _ _ h2, xdr_prim_encode _ _ _ h3, if_true,
    xdr_write_write,
    List.append_assoc, List.append_nil]

theorem poke_length (m : List Nat) (off : Nat) (bs m1 : List Nat) (h : poke m off bs = some m1) :
    m1.length = m.length := by
  unfold poke at h
  split at h
  · injection h with h
    subst h
    simp only [List.length_append, List.length_take, List.length_drop]
    omega
  · simp at h

theorem poke_drop (m : List Nat) (off : Nat) (bs m1 : List Nat) (h : poke m off bs = some m1)
    (o : Nat) (ho : off + bs.length ≤ o) : m1.drop o = m.drop o := by
  unfold poke at h
  split at h
  · rename_i hle
    injection h with h
    subst h
    have hl : (m.take off ++ bs).length = off + bs.length := by
      rw [List.length_append, List.length_take]
      omega
    rw [List.drop_append_eq_append_drop, List.drop_eq_nil_of_le (by omega), List.nil_append, hl,
      List.drop_drop]
    congr 1
    omega
  · simp at h

theorem load_real_in (E : Env) (m : List Nat) (k : Nat)
    (h : E.sizeof_real * k + E.sizeof_real ≤ m.length) :
    load_real E (some m) k
      = .ok (le_val ((m.drop (E.sizeof_real * k)).take E.sizeof_real)) := by
  simp [load_real, peek, h, deref]

theorem store_if_in (m : List Nat) (off : Nat) (bs : List Nat) (h : off + bs.length ≤ m.length) :
    ∃ m1, store_if (some m) off bs = .ok (some m1) ∧ m1.length = m.length ∧
      ∀ o, off + bs.length ≤ o → m1.drop o = m.drop o := by
  have hp : poke m off bs = some (m.take off ++ bs ++ m.drop (off + bs.length)) := by
    simp [poke, h]
  refine ⟨_, ?_, poke_length m off bs _ hp, poke_drop m off bs _ hp⟩
  simp [store_if, store, hp, deref, Res.bind]

theorem xdr_rvec_encode (E : Env) (J : Junk) (b : Bool) (k : Nat) (m : List Nat) (x : XDR)
    (henc : x.encode = true) (hm : E.sizeof_real * (DIM * (k + 1)) ≤ m.length) :
    ∃ m1, m1.length = m.length ∧
      (∀ o, E.sizeof_real * (DIM * (k + 1)) ≤ o → m1.drop o = m.drop o) ∧
      xdr_rvec E J b k { res := true, item := some m, x := x }
        = .ok { res := true, item := some m1,
                x := x.write ((List.range' (DIM * k) DIM).flatMap fun i =>
                  (le_bytes (if b then 8 else 4)
                    (if b then real_to_double E
                        (le_val ((m.drop (E.sizeof_real * i)).take E.sizeof_real))
                      else real_to_float E
                        (le_val ((m.drop (E.sizeof_real * i)).take E.sizeof_real)))).reverse) } := by
  have hm3 : E.sizeof_real * (3 * k) + 3 * E.sizeof_real ≤ m.length := by
    simp only [DIM] at hm
    have : E.sizeof_real * (3 * (k + 1)) = E.sizeof_real * (3 * k) + 3 * E.sizeof_real := by ring
    omega
  have ha := load_real_in E m (DIM * k) (by
    simp only [DIM]
    omega)
  have hc := load_real_in E m (DIM * k + 1) (by
    simp only [DIM]
    have : E.sizeof_real * (3 * k + 1) = E.sizeof_real * (3 * k) + E.sizeof_real := by ring
    omega)
  have hd := load_real_in E m (DIM * k + 2) (by
    simp only [DIM]
    have : E.sizeof_real * (3 * k + 2) = E.sizeof_real * (3 * k) + 2 * E.sizeof_real := by ring
    omega)
  unfold xdr_rvec
  simp only [ha, hc, hd, bind_ok]
  rw [xdr_vector_encode _ x _ _ _ henc]
  simp only []
  obtain ⟨m1, hs, hl, hdrop⟩ := store_if_in m (E.sizeof_real * (DIM * k))
    (real_bytes E (if b then double_to_real E
        (List.getD [if b then real_to_double E
            (le_val ((m.drop (E.sizeof_real * (DIM * k))).take E.sizeof_real))
          else real_to_float E
            (le_val ((m.drop (E.sizeof_real * (DIM * k))).take E.sizeof_real)),
          if b then real_to_double E
            (le_val ((m.drop (E.sizeof_real * (DIM * k + 1))).take E.sizeof_real))
          else real_to_float E
            (le_val ((m.drop (E.sizeof_real * (DIM * k + 1))).take E.sizeof_real)),
          if b then real_to_double E
            (le_val ((m.drop (E.sizeof_real * (DIM * k + 2))).take E.sizeof_real))
          else real_to_float E
            (le_val ((m.drop (E.sizeof_real * (DIM * k + 2))).take E.sizeof_real))] 0 0)
      else float_to_real E
        (List.getD [if b then real_to_double E
            (le_val ((m.drop (E.sizeof_real * (DIM * k))).take E.sizeof_real))
          else real_to_float E
            (le_val ((m.drop (E.sizeof_real * (DIM * k))).take E.sizeof_real)),
          if b then real_to_double E
            (le_val ((m.drop (E.sizeof_real * (DIM * k + 1))).take E.sizeof_real))
          else real_to_float E
            (le_val ((m.drop (E.sizeof_real * (DIM * k + 1))).take E.sizeof_real)),
          if b then real_to_double E
            (le_val ((m.drop (E.sizeof_real * (DIM * k + 2))).take E.sizeof_real))
          else real_to_float E
            (le_val ((m.drop (E.sizeof_real * (DIM * k + 2))).take E.sizeof_real))] 0 0)) ++
      real_bytes E (if b then double_to_real E
        (List.getD [if b then real_to_double E
            (le_val ((m.drop (E.sizeof_real * (DIM * k))).take E.sizeof_real))
          else real_to_float E
            (le_val ((m.drop (E.sizeof_real * (DIM * k))).take E.sizeof_real)),
          if b then real_to_double E
            (le_val ((m.drop (E.sizeof_real * (DIM * k + 1))).take E.sizeof_real))
          else real_to_float E
            (le_val ((m.drop (E.sizeof_real * (DIM * k + 1))).take E.sizeof_real)),
          if b then real_to_double E
            (le_val ((m.drop (E.sizeof_real * (DIM * k + 2))).take E.sizeof_real))
          else real_to_float E
            (le_val ((m.drop (E.sizeof_real * (DIM * k + 2))).take E.sizeof_real))] 1 0)
      else float_to_real E
        (List.getD [if b then real_to_double E
            (le_val ((m.drop (E.sizeof_real * (DIM * k))).take E.sizeof_real))
          else real_to_float E
            (le_val ((m.drop (E.sizeof_real * (DIM * k))).take E.sizeof_real)),
          if b then real_to_double E
            (le_val ((m.drop (E.sizeof_real * (DIM * k + 1))).take E.sizeof_real))
          else real_to_float E
            (le_val ((m.drop (E.sizeof_real * (DIM * k + 1))).take E.sizeof_real)),
          if b then real_to_double E
            (le_val ((m.drop (E.sizeof_real * (DIM * k + 2))).take E.sizeof_real))
          else real_to_float E
            (le_val ((m.drop (E.sizeof_real * (DIM * k + 2))).take E.sizeof_real))] 1 0)) ++
      real_bytes E (if b then double_to_real E
        (List.getD [if b then real_to_double E
            (le_val ((m.drop (E.sizeof_real * (DIM * k))).take E.sizeof_real))
          else real_to_float E
            (le_val ((m.drop (E.sizeof_real * (DIM * k))).take E.sizeof_real)),
          if b then real_to_double E
            (le_val ((m.drop (E.sizeof_real * (DIM * k + 1))).take E.sizeof_real))
          else real_to_float E
            (le_val ((m.drop (E.sizeof_real * (DIM * k + 1))).take E.sizeof_real)),
          if b then real_to_double E
            (le_val ((m.drop (E.sizeof_real * (DIM * k + 2))).take E.sizeof_real))
          else real_to_float E
            (le_val ((m.drop (E.sizeof_real * (DIM * k + 2))).take E.sizeof_real))] 2 0)
      else float_to_real E
        (List.getD [if b then real_to_double E
            (le_val ((m.drop (E.sizeof_real * (DIM * k))).take E.sizeof_real))
          else real_to_float E
            (le_val ((m.drop (E.sizeof_real * (DIM * k))).take E.sizeof_real)),
          if b then real_to_double E
            (le_val ((m.drop (E.sizeof_real * (DIM * k + 1))).take E.sizeof_real))
          else real_to_float E
            (le_val ((m.drop (E.sizeof_real * (DIM * k + 1))).take E.sizeof_real)),
          if b then real_to_double E
            (le_val ((m.drop (E.sizeof_real * (DIM * k + 2))).take E.sizeof_real))
          else real_to_float E
            (le_val ((m.drop (E.sizeof_real * (DIM * k + 2))).take E.sizeof_real))] 2 0)))
    (by
      simp only [List.length_append, real_bytes, le_bytes_length, DIM]
      omega)
  rw [hs, bind_ok]
  refine ⟨m1, hl, ?_, rfl⟩
  intro o ho
  apply hdrop
  simp only [List.length_append, real_bytes, le_bytes_length, DIM] at ho ⊢
  have : E.sizeof_real * (3 * (k + 1)) = E.sizeof_real * (3 * k) + 3 * E.sizeof_real := by ring
  omega

theorem flatMap_congr_mem (l : List Nat) (f g : Nat → List Nat) (h : ∀ i ∈ l, f i = g i) :
    l.flatMap f = l.flatMap g := by
  induction l with
  | nil => rfl
  | cons a l ih =>
    rw [List.flatMap_cons, List.flatMap_cons, h a (by simp),
      ih (fun i hi => h i (List.mem_cons_of_mem a hi))]

theorem xdr_rvecs_encode (E : Env) (J : Junk) (b : Bool) (n : Nat) :
    ∀ (j : Nat) (m : List Nat) (x : XDR), x.encode = true →
      E.sizeof_real * (DIM * (j + n + 1)) ≤ m.length →
      ∃ m1, m1.length = m.length ∧
        xdr_rvecs E J b (n + 1) j { res := true, item := some m, x := x }
          = .ok { res := true, item := some m1,
                  x := x.write ((List.range' (DIM * j) (DIM * (n + 1))).flatMap fun i =>
                    (le_bytes (if b then 8 else 4)
                      (if b then real_to_double E
                          (le_val ((m.drop (E.sizeof_real * i)).take E.sizeof_real))
                        else real_to_float E
                          (le_val ((m.drop (E.sizeof_real * i)).take E.sizeof_real)))).reverse) } := by
  induction n with
  | zero =>
    intro j m x henc hm
    obtain ⟨m1, h1, _, h3⟩ := xdr_rvec_encode E J b j m x henc hm
    refine ⟨m1, h1, ?_⟩
    simp only [xdr_rvecs, if_true, h3, bind_ok, Nat.zero_add, Nat.mul_one]
  | succ n ih =>
    intro j m x henc hm
    obtain ⟨m1, h1, hdrop, h3⟩ := xdr_rvec_encode E J b j m x henc (by
      have : E.sizeof_real * (DIM * (j + 1)) ≤ E.sizeof_real * (DIM * (j + (n + 1) + 1)) :=
        Nat.mul_le_mul_left _ (Nat.mul_le_mul_left _ (by omega))
      omega)
    obtain ⟨B1, hB1⟩ : ∃ B1, B1 = ((List.range' (DIM * j) DIM).flatMap fun i =>
        (le_bytes (if b then 8 else 4)
          (if b then real_to_double E
              (le_val ((m.drop (E.sizeof_real * i)).take E.sizeof_real))
            else real_to_float E
              (le_val ((m.drop (E.sizeof_real * i)).take E.sizeof_real)))).reverse) := ⟨_, rfl⟩
    rw [← hB1] at h3
    obtain ⟨m2, g1, g3⟩ := ih (j + 1) m1 (x.write B1) (by rw [xdr_write_encode]; exact henc)
      (by
        rw [h1]
        have : j + 1 + n + 1 = j + (n + 1) + 1 := by omega
        rw [this]
        exact hm)
    refine ⟨m2, by rw [g1, h1], ?_⟩
    rw [xdr_rvecs]
    simp only [if_true]
    rw [h3, bind_ok, g3, xdr_write_write]
    have hcongr := flatMap_congr_mem (List.range' (DIM * (j + 1)) (DIM * (n + 1)))
      (fun i => (le_bytes (if b then 8 else 4)
        (if b then real_to_double E
            (le_val ((m1.drop (E.sizeof_real * i)).take E.sizeof_real))
          else real_to_float E
            (le_val ((m1.drop (E.sizeof_real * i)).take E.sizeof_real)))).reverse)
      (fun i => (le_bytes (if b then 8 else 4)
        (if b then real_to_double E
            (le_val ((m.drop (E.sizeof_real * i)).take E.sizeof_real))
          else real_to_float E
            (le_val ((m.drop (E.sizeof_real * i)).take E.sizeof_real)))).reverse)
      (by
        intro i hi
        have hge : DIM * (j + 1) ≤ i := (List.mem_range'_1.1 hi).1
        show (le_bytes (if b then 8 else 4)
            (if b then real_to_double E
                (le_val ((m1.drop (E.sizeof_real * i)).take E.sizeof_real))
              else real_to_float E
                (le_val ((m1.drop (E.sizeof_real * i)).take E.sizeof_real)))).reverse = _
        rw [hdrop (E.sizeof_real * i) (Nat.mul_le_mul_left _ hge)])
    rw [hcongr, hB1, ← List.flatMap_append]
    have hr : List.range' (DIM * j) DIM ++ List.range' (DIM * (j + 1)) (DIM * (n + 1))
        = List.range' (DIM * j) (DIM * (n + 1 + 1)) := by
      have := List.range'_append (DIM * j) DIM (DIM * (n + 1)) 1
      rw [Nat.one_mul] at this
      rw [Nat.mul_add DIM j 1, Nat.mul_one, this]
      congr 1
    rw [hr]

theorem bind_bind {α β γ : Type} (r : Res α) (f : α → Res β) (g : β → Res γ) :
    (r.bind f).bind g = r.bind fun a => (f a).bind g := by
  cases r <;> rfl

theorem do_xdr_flag_free (E : Env) (J : Junk) (cur : t_fileio) (item : Option (List Nat))
    (nitem eio : Int) (b : Bool)
    (hk : eio = eioINT ∨ eio = eioUSHORT ∨ eio = eioNUCHAR ∨ eio = eioIVEC ∨ eio = eioSTRING) :
    do_xdr E J { cur with bDouble := b } item nitem eio
      = (do_xdr E J cur item nitem eio).bind
          fun r => .ok (r.1, r.2.1, { r.2.2 with bDouble := b }) := by
  unfold do_xdr
  simp only [bind_bind, bind_ok]
  rcases hk with rfl | rfl | rfl | rfl | rfl <;>
    simp only [eioREAL, eioINT, eioNUCHAR, eioUSHORT, eioRVEC, eioNRVEC, eioIVEC, eioSTRING] <;>
    rfl

/-- C14: on a handle whose channel encodes, `do_xdr` of a REAL emits the value
converted to `double` as the 8 bytes of `xdr_double`, most significant first, when
the precision flag of the handle is set, and the value converted to `float` as the
4 bytes of `xdr_float` when it is clear; an RVEC emits its `DIM` components one
after the other, each in the same flag-selected way (24 or 12 bytes), and an NRVEC
of `n + 1` vectors the `DIM * (n + 1)` components of its vectors in order, which is
`n + 1` times the bytes of a vector. For the kinds INT, USHORT, NUCHAR, IVEC and
STRING the flag plays no part: with the flag set to any value the call returns the
same value, leaves the same storage and the same channel as without. -/
theorem do_xdr_precision (E : Env) (J : Junk) (cur : t_fileio) (x : XDR)
    (hx : cur.xdr = some x) (henc : x.encode = true) :
    (∀ m : List Nat, E.sizeof_real ≤ m.length →
      ∃ m1 bs, bs = (le_bytes (if cur.bDouble then 8 else 4)
            (if cur.bDouble then real_to_double E (le_val (m.take E.sizeof_real))
              else real_to_float E (le_val (m.take E.sizeof_real)))).reverse ∧
        bs.length = (if cur.bDouble then 8 else 4) ∧
        do_xdr E J cur (some m) 1 eioREAL
          = .ok (true, some m1, { cur with xdr := some (x.write bs) })) ∧
    (∀ m : List Nat, E.sizeof_real * DIM ≤ m.length →
      ∃ m1 bs, bs = ((List.range DIM).flatMap fun i =>
            (le_bytes (if cur.bDouble then 8 else 4)
              (if cur.bDouble then real_to_double E
                  (le_val ((m.drop (E.sizeof_real * i)).take E.sizeof_real))
                else real_to_float E
                  (le_val ((m.drop (E.sizeof_real * i)).take E.sizeof_real)))).reverse) ∧
        bs.length = DIM * (if cur.bDouble then 8 else 4) ∧
        do_xdr E J cur (some m) 1 eioRVEC
          = .ok (true, some m1, { cur with xdr := some (x.write bs) })) ∧
    (∀ (m : List Nat) (n : Nat), E.sizeof_real * (DIM * (n + 1)) ≤ m.length →
      ∃ m1 bs, bs = ((List.range (DIM * (n + 1))).flatMap fun i =>
            (le_bytes (if cur.bDouble then 8 else 4)
              (if cur.bDouble then real_to_double E
                  (le_val ((m.drop (E.sizeof_real * i)).take E.sizeof_real))
                else real_to_float E
                  (le_val ((m.drop (E.sizeof_real * i)).take E.sizeof_real)))).reverse) ∧
        bs.length = (n + 1) * (DIM * (if cur.bDouble then 8 else 4)) ∧
        do_xdr E J cur (some m) ((n + 1 : Nat) : Int) eioNRVEC
          = .ok (true, some m1, { cur with xdr := some (x.write bs) })) ∧
    (∀ (item : Option (List Nat)) (nitem eio : Int) (b : Bool),
      eio = eioINT ∨ eio = eioUSHORT ∨ eio = eioNUCHAR ∨ eio = eioIVEC ∨ eio = eioSTRING →
      do_xdr E J { cur with bDouble := b } item nitem eio
        = (do_xdr E J cur item nitem eio).bind
            fun r => .ok (r.1, r.2.1, { r.2.2 with bDouble := b })) := by
  have hlen : ∀ (k : Nat) (f : Nat → Nat),
      ((List.range k).flatMap fun i =>
        (le_bytes (if cur.bDouble then 8 else 4) (f i)).reverse).length
        = k * (if cur.bDouble then 8 else 4) := by
    intro k f
    induction k with
    | zero => simp
    | succ k ih =>
      rw [List.range_succ, List.flatMap_append, List.length_append, ih]
      simp only [List.flatMap_cons, List.flatMap_nil, List.append_nil, List.length_reverse,
        le_bytes_length]
      ring
  refine ⟨?_, ?_, ?_, fun item nitem eio b hk => do_xdr_flag_free E J cur item nitem eio b hk⟩
  · intro m hm
    have hv := load_real_in E m 0 (by simpa using hm)
    rw [Nat.mul_zero, List.drop_zero] at hv
    obtain ⟨m1, hs, _⟩ := store_if_in m 0
      (real_bytes E (if cur.bDouble then
          double_to_real E (if cur.bDouble then real_to_double E (le_val (m.take E.sizeof_real))
            else real_to_float E (le_val (m.take E.sizeof_real)))
        else float_to_real E (if cur.bDouble then real_to_double E (le_val (m.take E.sizeof_real))
            else real_to_float E (le_val (m.take E.sizeof_real)))))
      (by simpa [real_bytes, le_bytes_length] using hm)
    refine ⟨m1, _, rfl, by simp [le_bytes_length], ?_⟩
    unfold do_xdr
    simp only [check_nitem, eioREAL, eioNRVEC, eioNUCHAR]
    simp only [hx, deref, hv, bind_ok, xdr_prim_encode x _ _ henc]
    simp [Res.bind, hs]
  · intro m hm
    obtain ⟨m1, _, _, h3⟩ := xdr_rvec_encode E J cur.bDouble 0 m x henc (by simpa using hm)
    rw [Nat.mul_zero, ← List.range_eq_range'] at h3
    refine ⟨m1, _, rfl, hlen DIM _, ?_⟩
    unfold do_xdr
    simp only [check_nitem, eioREAL, eioINT, eioUSHORT, eioRVEC, eioNRVEC, eioNUCHAR]
    simp [hx, deref, Res.bind, h3]
  · intro m n hm
    obtain ⟨m1, _, h3⟩ := xdr_rvecs_encode E J cur.bDouble n 0 m x henc
      (by simpa using hm)
    rw [Nat.mul_zero, ← List.range_eq_range'] at h3
    refine ⟨m1, _, rfl, ?_, ?_⟩
    · rw [hlen]
      ring
    · unfold do_xdr
      simp only [check_nitem, eioREAL, eioINT, eioUSHORT, eioRVEC, eioNRVEC, eioNUCHAR]
      simp [hx, deref, Res.bind, h3]

/-- C14, at a REAL written to an empty channel: on the build whose `real` is
`float` with the flag clear the four bytes of the value, most significant first;
on the build whose `real` is `double` with the flag set its eight bytes; and on
the first build with the flag set eight bytes. -/
theorem do_xdr_precision_witness :
    (do_xdr host junk0 { stream_handle .efTRR [] 0 with fp := none, xdr := some ⟨true, [], 0⟩ }
        (some [1, 2, 3, 4]) 1 eioREAL).bind (fun r => .ok (r.1, r.2.2.xdr))
      = .ok (true, some ⟨true, [4, 3, 2, 1], 4⟩) ∧
    (do_xdr host_double junk0
        { stream_handle .efTRR [] 0 with fp := none, xdr := some ⟨true, [], 0⟩, bDouble := true }
        (some [1, 2, 3, 4, 5, 6, 7, 8]) 1 eioREAL).bind (fun r => .ok (r.1, r.2.2.xdr))
      = .ok (true, some ⟨true, [8, 7, 6, 5, 4, 3, 2, 1], 8⟩) ∧
    ∃ m1 bs, bs = (le_bytes 8 (real_to_double host (le_val [1, 2, 3, 4]))).reverse ∧
      bs.length = 8 ∧
      do_xdr host junk0
          { stream_handle .efTRR [] 0 with fp := none, xdr := some ⟨true, [], 0⟩, bDouble := true }
          (some [1, 2, 3, 4]) 1 eioREAL
        = .ok (true, some m1,
            { stream_handle .efTRR [] 0 with
              fp := none, xdr := some (XDR.write ⟨true, [], 0⟩ bs), bDouble := true }) :=
  ⟨by decide, by decide,
    (do_xdr_precision host junk0
      { stream_handle .efTRR [] 0 with fp := none, xdr := some ⟨true, [], 0⟩, bDouble := true }
      ⟨true, [], 0⟩ rfl rfl).1 [1, 2, 3, 4] (by decide)⟩

/-! ## The registry: the accessors -/

/-- C15 fails in the code: `fio_getname(fio)` checks `fio` and then returns
`curfio->fn`, the name of the selected handle, where its siblings read `FIO[fio]`.
After "a" and "b" were opened as handles 0 and 1 and handle 0 was selected,
`fio_getname(1)` returns "a"; before any `fio_select` it reads through the NULL
`curfio`. It returns the name the handle was opened with ("STDIO" without a file
name) when the handle asked for is the selected one. -/
theorem fio_getname_returns_current :
    (run host [Op.fio_open (world .efTPA []) (some (str "a")) (str "w"),
        Op.fio_open (world .efTPA []) (some (str "b")) (str "w"),
        Op.fio_select 0] Gmx.init).bind
        (fun r => .ok (r.1, List.map (fun f => (f.fn, f.bOpen)) ( Gmx.FIO r.2), r.2.curfio))
      = .ok ([0, 1], [(str "a", true), (str "b", true)], some 0) ∧
    (run host [Op.fio_open (world .efTPA []) (some (str "a")) (str "w"),
        Op.fio_open (world .efTPA []) (some (str "b")) (str "w"),
        Op.fio_select 0] Gmx.init).bind (fun r => fio_getname r.2 1) = .ok (str "a") ∧
    (run host [Op.fio_open (world .efTPA []) (some (str "a")) (str "w"),
        Op.fio_open (world .efTPA []) (some (str "b")) (str "w")] Gmx.init).bind
        (fun r => fio_getname r.2 1) = .undefined ∧
    (run host [Op.fio_open (world .efTPA []) (some (str "a")) (str "w"),
        Op.fio_open (world .efTPA []) (some (str "b")) (str "w"),
        Op.fio_select 1] Gmx.init).bind (fun r => fio_getname r.2 1) = .ok (str "b") ∧
    (run host [Op.fio_open (world .efTPA []) none (str "w"),
        Op.fio_select 0] Gmx.init).bind (fun r => fio_getname r.2 0) = .ok (str "STDIO") := by
  decide

/-- C16 (as amended): for an index in range, on a slot without a stream (as
`fio_open` leaves the slot of a portable-binary file) `fio_seek` ends in the fatal
error "Can not seek on file" while `fio_ftell` returns 0; on a slot with a stream
`fio_ftell` returns the position of the stream and `fio_seek` returns, with the
stream at the offset asked for when that is not negative. -/
theorem fio_seek_ftell_stream (g : Gmx) (fio : Int) (f : t_fileio) (fpos : Int)
    (h0 : 0 ≤ fio) (h1 : fio < g.nFIO) (hf : g.FIO.get? fio.toNat = some f) :
    (f.fp = none →
      fio_seek g fio fpos = .fatal "Can not seek on file %s" ∧ fio_ftell g fio = .ok 0) ∧
    (∀ fp, f.fp = some fp →
      fio_ftell g fio = .ok (fp.pos : Int) ∧
      (0 ≤ fpos → fio_seek g fio fpos
        = .ok { g with FIO := g.FIO.set fio.toNat { f with fp := some ⟨fp.data, fpos.toNat⟩ } }) ∧
      (fpos < 0 → fio_seek g fio fpos = .ok g)) := by
  have hc := fio_check_pass g fio h0 h1
  constructor
  · intro hn
    constructor
    · unfold fio_seek
      rw [hc, bind_ok, hf]
      simp [deref, Res.bind, hn]
    · unfold fio_ftell
      rw [hc, bind_ok, hf]
      simp [deref, Res.bind, hn]
  · intro fp hs
    refine ⟨?_, ?_, ?_⟩
    · unfold fio_ftell
      rw [hc, bind_ok, hf]
      simp [deref, Res.bind, hs]
    · intro hp
      unfold fio_seek
      rw [hc, bind_ok, hf]
      simp only [deref, Res.bind, hs]
      rw [if_neg (by omega)]
    · intro hp
      unfold fio_seek
      rw [hc, bind_ok, hf]
      simp only [deref, Res.bind, hs]
      rw [if_pos hp]

/-- C16, at a text handle at position 2 of its stream. -/
theorem fio_seek_ftell_stream_witness :
    fio_ftell { Gmx.init with FIO := [stream_handle .efTPA (str "5\n") 2] } 0 = .ok 2 ∧
    fio_seek { Gmx.init with FIO := [stream_handle .efTPA (str "5\n") 2] } 0 1
      = .ok { Gmx.init with FIO := [stream_handle .efTPA (str "5\n") 1] } :=
  ⟨((fio_seek_ftell_stream { Gmx.init with FIO := [stream_handle .efTPA (str "5\n") 2] } 0
      (stream_handle .efTPA (str "5\n") 2) 1 (by decide) (by decide) rfl).2
        ⟨str "5\n", 2⟩ rfl).1,
    ((fio_seek_ftell_stream { Gmx.init with FIO := [stream_handle .efTPA (str "5\n") 2] } 0
      (stream_handle .efTPA (str "5\n") 2) 1 (by decide) (by decide) rfl).2
        ⟨str "5\n", 2⟩ rfl).2.1 (by decide)⟩

/-- C16 as stated fails: on the handle of a portable-binary file, which has a
channel and no stream, `fio_ftell` returns 0; only `fio_seek` ends in a fatal
error. -/
theorem fio_ftell_xdr_counterexample :
    (run host [Op.fio_open (world .efTRR [1, 2, 3, 4]) (some (str "a")) (str "r")] Gmx.init).bind
        (fun r => .ok (r.1, List.map (fun f => (f.bOpen, f.fp, f.xdr)) ( Gmx.FIO r.2)))
      = .ok ([0], [(true, none, some ⟨false, [1, 2, 3, 4], 0⟩)]) ∧
    (run host [Op.fio_open (world .efTRR [1, 2, 3, 4]) (some (str "a")) (str "r")] Gmx.init).bind
        (fun r => fio_ftell r.2 0) = .ok 0 ∧
    (run host [Op.fio_open (world .efTRR [1, 2, 3, 4]) (some (str "a")) (str "r")] Gmx.init).bind
        (fun r => fio_seek r.2 0 0) = .fatal "Can not seek on file %s" :=
  ⟨by decide, by decide, by decide⟩

/-! ## The registry: what `fio_open` and `fio_close` leave -/

/-- C17, where the code departs from it: `fio_open` does not touch the scanner, so
the queue of pending tokens (`nbuf`) and the line buffer are after every call what
they were before, although the comment above `nbuf` says that it is reset when a
file is opened. After the INT "1" was read from the line "1 2" of a first text
file, the token "2" is still queued; a second text file holding "7" is then opened
and selected, the queue still holds one token, and the first INT read on the new
file returns 2 and leaves the new stream at its start. -/
theorem fio_open_keeps_stale_tokens (E : Env) (w : World) (fn : Option (List Nat))
    (mode : List Nat) (g : Gmx) :
    (∀ h g1, fio_open E w fn mode g = .ok (h, g1) → g1.scanner = g.scanner) ∧
    (run host [Op.fio_open (world .efTPA (str "1 2\n")) (some (str "a")) (str "r"),
        Op.fio_select 0] Gmx.init).bind (fun r =>
      (do_call host junk0 r.2.do_read r.2 (some [0, 0, 0, 0]) 1 eioINT []).bind fun c1 =>
      (run host [Op.fio_open (world .efTPA (str "7\n")) (some (str "b")) (str "r"),
        Op.fio_select 1] c1.2.2).bind fun r2 =>
      .ok (c1.2.1, r2.1, Scanner.nbuf r2.2.scanner))
      = .ok (some [1, 0, 0, 0], [1], 1) ∧
    (run host [Op.fio_open (world .efTPA (str "1 2\n")) (some (str "a")) (str "r"),
        Op.fio_select 0] Gmx.init).bind (fun r =>
      (do_call host junk0 r.2.do_read r.2 (some [0, 0, 0, 0]) 1 eioINT []).bind fun c1 =>
      (run host [Op.fio_open (world .efTPA (str "7\n")) (some (str "b")) (str "r"),
        Op.fio_select 1] c1.2.2).bind fun r2 =>
      (do_call host junk0 r2.2.do_read r2.2 (some [0, 0, 0, 0]) 1 eioINT []).bind fun c2 =>
      .ok (c2.1, c2.2.1, List.map (fun f => f.fp) ( Gmx.FIO c2.2.2)))
      = .ok (true, some [2, 0, 0, 0], [some ⟨str "1 2\n", 4⟩, some ⟨str "7\n", 0⟩]) :=
  ⟨fun h g1 hopen => (fio_open_dispatch E w fn mode g g1 h hopen).2.2.1, by decide, by decide⟩

/-- C18: in every state of the registry, `fio_open` returns exactly when the
collaborators let it through, and a `fio_open` that returns has taken an index
that is not the index of an open slot; the slot at that index is then open with
debug off, the precision flag telling whether `real` is `double`, and the read
flag telling whether the mode starts with `r`; every other slot is unchanged.
`fio_close(h)` returns on every open slot that holds what its format tag makes
`fio_close` release, and a `fio_close(h)` that returns has cleared the open flag
of slot `h`, which was open, has left its format tag, read flag, precision flag
and debug flag, and has left every other slot unchanged. -/
theorem fio_open_close_frame (E : Env) (w : World) (fn : Option (List Nat)) (mode : List Nat)
    (g : Gmx) :
    ((∃ i g1, fio_open E w fn mode g = .ok (i, g1)) ↔ fio_open_passes w fn mode) ∧
    (∀ i g1, fio_open E w fn mode g = .ok (i, g1) →
      (∀ f0, g.FIO.get? i = some f0 → f0.bOpen = false) ∧
      (∃ f, g1.FIO.get? i = some f ∧ f.bOpen = true ∧ f.bDebug = false ∧
        f.bDouble = decide (E.sizeof_real = 8) ∧ f.bRead = decide (mode.headD 0 = 114)) ∧
      (∀ j, j ≠ i → g1.FIO.get? j = g.FIO.get? j)) ∧
    (∀ (h : Int) (f : t_fileio), 0 ≤ h → h < g.nFIO → g.FIO.get? h.toNat = some f →
      f.bOpen = true → closable f → ∃ g1, fio_close g h = .ok g1) ∧
    (∀ (h : Int) (g1 : Gmx), fio_close g h = .ok g1 →
      ∃ f f1, g.FIO.get? h.toNat = some f ∧ f.bOpen = true ∧
        g1.FIO.get? h.toNat = some f1 ∧ f1.bOpen = false ∧ f1.iFTP = f.iFTP ∧
        f1.bRead = f.bRead ∧ f1.bDouble = f.bDouble ∧ f1.bDebug = f.bDebug ∧
        ∀ j, j ≠ h.toNat → g1.FIO.get? j = g.FIO.get? j) := by
  refine ⟨?_, ?_, ?_, ?_⟩
  · rw [← fio_open_passes_iff E w fn mode g]
    exact ⟨fun ⟨i, g1, h⟩ => ⟨(i, g1), h⟩, fun ⟨r, h⟩ => ⟨r.1, r.2, h⟩⟩
  · intro i g1 hopen
    obtain ⟨f, h1, h2, h3, h4, _, _, _, _, hi, hg1⟩ := fio_open_ok_shape E w fn mode g g1 i hopen
    obtain ⟨_, hget, hother⟩ := fio_open_slot_get g f
    rw [← hg1, ← hi] at hget hother
    refine ⟨?_, ⟨f, hget, h1, h2, h3, h4⟩, hother⟩
    intro f0 hf0
    have hge := find_slot_ge g.FIO 0
    have hlt : i < g.FIO.length := by
      by_contra hc
      rw [List.get?_eq_none.2 (by omega)] at hf0
      simp at hf0
    obtain ⟨f1, hf1, hf1o⟩ := find_slot_free g.FIO 0 (by rw [← hi]; omega)
    rw [← hi] at hf1
    simp only [Nat.sub_zero] at hf1
    rw [hf1] at hf0
    injection hf0 with hf0
    rw [← hf0]
    exact hf1o
  · intro h f h0 h1 hf hopen hcl
    exact ⟨_, fio_close_returns g h f h0 h1 hf hopen hcl⟩
  · intro h g1 hclose
    obtain ⟨_, _, f, hf, ho, hg1⟩ := fio_close_ok_shape g g1 h hclose
    have hlt : h.toNat < g.FIO.length := by
      by_contra hc
      rw [List.get?_eq_none.2 (by omega)] at hf
      simp at hf
    subst hg1
    refine ⟨f, { f with bOpen := false }, hf, ho, by simp [hlt], rfl, rfl, rfl, rfl, rfl, ?_⟩
    intro j hj
    simp only [List.get?_eq_getElem?]
    rw [List.getElem?_set_ne (Ne.symm hj)]

/-- C18, at a table with the open slot 0 and the closed slot 1: `fio_open` on
standard I/O returns and leaves slot 0 as it is. -/
theorem fio_open_close_frame_witness :
    (∃ i g1, fio_open host (world .efTPA []) none (str "w")
        { Gmx.init with
          FIO := [stream_handle .efTPB [1] 0,
            { stream_handle .efTPA [] 0 with bOpen := false }] } = .ok (i, g1)) ∧
    (fio_open host (world .efTPA []) none (str "w")
        { Gmx.init with
          FIO := [stream_handle .efTPB [1] 0,
            { stream_handle .efTPA [] 0 with bOpen := false }] }).bind
        (fun r => .ok (r.1, List.map (fun f => ((f.bOpen, f.bRead), (f.bDebug, f.bDouble)))
          ( Gmx.FIO r.2)))
      = .ok (1, [((true, false), (false, false)), ((true, false), (false, false))]) :=
  ⟨(fio_open_close_frame host (world .efTPA []) none (str "w")
      { Gmx.init with
        FIO := [stream_handle .efTPB [1] 0,
          { stream_handle .efTPA [] 0 with bOpen := false }] } ).1.2 (Or.inl rfl),
    by decide⟩


/-! ## The text backend: debug comments -/

theorem runs_from_comment (L r : List Nat) : ∀ cur : List Nat,
    runs_from cur ((L ++ 32 :: 32 :: 59 :: r).takeWhile (fun c => decide (c ≠ 59)))
      = runs_from cur (L.takeWhile (fun c => decide (c ≠ 59))) := by
  induction L with
  | nil =>
    intro cur
    simp [List.takeWhile_cons, runs_from, isspace]
  | cons c L ih =>
    intro cur
    rw [List.cons_append]
    by_cases hc : c = 59
    · subst hc
      simp [List.takeWhile_cons]
    · simp only [List.takeWhile_cons, decide_eq_true hc, if_true, runs_from]
      split
      · split
        · exact ih []
        · rw [ih []]
      · exact ih _

theorem line_tokens_comment (L r : List Nat) :
    line_tokens (L ++ 32 :: 32 :: 59 :: r) = line_tokens L := by
  unfold line_tokens runs
  exact runs_from_comment L r []

theorem lines_from_line (X rest : List Nat) (hX : 10 ∉ X) : ∀ cur : List Nat,
    lines_from cur (X ++ 10 :: rest) = (cur ++ X) :: lines_from [] rest := by
  induction X with
  | nil =>
    intro cur
    simp [lines_from]
  | cons c X ih =>
    intro cur
    have hc : c ≠ 10 := fun h => hX (by simp [h])
    have hX1 : 10 ∉ X := fun h => hX (by simp [h])
    rw [List.cons_append, lines_from, if_neg hc, ih hX1]
    simp

theorem lines_from_last (X : List Nat) (hX : 10 ∉ X) (cur : List Nat) :
    lines_from cur (X ++ [10]) = [cur ++ X] := by
  rw [lines_from_line X [] hX cur]
  simp [lines_from]

theorem lines_from_comment (P : List Nat → Prop) (bd d : List Nat) (hd : 10 ∉ d)
    (hP : ∀ l, P (l ++ d) → P l) : ∀ cur : List Nat,
    (∀ l ∈ lines_from cur (bd ++ (d ++ [10])), P l) → ∀ l ∈ lines_from cur (bd ++ [10]), P l := by
  induction bd with
  | nil =>
    intro cur h l hl
    rw [List.nil_append, lines_from_last d hd cur] at h
    have h2 := lines_from_last [] (by simp) cur
    rw [List.nil_append, List.append_nil] at h2
    rw [List.nil_append, h2] at hl
    rw [List.mem_singleton.1 hl]
    exact hP _ (h _ (List.mem_singleton.2 rfl))
  | cons c bd ih =>
    intro cur h l hl
    rw [List.cons_append, lines_from] at h hl
    by_cases hc : c = 10
    · rw [if_pos hc] at h hl
      rcases List.mem_cons.1 hl with rfl | hl
      · exact h _ (List.mem_cons_self _ _)
      · exact ih [] (fun x hx => h x (List.mem_cons_of_mem _ hx)) l hl
    · rw [if_neg hc] at h hl
      exact ih _ h l hl

theorem text_tokens_from_comment (bd d : List Nat) (hd : 10 ∉ d)
    (hdd : ∀ l, line_tokens (l ++ d) = line_tokens l) : ∀ cur : List Nat,
    (lines_from cur (bd ++ (d ++ [10]))).flatMap line_tokens
      = (lines_from cur (bd ++ [10])).flatMap line_tokens := by
  induction bd with
  | nil =>
    intro cur
    have h2 := lines_from_last [] (by simp) cur
    rw [List.nil_append, List.append_nil] at h2
    rw [List.nil_append, List.nil_append, lines_from_last d hd cur, h2]
    simp [hdd]
  | cons c bd ih =>
    intro cur
    rw [List.cons_append, List.cons_append, lines_from, lines_from]
    by_cases hc : c = 10
    · rw [if_pos hc, if_pos hc, List.flatMap_cons, List.flatMap_cons, ih []]
    · rw [if_neg hc, if_neg hc]
      exact ih _

theorem text_tokens_comment (bd r : List Nat) (hr : 10 ∉ r) :
    text_tokens (bd ++ (32 :: 32 :: 59 :: r) ++ [10]) = text_tokens (bd ++ [10]) := by
  unfold text_tokens lines
  rw [List.append_assoc]
  exact text_tokens_from_comment bd _ (by simpa using hr) (fun l => line_tokens_comment l r) []

theorem fits_comment (S : Nat) (bd r : List Nat) (hr : 10 ∉ r)
    (h : fits S (bd ++ (32 :: 32 :: 59 :: r) ++ [10])) : fits S (bd ++ [10]) := by
  unfold fits lines at h ⊢
  rw [List.append_assoc] at h
  refine lines_from_comment (fun l => l.length ≤ S - 2 ∧ (line_tokens l).length ≤ MAXBUF)
    bd _ (by simpa using hr) ?_ [] h
  intro l hl
  rw [line_tokens_comment] at hl
  refine ⟨?_, hl.2⟩
  have := hl.1
  rw [List.length_append] at this
  omega

theorem write_nil (fp : FILE) (h : fp.pos ≤ fp.data.length) : fp.write [] = fp := by
  cases fp with
  | mk data pos =>
    simp only at h
    simp only [FILE.write, List.append_nil, List.length_nil, Nat.add_zero]
    rw [Nat.sub_eq_zero_of_le h]
    simp

theorem write_pos_le (fp : FILE) (bs : List Nat) :
    (fp.write bs).pos ≤ (fp.write bs).data.length := by
  simp only [FILE.write, List.length_append, List.length_take, List.length_replicate,
    List.length_drop]
  omega

theorem fprintf_ok (cur : t_fileio) (fp : FILE) (bs : List Nat) (h : cur.fp = some fp) :
    fprintf cur bs = .ok ((bs.length : Int), { cur with fp := some (fp.write bs) }) := by
  simp [fprintf, h]

theorem dbgstr_off (E : Env) (cur : t_fileio) (ac : Option (List Nat)) (desc : List Nat) :
    dbgstr E { cur with bDebug := false } ac desc = .ok [] := by
  simp [dbgstr]

theorem dbgstr_on (E : Env) (cur : t_fileio) (ac : Option (List Nat)) (desc d : List Nat)
    (h : dbgstr E { cur with bDebug := true } ac desc = .ok d) :
    d = 32 :: 32 :: 59 :: (32 :: (ac.getD [] ++ [32] ++ desc)) := by
  unfold dbgstr at h
  simp only [Bool.not_true, Bool.false_eq_true, if_false] at h
  split at h
  · injection h with h
    rw [← h]
    simp
  · cases h

/-- A line that `do_ascwrite` writes with one `fprintf`: the same line is written
with debug off, without the comment. -/
theorem line_debug {α : Type} (E : Env) (ac : Option (List Nat)) (cur : t_fileio) (fp : FILE)
    (desc : List Nat) (LOAD : Res α) (F : α → List Nat) (r1 : Bool) (c1 : t_fileio)
    (hfp : cur.fp = some fp)
    (hon : ((LOAD.bind fun v => (dbgstr E { cur with bDebug := true } ac desc).bind fun d =>
        fprintf { cur with bDebug := true } (F v ++ d ++ [10])).bind
          fun r => Res.ok (decide (r.1 > 0), r.2)) = .ok (r1, c1)) :
    ∃ bd d r0, dbgstr E { cur with bDebug := true } ac desc = .ok d ∧
      c1.fp = some (fp.write (bd ++ d ++ [10])) ∧
      ((LOAD.bind fun v => (dbgstr E { cur with bDebug := false } ac desc).bind fun d =>
        fprintf { cur with bDebug := false } (F v ++ d ++ [10])).bind
          fun r => Res.ok (decide (r.1 > 0), r.2))
        = .ok (r0, { cur with bDebug := false, fp := some (fp.write (bd ++ [10])) }) := by
  obtain ⟨p, h1, h2⟩ := bind_eq_ok _ _ _ hon
  obtain ⟨v, hv, h3⟩ := bind_eq_ok _ _ _ h1
  obtain ⟨d, hd, h4⟩ := bind_eq_ok _ _ _ h3
  rw [fprintf_ok { cur with bDebug := true } fp _ hfp] at h4
  injection h4 with h4
  subst h4
  injection h2 with h2
  injection h2 with _ hc1
  subst hc1
  refine ⟨F v, d, decide ((((F v ++ [] ++ [10]).length : Nat) : Int) > 0), hd, rfl, ?_⟩
  rw [hv, bind_ok, dbgstr_off, bind_ok, fprintf_ok { cur with bDebug := false } fp _ hfp, bind_ok]
  simp

theorem ascwrite_uchars_text (item : Option (List Nat)) (n : Nat) :
    ∀ (k : Nat) (res : Int) (cur : t_fileio) (fp : FILE) (res1 : Int) (cur1 : t_fileio),
      cur.fp = some fp → fp.pos ≤ fp.data.length →
      ascwrite_uchars item n k res cur = .ok (res1, cur1) →
      ∃ bs, cur1 = { cur with fp := some (fp.write bs) } ∧
        ∀ (cur2 : t_fileio) (fp2 : FILE), cur2.fp = some fp2 → fp2.pos ≤ fp2.data.length →
          ascwrite_uchars item n k res cur2 = .ok (res1, { cur2 with fp := some (fp2.write bs) }) := by
  induction n with
  | zero =>
    intro k res cur fp res1 cur1 hfp hpos h
    simp only [ascwrite_uchars] at h
    injection h with h
    injection h with h1 h2
    subst h1
    subst h2
    refine ⟨[], ?_, ?_⟩
    · rw [write_nil fp hpos, handle_eta cur fp hfp]
    · intro cur2 fp2 hfp2 hpos2
      rw [write_nil fp2 hpos2, handle_eta cur2 fp2 hfp2]
      rfl
  | succ n ih =>
    intro k res cur fp res1 cur1 hfp hpos h
    rw [ascwrite_uchars] at h
    obtain ⟨u, hu, h1⟩ := bind_eq_ok _ _ _ h
    rw [fprintf_ok cur fp _ hfp, bind_ok] at h1
    obtain ⟨bs, hb1, hb2⟩ := ih (k + 1) _ { cur with fp := some (fp.write (pad_left 4 (fmt_int u))) }
      (fp.write (pad_left 4 (fmt_int u))) res1 cur1 rfl (write_pos_le _ _) h1
    refine ⟨pad_left 4 (fmt_int u) ++ bs, ?_, ?_⟩
    · rw [hb1, write_write]
    · intro cur2 fp2 hfp2 hpos2
      rw [ascwrite_uchars, hu, bind_ok, fprintf_ok cur2 fp2 _ hfp2, bind_ok]
      have := hb2 { cur2 with fp := some (fp2.write (pad_left 4 (fmt_int u))) }
        (fp2.write (pad_left 4 (fmt_int u))) rfl (write_pos_le _ _)
      rw [write_write] at this
      exact this

/-- What `do_ascwrite` writes for an item of kind INT, USHORT, IVEC, NUCHAR or
STRING with debug on is what it writes with debug off, with the comment in front
of the final line feed. -/
theorem do_ascwrite_debug_off (E : Env) (J : Junk) (ac : Option (List Nat)) (cur : t_fileio)
    (fp : FILE) (item : Option (List Nat)) (nitem eio : Int) (desc : List Nat) (r1 : Bool)
    (c1 : t_fileio)
    (hk : eio = eioINT ∨ eio = eioUSHORT ∨ eio = eioIVEC ∨ eio = eioNUCHAR ∨ eio = eioSTRING)
    (hfp : cur.fp = some fp) (hpos : fp.pos ≤ fp.data.length)
    (hon : do_ascwrite E J ac { cur with bDebug := true } item nitem eio desc = .ok (r1, c1)) :
    ∃ bd d r0, dbgstr E { cur with bDebug := true } ac desc = .ok d ∧
      c1.fp = some (fp.write (bd ++ d ++ [10])) ∧
      do_ascwrite E J ac { cur with bDebug := false } item nitem eio desc
        = .ok (r0, { cur with bDebug := false, fp := some (fp.write (bd ++ [10])) }) := by
  unfold do_ascwrite at hon ⊢
  obtain ⟨u, hchk, hon2⟩ := bind_eq_ok _ _ _ hon
  rw [hchk, bind_ok]
  clear hon
  rcases hk with rfl | rfl | rfl | rfl | rfl
  · rw [if_neg (by decide), if_pos rfl] at hon2 ⊢
    exact line_debug E ac cur fp desc (load_int item 0) (fun v => pad_left 18 (fmt_int v))
      r1 c1 hfp hon2
  · rw [if_neg (by decide), if_neg (by decide), if_neg (by decide), if_pos rfl] at hon2 ⊢
    exact line_debug E ac cur fp desc (load_ushort item) (fun v => pad_left 18 (fmt_int v))
      r1 c1 hfp hon2
  · rw [if_neg (by decide), if_neg (by decide), if_neg (by decide), if_neg (by decide),
      if_neg (by decide), if_neg (by decide), if_pos rfl] at hon2 ⊢
    obtain ⟨p, h1, h2⟩ := bind_eq_ok _ _ _ hon2
    obtain ⟨x, hx, h3⟩ := bind_eq_ok _ _ _ h1
    obtain ⟨y, hy, h4⟩ := bind_eq_ok _ _ _ h3
    obtain ⟨z, hz, h5⟩ := bind_eq_ok _ _ _ h4
    obtain ⟨d, hd, h6⟩ := bind_eq_ok _ _ _ h5
    rw [fprintf_ok { cur with bDebug := true } fp _ hfp] at h6
    injection h6 with h6
    subst h6
    injection h2 with h2
    injection h2 with _ hc1
    subst hc1
    refine ⟨pad_left 18 (fmt_int x) ++ pad_left 18 (fmt_int y) ++ pad_left 18 (fmt_int z), d,
      true, hd, rfl, ?_⟩
    rw [hx, bind_ok, hy, bind_ok, hz, bind_ok, dbgstr_off, bind_ok,
      fprintf_ok { cur with bDebug := false } fp _ hfp, bind_ok]
    simp
    omega
  · rw [if_neg (by decide), if_neg (by decide), if_pos rfl] at hon2 ⊢
    obtain ⟨p, h1, h2⟩ := bind_eq_ok _ _ _ hon2
    obtain ⟨q, hq, h3⟩ := bind_eq_ok _ _ _ h1
    obtain ⟨bs, hb1, hb2⟩ := ascwrite_uchars_text item nitem.toNat 0 J.res
      { cur with bDebug := true } fp q.1 q.2 hfp hpos hq
    obtain ⟨d, hd, h4⟩ := bind_eq_ok _ _ _ h3
    have hd2 : dbgstr E { cur with bDebug := true } ac desc = .ok d := by
      rw [← hd, hb1]
      rfl
    obtain ⟨w, hw, h5⟩ := bind_eq_ok _ _ _ h4
    rw [hb1, fprintf_ok _ (fp.write bs) _ rfl] at hw
    injection hw with hw
    subst hw
    injection h5 with h5
    subst h5
    injection h2 with h2
    injection h2 with _ hc1
    subst hc1
    refine ⟨bs, d, decide (q.1 > 0), hd2, ?_, ?_⟩
    · show some ((fp.write bs).write (d ++ [10])) = _
      rw [write_write, List.append_assoc]
    · rw [hb2 { cur with bDebug := false } fp hfp hpos, bind_ok]
      have hoff : dbgstr E { cur with bDebug := false, fp := some (fp.write bs) } ac desc
          = .ok [] := by
        simp [dbgstr]
      simp only [hoff, bind_ok, List.nil_append]
      rw [fprintf_ok _ (fp.write bs) _ rfl, bind_ok, bind_ok, write_write]
  · rw [if_neg (by decide), if_neg (by decide), if_neg (by decide), if_neg (by decide),
      if_neg (by decide), if_neg (by decide), if_neg (by decide), if_pos rfl] at hon2 ⊢
    exact line_debug E ac cur fp desc (load_string item) (fun v => pad_right 18 v)
      r1 c1 hfp hon2

theorem write_empty (X : List Nat) : FILE.write ⟨[], 0⟩ X = ⟨X, X.length⟩ := by
  simp [FILE.write]

/-- C19 (as amended): for an item of kind INT, USHORT, IVEC, NUCHAR or STRING and a
description and annotation without line feed, when `do_ascwrite` with debug on
returns (so `dbgstr` could hold the comment), the text it has written to an empty
stream has the same tokens, line by line, as the text written with debug off; and
when the text written with debug on has no NUL byte and fits the buffers of the
scanner (lines of at most `STRLEN - 2` characters and `MAXBUF` tokens), so does
the text written with debug off, and `next_item` returns the same tokens from
both. -/
theorem do_ascwrite_debug_tokens (E : Env) (J : Junk) (ac : Option (List Nat)) (cur : t_fileio)
    (item : Option (List Nat)) (nitem eio : Int) (desc : List Nat) (r1 : Bool) (c1 : t_fileio)
    (hk : eio = eioINT ∨ eio = eioUSHORT ∨ eio = eioIVEC ∨ eio = eioNUCHAR ∨ eio = eioSTRING)
    (hfp : cur.fp = some ⟨[], 0⟩) (hac : 10 ∉ ac.getD []) (hdesc : 10 ∉ desc)
    (hon : do_ascwrite E J ac { cur with bDebug := true } item nitem eio desc = .ok (r1, c1)) :
    ∃ ton toff r0, c1.fp = some ⟨ton, ton.length⟩ ∧
      do_ascwrite E J ac { cur with bDebug := false } item nitem eio desc
        = .ok (r0, { cur with bDebug := false, fp := some ⟨toff, toff.length⟩ }) ∧
      text_tokens ton = text_tokens toff ∧
      (3 ≤ E.STRLEN → 0 ∉ ton → fits E.STRLEN ton →
        fits E.STRLEN toff ∧
        ∃ sc1 fp1 sc2 fp2,
          next_items E.STRLEN (text_tokens toff).length Scanner.init ⟨ton, 0⟩
            = .ok (text_tokens toff, sc1, fp1) ∧
          next_items E.STRLEN (text_tokens toff).length Scanner.init ⟨toff, 0⟩
            = .ok (text_tokens toff, sc2, fp2)) := by
  obtain ⟨bd, d, r0, hd, hc1, hoff⟩ := do_ascwrite_debug_off E J ac cur ⟨[], 0⟩ item nitem eio desc
    r1 c1 hk hfp (Nat.le_refl _) hon
  have hdd := dbgstr_on E cur ac desc d hd
  have hr : 10 ∉ (32 :: (ac.getD [] ++ [32] ++ desc)) := by
    simp only [List.mem_cons, List.mem_append, List.not_mem_nil, or_false, not_or]
    exact ⟨by decide, ⟨hac, by decide⟩, hdesc⟩
  rw [write_empty] at hc1 hoff
  rw [hdd] at hc1
  have htok := text_tokens_comment bd _ hr
  refine ⟨_, _, r0, hc1, hoff, htok, ?_⟩
  intro hS hnul hfit
  have hfit2 := fits_comment E.STRLEN bd _ hr hfit
  have hnul2 : 0 ∉ bd ++ [10] := by
    intro h
    apply hnul
    rcases List.mem_append.1 h with h | h
    · exact List.mem_append_left _ (List.mem_append_left _ h)
    · exact List.mem_append_right _ h
  refine ⟨hfit2, ?_⟩
  obtain ⟨sc1, fp1, h1, _⟩ := next_items_spec E.STRLEN hS (text_tokens (bd ++ [10])) Scanner.init
    ⟨bd ++ (32 :: 32 :: 59 :: (32 :: (ac.getD [] ++ [32] ++ desc))) ++ [10], 0⟩
    htok hnul hfit
  obtain ⟨sc2, fp2, h2, _⟩ := next_items_spec E.STRLEN hS (text_tokens (bd ++ [10])) Scanner.init
    ⟨bd ++ [10], 0⟩ rfl hnul2 hfit2
  exact ⟨sc1, fp1, sc2, fp2, h1, h2⟩

/-- C19, at the INT 1 written with the annotation "x" and the description "n". -/
theorem do_ascwrite_debug_tokens_witness :
    do_ascwrite host junk0 (some (str "x")) { stream_handle .efTPA [] 0 with bDebug := true }
        (some [1, 0, 0, 0]) 1 eioINT (str "n")
      = .ok (true, { stream_handle .efTPA (str "                 1  ; x n\n") 26 with
          bDebug := true }) ∧
    ∃ ton toff r0,
      (some ⟨str "                 1  ; x n\n", 26⟩ : Option FILE) = some ⟨ton, ton.length⟩ ∧
      do_ascwrite host junk0 (some (str "x")) { stream_handle .efTPA [] 0 with bDebug := false }
          (some [1, 0, 0, 0]) 1 eioINT (str "n")
        = .ok (r0, { stream_handle .efTPA [] 0 with
            bDebug := false, fp := some ⟨toff, toff.length⟩ }) ∧
      text_tokens ton = text_tokens toff ∧
      (3 ≤ host.STRLEN → 0 ∉ ton → fits host.STRLEN ton →
        fits host.STRLEN toff ∧
        ∃ sc1 fp1 sc2 fp2,
          next_items host.STRLEN (text_tokens toff).length Scanner.init ⟨ton, 0⟩
            = .ok (text_tokens toff, sc1, fp1) ∧
          next_items host.STRLEN (text_tokens toff).length Scanner.init ⟨toff, 0⟩
            = .ok (text_tokens toff, sc2, fp2)) :=
  ⟨by decide,
    do_ascwrite_debug_tokens host junk0 (some (str "x")) (stream_handle .efTPA [] 0)
      (some [1, 0, 0, 0]) 1 eioINT (str "n") true
      { stream_handle .efTPA (str "                 1  ; x n\n") 26 with bDebug := true }
      (Or.inl rfl) rfl (by decide) (by decide) (by decide)⟩

/-- A line whose comment reaches past what `fgets2` can take: the first call of
`next_item` returns the token in front of the comment, the second the rest of the
comment. -/
theorem next_items_split_comment (S : Nat) (F R B tok : List Nat)
    (hC : ∀ c ∈ F ++ 32 :: 32 :: 59 :: R, c ≠ 0 ∧ c ≠ 10)
    (hlen : (F ++ 32 :: 32 :: 59 :: R).length = S - 1 - 1)
    (hF : line_tokens F = [tok])
    (hB : B ≠ []) (hBc : ∀ c ∈ B, c ≠ 0 ∧ c ≠ 59 ∧ isspace c = false)
    (hBl : B.length ≤ S - 1 - 1) :
    ∃ sc fp, next_items S 2 Scanner.init ⟨(F ++ 32 :: 32 :: 59 :: R) ++ (B ++ [10]), 0⟩
      = .ok ([tok, B], sc, fp) := by
  have hrest0 : FILE.rest ⟨(F ++ 32 :: 32 :: 59 :: R) ++ (B ++ [10]), 0⟩
      = (F ++ 32 :: 32 :: 59 :: R) ++ (B ++ [10]) := rfl
  have hchunk : fgets_chars (S - 1 - 1)
      (FILE.rest ⟨(F ++ 32 :: 32 :: 59 :: R) ++ (B ++ [10]), 0⟩) = F ++ 32 :: 32 :: 59 :: R := by
    rw [hrest0, ← hlen]
    exact fgets_chars_token _ _ (fun c hc => (hC c hc).2)
  have hne0 : FILE.rest ⟨(F ++ 32 :: 32 :: 59 :: R) ++ (B ++ [10]), 0⟩ ≠ [] := by
    rw [hrest0]
    intro h
    have := congrArg List.length h
    simp at this
  obtain ⟨sc1, h1, hq1⟩ := next_item_first S Scanner.init
    ⟨(F ++ 32 :: 32 :: 59 :: R) ++ (B ++ [10]), 0⟩ tok [] rfl hne0
    (by
      rw [hchunk, chop_newline_token _ hC, cstr_token _ (fun c hc => (hC c hc).1),
        line_tokens_comment]
      exact hF)
    (by decide)
  have hq2 : sc1.bufindex = [] := by
    cases hb : sc1.bufindex with
    | nil => rfl
    | cons j js => rw [hb] at hq1; simp at hq1
  rw [hchunk, hlen] at h1
  have hrest1 : FILE.rest ⟨(F ++ 32 :: 32 :: 59 :: R) ++ (B ++ [10]), 0 + (S - 1 - 1)⟩
      = B ++ [10] := by
    unfold FILE.rest
    simp only []
    rw [← hlen]
    have := drop_append_length (F ++ 32 :: 32 :: 59 :: R) (B ++ [10]) 0
    rw [List.drop_zero, Nat.add_zero] at this
    rw [Nat.zero_add]
    exact this
  have hne1 : FILE.rest ⟨(F ++ 32 :: 32 :: 59 :: R) ++ (B ++ [10]), 0 + (S - 1 - 1)⟩ ≠ [] := by
    rw [hrest1]
    intro h
    have := congrArg List.length h
    simp at this
  obtain ⟨sc2, h2, _⟩ := next_item_first S sc1
    ⟨(F ++ 32 :: 32 :: 59 :: R) ++ (B ++ [10]), 0 + (S - 1 - 1)⟩ B [] hq2 hne1
    (by
      rw [hrest1]
      have := line_tokens_first_chunk B [] [] 10 (S - 1 - 1) hB hBc (by simp) (Or.inl rfl) hBl
      simpa using this)
    (by decide)
  refine ⟨sc2, ?fp, ?h⟩
  case h =>
    simp only [next_items, h1, h2]
    exact rfl

theorem long_comment_line_split :
    long_comment_line
      = (str "                 1" ++ 32 :: 32 :: 59 :: (32 :: 32 :: List.replicate 4071 97))
        ++ (List.replicate 9 97 ++ [10]) := by
  have hs : str "                 1  ;  " = str "                 1" ++ [32, 32, 59, 32, 32] := by
    decide
  have hr : List.replicate 4080 97 = List.replicate 4071 97 ++ List.replicate 9 97 :=
    List.replicate_add 4071 9 97
  unfold long_comment_line
  rw [hs, hr]
  simp only [List.append_assoc, List.cons_append, List.nil_append]

theorem long_comment_chunk (c : Nat)
    (hc : c ∈ str "                 1" ++ 32 :: 32 :: 59 :: (32 :: 32 :: List.replicate 4071 97)) :
    c ≠ 0 ∧ c ≠ 10 := by
  have hF : ∀ c ∈ str "                 1", c ≠ 0 ∧ c ≠ 10 := by decide
  rcases List.mem_append.1 hc with h | h
  · exact hF c h
  · rcases List.mem_cons.1 h with rfl | h
    · decide
    rcases List.mem_cons.1 h with rfl | h
    · decide
    rcases List.mem_cons.1 h with rfl | h
    · decide
    rcases List.mem_cons.1 h with rfl | h
    · decide
    rcases List.mem_cons.1 h with rfl | h
    · decide
    rw [List.eq_of_mem_replicate h]
    decide

theorem next_items_long_comment_line :
    ∃ sc fp, next_items 4096 2 Scanner.init ⟨long_comment_line, 0⟩
      = .ok ([str "1", List.replicate 9 97], sc, fp) := by
  rw [long_comment_line_split]
  apply next_items_split_comment 4096 _ _ _ _ long_comment_chunk
  · rw [List.length_append, List.length_cons, List.length_cons, List.length_cons,
      List.length_cons, List.length_cons, List.length_replicate]
    rfl
  · decide
  · intro h
    have := congrArg List.length h
    rw [List.length_replicate] at this
    exact absurd this (by decide)
  · intro c hc
    rw [List.eq_of_mem_replicate hc]
    decide
  · rw [List.length_replicate]
    decide

/-- C19 as stated fails: the INT 1 written with debug on and a description of 4080
letters, without line feed, gives a line of 4103 characters, which `dbgstr` can
hold but `next_item` reads in two pieces: the scanner returns the token "1" and
then the last nine letters of the description as a second token, where the text
written with debug off holds the single token "1". -/
theorem do_ascwrite_long_comment_counterexample :
    do_ascwrite host junk0 none { stream_handle .efTPA [] 0 with bDebug := true }
        (some [1, 0, 0, 0]) 1 eioINT (List.replicate 4080 97)
      = .ok (true, { stream_handle .efTPA long_comment_line 4104 with bDebug := true }) ∧
    (∃ sc fp, next_items 4096 2 Scanner.init ⟨long_comment_line, 0⟩
      = .ok ([str "1", List.replicate 9 97], sc, fp)) ∧
    (do_ascwrite host junk0 none (stream_handle .efTPA [] 0)
        (some [1, 0, 0, 0]) 1 eioINT []).bind (fun r => .ok (r.1, r.2.fp))
      = .ok (true, some ⟨str "                 1\n", 19⟩) ∧
    text_tokens (str "                 1\n") = [str "1"] ∧
    next_items 4096 2 Scanner.init ⟨str "                 1\n", 0⟩ = .fatal "End of file" := by
  refine ⟨?_, next_items_long_comment_line, by decide, by decide, by decide⟩
  have hload : load_int (some [1, 0, 0, 0]) 0 = .ok 1 := by decide
  have hdbg : dbgstr host { stream_handle .efTPA [] 0 with bDebug := true } none
      (List.replicate 4080 97) = .ok (32 :: 32 :: 59 :: 32 :: 32 :: List.replicate 4080 97) := by
    unfold dbgstr
    rw [if_neg (by decide)]
    simp only []
    rw [if_pos]
    · rfl
    · show ([32, 32, 59, 32] ++ [] ++ [32] ++ List.replicate 4080 97).length < 4096
      rw [List.length_append, List.length_replicate]
      decide
  have hpad : pad_left 18 (fmt_int 1) ++ 32 :: 32 :: 59 :: 32 :: 32 :: List.replicate 4080 97
      ++ [10] = long_comment_line := by
    have hs : str "                 1  ;  " = pad_left 18 (fmt_int 1) ++ [32, 32, 59, 32, 32] := by
      decide
    unfold long_comment_line
    rw [hs]
    simp only [List.append_assoc, List.cons_append, List.nil_append]
  have hl : long_comment_line.length = 4104 := by
    unfold long_comment_line
    rw [List.length_append, List.length_append, List.length_replicate]
    rfl
  unfold do_ascwrite
  rw [show check_nitem eioINT 1 = .ok () from rfl, bind_ok, if_neg (by decide), if_pos rfl,
    hload, bind_ok, hdbg, bind_ok, fprintf_ok _ ⟨[], 0⟩ _ rfl, bind_ok, write_empty, hpad, hl]
  rfl


/-! ## The token queue -/

set_option maxRecDepth 20000 in
/-- C20 fails in the code: `next_item` stores `bufindex[nbuf++] = j0` for every
token of a line without comparing `nbuf` with `MAXBUF`. The line that
`do_ascwrite` emits for a byte array of 21 elements has 85 characters and 21
tokens: scanning it stores the offset of the last token at `bufindex[20]`, outside
the array, so `next_item`, and with it `do_ascread` of the array, has no defined
behaviour. A byte array of 20 elements is read back. -/
theorem next_item_queue_overflow :
    (do_ascwrite host junk0 none (stream_handle .efTPA [] 0) (some (List.replicate 21 7)) 21
        eioNUCHAR []).bind (fun r => .ok (r.1, r.2.fp))
      = .ok (true, some ⟨(List.replicate 21 (str "   7")).flatten ++ [10], 85⟩) ∧
    (text_tokens ((List.replicate 21 (str "   7")).flatten ++ [10])).length = 21 ∧
    next_item 4096 Scanner.init ⟨(List.replicate 21 (str "   7")).flatten ++ [10], 0⟩
      = .undefined ∧
    do_ascread host junk0
        (stream_handle .efTPA ((List.replicate 21 (str "   7")).flatten ++ [10]) 0)
        Scanner.init (some (List.replicate 21 0)) 21 eioNUCHAR = .undefined ∧
    (do_ascread host junk0
        (stream_handle .efTPA ((List.replicate 20 (str "   7")).flatten ++ [10]) 0)
        Scanner.init (some (List.replicate 20 0)) 20 eioNUCHAR).bind
        (fun r => .ok (r.1, r.2.1, Scanner.nbuf r.2.2.2))
      = .ok (true, some (List.replicate 20 7), 0) :=
  ⟨by decide, by decide, by decide, by decide, by decide⟩


end Gmxfio
